import Mathlib

/-!
A verification development for the symbolic Lie-point-symmetry engine of the
repository (modules `symmetries/jetspace.py`, `symmetries/generator.py`,
`symmetries/symcond.py`, `symmetries/basis.py`).

The embedding is shallow:

* sympy symbols become the type `Sym` (a wrapped name string, since the
  source identifies symbols by name);
* the polynomial fragment of sympy expressions becomes the inductive type
  `Expr`, with the smart constructors `Expr.addE` / `Expr.mulE` mirroring
  sympy's automatic evaluation of `Add`/`Mul` on the identities
  `0 + e = e`, `0 * e = 0`, `1 * e = e` and on literal numbers
  (the only automatic simplifications the proofs below depend on);
* python dictionaries (which preserve insertion order) become association
  lists, with lookups by decidable equality;
* python exceptions become `Except String`; every place where the source can
  raise (`ValueError`, `KeyError`, `StopIteration`, strict-zip mismatches) is
  an explicit `Except.error`;
* the external computer-algebra services that the source consumes from sympy
  and that the spec lists as external interfaces (equation solving for the
  hint substitution) are a function parameter `solve`;
* sympy's `expand` returns an expression equal to its argument modulo ring
  identities; it is modelled by the identity function, and all properties
  that the spec states "after expansion" are stated modulo the semantic
  equivalence `ExprEq` (equality of the represented polynomials).

"Equality after expansion" of the polynomial fragment is polynomial equality,
captured by `toPoly : Expr → MvPolynomial Sym ℤ` and `ExprEq`.
-/

deriving instance DecidableEq for Except

namespace SymmSpec

/-- A sympy symbol: the source identifies symbols purely by their name
string (`Symbol(name)`), so the embedding does the same. -/
structure Sym where
  name : String
deriving DecidableEq, Repr

/-- The polynomial fragment of sympy expressions used by the core:
integer numbers, symbols, sums and products.  (`a - b` is
`a + (-1) * b` in sympy's representation, see `Expr.subE`.) -/
inductive Expr where
  | num : Int → Expr
  | sym : Sym → Expr
  | add : Expr → Expr → Expr
  | mul : Expr → Expr → Expr
deriving DecidableEq, Repr

namespace Expr

/-- sympy's auto-evaluating `Add` on the fragment: drops zero summands and
adds literal numbers; otherwise builds a syntactic sum.  (sympy's automatic
evaluation also collects like terms; only the fragment below is relied on.) -/
def addE (a b : Expr) : Expr :=
  if a = num 0 then b
  else if b = num 0 then a
  else
    match a, b with
    | num m, num n => num (m + n)
    | _, _ => add a b

/-- sympy's auto-evaluating `Mul` on the fragment: annihilates on zero,
drops unit factors and multiplies literal numbers; otherwise builds a
syntactic product. -/
def mulE (a b : Expr) : Expr :=
  if a = num 0 ∨ b = num 0 then num 0
  else if a = num 1 then b
  else if b = num 1 then a
  else
    match a, b with
    | num m, num n => num (m * n)
    | _, _ => mul a b

/-- sympy negation `-e`, which is represented as `Mul(-1, e)`. -/
def negE (a : Expr) : Expr := mulE (num (-1)) a

/-- sympy subtraction `a - b`, which is represented as `Add(a, Mul(-1, b))`. -/
def subE (a b : Expr) : Expr := addE a (negE b)

/-- `e.diff(s)`: the partial derivative of an expression with respect to a
symbol, all other symbols being treated as independent coordinates.  The
product rule is emitted as `a' * b + a * b'` (the exact term order is
irrelevant: it only ever matters modulo `ExprEq`). -/
def diff : Expr → Sym → Expr
  | num _, _ => num 0
  | sym t, s => if t = s then num 1 else num 0
  | add a b, s => addE (a.diff s) (b.diff s)
  | mul a b, s => addE (mulE (a.diff s) b) (mulE a (b.diff s))

/-- Substitution of a single symbol by an expression, rebuilding the tree
through the auto-evaluating constructors (as sympy's `subs` does). -/
def subsOne : Expr → Sym → Expr → Expr
  | num n, _, _ => num n
  | sym t, s, r => if t = s then r else sym t
  | add a b, s, r => addE (a.subsOne s r) (b.subsOne s r)
  | mul a b, s, r => mulE (a.subsOne s r) (b.subsOne s r)

/-- `e.subs(pairs)`: sympy applies a list of `(old, new)` pairs
sequentially. -/
def subs (e : Expr) (ps : List (Sym × Expr)) : Expr :=
  ps.foldl (fun acc p => acc.subsOne p.1 p.2) e

/-- Whether an expression contains none of the given symbols (sympy's
`free_symbols` disjointness check). -/
def freeOf : Expr → List Sym → Bool
  | num _, _ => true
  | sym t, basis => decide (t ∉ basis)
  | add a b, basis => a.freeOf basis && b.freeOf basis
  | mul a b, basis => a.freeOf basis && b.freeOf basis

/-- sympy's `expand` rewrites an expression to an expanded representative of
the same polynomial.  The embedding keeps the syntax tree and tracks
expansion equality through the polynomial interpretation (`ExprEq` below):
every property about the *value* of an expanded result is stated modulo that
equivalence, so on representatives `expand` acts as the identity.  Where the
source *branches* on an expanded/canonicalized value — the falsy-coefficient
filter of `decompose_generator`, whose coefficients sympy's `expand`/`poly`
collapse to the literal `0` exactly when they are zero as polynomials — the
embedding decides that zero-ness with the polynomial normal form
`Expr.polyNF` instead of looking at the representative's syntax. -/
def expand (e : Expr) : Expr := e

end Expr

/-- Interpretation of the expression fragment as a genuine multivariate
polynomial.  Two sympy expressions of the fragment are "equal after
expansion" exactly when they represent the same polynomial. -/
noncomputable def toPoly : Expr → MvPolynomial Sym ℤ
  | Expr.num n => MvPolynomial.C n
  | Expr.sym s => MvPolynomial.X s
  | Expr.add a b => toPoly a + toPoly b
  | Expr.mul a b => toPoly a * toPoly b

/-- Semantic equality of expressions ("equality after `expand`"). -/
def ExprEq (a b : Expr) : Prop := toPoly a = toPoly b

/-! ### A computable polynomial normal form

sympy's automatic evaluation and `expand` collect like terms, so an
expression whose expanded form is the literal `0` is exactly an expression
that is zero as a polynomial.  Python truthiness tests on sympy coefficients
(`if coeff:` in `basis.decompose_generator`, where the coefficients come
from the canonicalizing `poly(...)`) therefore test polynomial non-zeroness.
The embedding decides that with a sparse normal form: a monomial is the
name-sorted list of its symbols (with multiplicity), a polynomial the list
of its monomials with non-zero integer coefficients, like terms always
merged. -/

/-- A monomial: the symbols of a product, kept sorted by name. -/
abbrev MonKey := List Sym

/-- Byte-wise lexicographic comparison of symbol names (the concrete order
is irrelevant; it only fixes a canonical ordering of monomials). -/
def charsLe : List Char → List Char → Bool
  | [], _ => true
  | _ :: _, [] => false
  | c1 :: l1, c2 :: l2 =>
    if c1.toNat < c2.toNat then true
    else if c2.toNat < c1.toNat then false
    else charsLe l1 l2

/-- Insert a symbol into a name-sorted monomial. -/
def insertSym (a : Sym) : MonKey → MonKey
  | [] => [a]
  | b :: l => if charsLe a.name.data b.name.data then a :: b :: l else b :: insertSym a l

/-- The product of two monomials: merge the symbol lists. -/
def mulKey (k1 k2 : MonKey) : MonKey := k1.foldr insertSym k2

/-- Add a single term into a normal form, merging with an existing term of
the same monomial and dropping the term when the coefficient cancels. -/
def addTermNF (k : MonKey) (c : Int) : List (MonKey × Int) → List (MonKey × Int)
  | [] => if c = 0 then [] else [(k, c)]
  | (k2, c2) :: rest =>
    if k = k2 then (if c + c2 = 0 then rest else (k, c + c2) :: rest)
    else (k2, c2) :: addTermNF k c rest

/-- Sum of two normal forms. -/
def addNF (l1 l2 : List (MonKey × Int)) : List (MonKey × Int) :=
  l1.foldl (fun acc p => addTermNF p.1 p.2 acc) l2

/-- Product of two normal forms. -/
def mulNF (l1 l2 : List (MonKey × Int)) : List (MonKey × Int) :=
  l1.foldl (fun acc p =>
    addNF (l2.map (fun q => (mulKey p.1 q.1, p.2 * q.2))) acc) []

/-- The sparse normal form of an expression: its terms after full expansion
and collection of like terms, as sympy's `expand` / `poly` produce them. -/
def Expr.polyNF : Expr → List (MonKey × Int)
  | Expr.num n => if n = 0 then [] else [([], n)]
  | Expr.sym s => [([s], 1)]
  | Expr.add a b => addNF a.polyNF b.polyNF
  | Expr.mul a b => mulNF a.polyNF b.polyNF

/-- Whether an expression is zero as a polynomial — equivalently, whether
sympy's `expand` collapses it to the falsy literal `0`. -/
def Expr.isZeroPoly (e : Expr) : Bool := e.polyNF.isEmpty

/-- The polynomial denoted by a monomial. -/
noncomputable def evalKey (k : MonKey) : MvPolynomial Sym ℤ :=
  (k.map MvPolynomial.X).prod

/-- The polynomial denoted by a normal form. -/
noncomputable def evalNF (l : List (MonKey × Int)) : MvPolynomial Sym ℤ :=
  (l.map (fun p => MvPolynomial.C p.2 * evalKey p.1)).sum

/-! ### Derivative multi-indices

A multi-index is a tuple of natural numbers, one slot per base coordinate;
the source represents them as python tuples, the embedding as `List Nat`. -/

/-- A derivative multi-index. -/
abbrev MIdx := List Nat

/-- The unit multi-index `(0,)*i + (1,) + (0,)*(n-i-1)` used throughout
`jetspace.py` and `generator.py`. -/
def unitIdx (n i : Nat) : MIdx :=
  List.replicate i 0 ++ 1 :: List.replicate (n - i - 1) 0

/-- Componentwise sum, `tuple(map(operator.add, a, b))`: like python's
2-argument `map`, it truncates to the shorter tuple. -/
def vecAdd (a b : MIdx) : MIdx := List.zipWith (· + ·) a b

/-- Componentwise difference, `tuple(map(operator.sub, a, b))`. -/
def vecSub (a b : MIdx) : MIdx := List.zipWith (· - ·) a b

/-- `tuple(map(sum, zip(*tuples)))`: the componentwise sum of a list of
tuples.  For an empty list python's `zip(*[])` yields the empty tuple. -/
def sumIndices : List MIdx → MIdx
  | [] => []
  | v :: vs => vs.foldl vecAdd v

/-- `itertools.combinations_with_replacement(l, d)`: all weakly increasing
selections of `d` elements of `l` by position, in the order itertools emits
them (lexicographic by position). -/
def cwr {α : Type} : Nat → List α → List (List α)
  | 0, _ => [[]]
  | d + 1, l =>
    l.tails.flatMap (fun s =>
      match s with
      | [] => []
      | x :: _ => (cwr d s).map (fun c => x :: c))

/-! ### Jet spaces (`jetspace.py`) -/

/-- First-match lookup in an association list (python dict access
`d[k]`, returning `none` where python raises `KeyError`). -/
def alookup {α β : Type} [DecidableEq α] : List (α × β) → α → Option β
  | [], _ => none
  | p :: rest, a => if p.1 = a then some p.2 else alookup rest a

/-- Two-level dict access `fibers[dep][idx]`. -/
def lookup2 {β : Type} (fibers : List (Sym × List (MIdx × β))) (dep : Sym)
    (idx : MIdx) : Option β :=
  match alookup fibers dep with
  | none => none
  | some tbl => alookup tbl idx

/-- `JetSpace`: degree, ordered base coordinates, and the fiber table
mapping each dependent symbol to its (insertion-ordered) dictionary from
derivative multi-indices to derivative symbols.  Python dicts preserve
insertion order; during construction every inserted key is fresh, so the
dicts are modelled by association lists extended by appending. -/
structure JetSpace where
  degree : Nat
  base_space : List Sym
  fibers : List (Sym × List (MIdx × Sym))
deriving DecidableEq, Repr

/-- The name of a derivative symbol:
`dependent.name + "_{" + "".join(map(str, deriv_symbol)) + "}"`. -/
def derivSymName (dep : Sym) (comb : List Sym) : String :=
  dep.name ++ "_\x7b" ++ String.join (comb.map Sym.name) ++ "\x7d"

/-- The derivative symbol generated by `_add_jet_fibers`. -/
def derivSym (dep : Sym) (comb : List Sym) : Sym := ⟨derivSymName dep comb⟩

/-- `deriv_tuples` of `_add_jet_fibers`: the unit multi-indices. -/
def derivTuples (n : Nat) : List MIdx := (List.range n).map (unitIdx n)

/-- The `deriv_indices` of one degree-`d` round of `_add_jet_fibers`. -/
def derivIndices (n d : Nat) : List MIdx := (cwr d (derivTuples n)).map sumIndices

/-- The `(deriv_index, deriv_symbol)` entries added for one dependent and
one degree `d` by `_add_jet_fibers`. -/
def jetBlock (base_space : List Sym) (dep : Sym) (d : Nat) : List (MIdx × Sym) :=
  (List.zip (derivIndices base_space.length d) (cwr d base_space)).map
    (fun p => (p.1, derivSym dep p.2))

/-- `JetSpace._add_jet_fibers(upper_degree, lower_degree)`: for each degree
`d` in `range(lower, upper + 1)` append the fresh degree-`d` entries to
every dependent's table. -/
def addJetFibers (base_space : List Sym)
    (fibers : List (Sym × List (MIdx × Sym))) (lower upper : Nat) :
    List (Sym × List (MIdx × Sym)) :=
  (List.range' lower (upper + 1 - lower)).foldl
    (fun fbs d => fbs.map (fun p => (p.1, p.2 ++ jetBlock base_space p.1 d)))
    fibers

/-- `JetSpace.__init__(base_coord, fiber_coord, degree)` (with list
arguments; `iter_wrapper` normalization of scalars is a python dynamic-typing
concern outside the fragment).  Each fiber's dict is seeded with the zero
multi-index mapping to the dependent symbol itself, then `_add_jet_fibers`
adds degrees `1 .. degree`. -/
def JetSpace.make (base_coord fiber_coord : List Sym) (degree : Nat) : JetSpace :=
  { degree := degree
    base_space := base_coord
    fibers :=
      addJetFibers base_coord
        (fiber_coord.map (fun c => (c, [((List.replicate base_coord.length 0 : MIdx), c)])))
        1 degree }

/-- `JetSpace.base_index(base_symbol)`: unit multi-index of a base symbol
(first occurrence, as python's `list.index`); `none` where the source raises
`ValueError`. -/
def JetSpace.base_index (js : JetSpace) (s : Sym) : Option MIdx :=
  (js.base_space.findIdx? (fun b => b = s)).map (unitIdx js.base_space.length)

/-- The unchecked core of `JetSpace.extension`: deep copy plus
`_add_jet_fibers(degree + 1, new_degree)` plus the degree update.  (The
source's deep copy makes the operation non-mutating; in the pure embedding
this is inherent.) -/
def JetSpace.extended (js : JetSpace) (new_degree : Nat) : JetSpace :=
  { degree := new_degree
    base_space := js.base_space
    fibers := addJetFibers js.base_space js.fibers (js.degree + 1) new_degree }

/-- `JetSpace.extension(new_degree)`: requires `new_degree > degree`, else
raises `ValueError("Extension must be to higher degree")`. -/
def JetSpace.extension (js : JetSpace) (new_degree : Nat) : Except String JetSpace :=
  if js.degree < new_degree then Except.ok (js.extended new_degree)
  else Except.error "Extension must be to higher degree"

/-- `JetSpace.dependents`: the original fiber symbols in insertion order. -/
def JetSpace.dependents (js : JetSpace) : List Sym := js.fibers.map Prod.fst

/-! ### The total derivative (`jetspace.total_derivative`) -/

/-- The inner loop of `total_derivative` over one dependent's fiber dict:
`diff_jet_exp += deriv_symbol * jet_exp.diff(fiber_coord)` with
`deriv_symbol` looked up in the extended space (`Except.error` where python
would raise `KeyError`). -/
def tdFoldFiber (codomain : JetSpace) (coord_index : MIdx) (jet_exp : Expr)
    (dep : Sym) : List (MIdx × Sym) → Expr → Except String Expr
  | [], acc => Except.ok acc
  | (fiber_index, fiber_coord) :: rest, acc =>
    match lookup2 codomain.fibers dep (vecAdd fiber_index coord_index) with
    | none => Except.error "KeyError"
    | some deriv_symbol =>
      tdFoldFiber codomain coord_index jet_exp dep rest
        (Expr.addE acc (Expr.mulE (Expr.sym deriv_symbol) (jet_exp.diff fiber_coord)))

/-- The outer loop of `total_derivative` over all dependents. -/
def tdFold (codomain : JetSpace) (coord_index : MIdx) (jet_exp : Expr) :
    List (Sym × List (MIdx × Sym)) → Expr → Except String Expr
  | [], acc => Except.ok acc
  | (dep, depFibers) :: rest, acc =>
    match tdFoldFiber codomain coord_index jet_exp dep depFibers acc with
    | Except.error e => Except.error e
    | Except.ok acc2 => tdFold codomain coord_index jet_exp rest acc2

/-- `total_derivative(jet_exp, coordinate, domain)`: the chain-rule total
derivative, looking the next-higher derivative coordinates up in
`domain.extension(domain.degree + 1)`. -/
def total_derivative (jet_exp : Expr) (coordinate : Sym) (domain : JetSpace) :
    Except String Expr :=
  match domain.base_index coordinate with
  | none => Except.error "ValueError: coordinate is not in the base space"
  | some coord_index =>
    tdFold (domain.extended (domain.degree + 1)) coord_index jet_exp
      domain.fibers (jet_exp.diff coordinate)

/-- `total_derivative` with the source's error outcomes defaulted to the
zero expression; used by the specification-side prolongation formulas (which
only ever evaluate it where the source succeeds). -/
def tdD (jet_exp : Expr) (coordinate : Sym) (domain : JetSpace) : Expr :=
  match total_derivative jet_exp coordinate domain with
  | Except.ok r => r
  | Except.error _ => Expr.num 0

/-- The inner loop of `total_derivative` with the derivative-coordinate
lookups defaulted (total counterpart of `tdFoldFiber`; the two agree whenever
every lookup succeeds). -/
def tdFoldFiberP (codomain : JetSpace) (coord_index : MIdx) (jet_exp : Expr)
    (dep : Sym) : List (MIdx × Sym) → Expr → Expr
  | [], acc => acc
  | (fiber_index, fiber_coord) :: rest, acc =>
    tdFoldFiberP codomain coord_index jet_exp dep rest
      (Expr.addE acc
        (Expr.mulE
          (Expr.sym ((lookup2 codomain.fibers dep (vecAdd fiber_index coord_index)).getD
            ⟨"KeyError"⟩))
          (jet_exp.diff fiber_coord)))

/-- The outer loop of `total_derivative`, total counterpart of `tdFold`. -/
def tdFoldP (codomain : JetSpace) (coord_index : MIdx) (jet_exp : Expr) :
    List (Sym × List (MIdx × Sym)) → Expr → Expr
  | [], acc => acc
  | (dep, depFibers) :: rest, acc =>
    tdFoldP codomain coord_index jet_exp rest
      (tdFoldFiberP codomain coord_index jet_exp dep depFibers acc)

/-! ### Generators and prolongation (`generator.py`) -/

/-- `utils.zip_strict`: zips two lists, raising
`ValueError("Iterables have different lengths")` on a length mismatch. -/
def zipStrict {α β : Type} : List α → List β → Except String (List (α × β))
  | [], [] => Except.ok []
  | a :: l1, b :: l2 =>
    match zipStrict l1 l2 with
    | Except.error e => Except.error e
    | Except.ok rest => Except.ok ((a, b) :: rest)
  | _, _ => Except.error "Iterables have different lengths"

/-- The `omega_(n-1) * D(xi)` loop of `get_prolongations`: iterates over the
strictly zipped `(base_coord, xi)` pairs subtracting
`deriv_coord * total_derivative(xi, base_coord, jet_space)` from the
accumulated prolongation component. -/
def xiTermsFold (js : JetSpace) (dep : Sym) (prev_index : MIdx) :
    List (Sym × Expr) → Expr → Except String Expr
  | [], acc => Except.ok acc
  | (base_coord, xi) :: rest, acc =>
    match js.base_index base_coord with
    | none => Except.error "ValueError: coordinate is not in the base space"
    | some base_idx =>
      match lookup2 js.fibers dep (vecAdd prev_index base_idx) with
      | none => Except.error "KeyError"
      | some deriv_coord =>
        match total_derivative xi base_coord js with
        | Except.error e => Except.error e
        | Except.ok td =>
          xiTermsFold js dep prev_index rest
            (Expr.subE acc (Expr.mulE (Expr.sym deriv_coord) td))

/-- The body of `get_prolongations`'s loop over one (non-zero) multi-index:
compute the index class (first non-zero slot), the predecessor index, the
`D(eta_(n-1))` component, subtract the `omega * D(xi)` terms, and append the
finished entry.  `Except.error` models the `StopIteration` /
`IndexError` / `KeyError` exceptions the source raises on malformed input. -/
def prolongStep (xis : List Expr) (js : JetSpace) (dep : Sym)
    (acc : List (MIdx × Expr)) (multiindex : MIdx) :
    Except String (List (MIdx × Expr)) :=
  match multiindex.findIdx? (fun x => x ≠ 0) with
  | none => Except.error "StopIteration"
  | some index_class =>
    match js.base_space[index_class]? with
    | none => Except.error "IndexError"
    | some leading_deriv_symbol =>
      let prev_index := vecSub multiindex (unitIdx js.base_space.length index_class)
      match alookup acc prev_index with
      | none => Except.error "KeyError"
      | some prev_prolongation =>
        match total_derivative prev_prolongation leading_deriv_symbol js with
        | Except.error e => Except.error e
        | Except.ok eta_component =>
          match zipStrict js.base_space xis with
          | Except.error e => Except.error e
          | Except.ok pairs =>
            match xiTermsFold js dep prev_index pairs eta_component with
            | Except.error e => Except.error e
            | Except.ok value => Except.ok (acc ++ [(multiindex, value)])

/-- Iterating `prolongStep` over a list of multi-indices. -/
def prolongFold (xis : List Expr) (js : JetSpace) (dep : Sym) :
    List MIdx → List (MIdx × Expr) → Except String (List (MIdx × Expr))
  | [], acc => Except.ok acc
  | mi :: rest, acc =>
    match prolongStep xis js dep acc mi with
    | Except.error e => Except.error e
    | Except.ok acc2 => prolongFold xis js dep rest acc2

/-- The per-dependent part of `get_prolongations`: seed the table with the
zero multi-index mapping to `eta`, skip the first key of the fiber dict, and
process the remaining multi-indices in insertion (ascending-degree) order.
An empty fiber dict makes the source's `next(multiindex_iter)` raise
`StopIteration`. -/
def prolongFiber (xis : List Expr) (js : JetSpace) (dep : Sym) (eta : Expr)
    (fiberTable : List (MIdx × Sym)) : Except String (List (MIdx × Expr)) :=
  match fiberTable with
  | [] => Except.error "StopIteration"
  | _ :: rest =>
    prolongFold xis js dep (rest.map Prod.fst)
      [((List.replicate js.base_space.length 0 : MIdx), eta)]

/-- The outer loop of `get_prolongations` over
`zip_strict(jet_space.fibers, etas)`.  The generator's `zip_strict` is
consumed lazily, so a length mismatch only surfaces after the common prefix
has been processed (as here). -/
def prolongAll (xis : List Expr) (js : JetSpace) :
    List (Sym × List (MIdx × Sym)) → List Expr →
    Except String (List (Sym × List (MIdx × Expr)))
  | [], [] => Except.ok []
  | (dep, tbl) :: fs, eta :: es =>
    match prolongFiber xis js dep eta tbl with
    | Except.error e => Except.error e
    | Except.ok t =>
      match prolongAll xis js fs es with
      | Except.error e => Except.error e
      | Except.ok rest => Except.ok ((dep, t) :: rest)
  | _, _ => Except.error "Iterables have different lengths"

/-- `generator.get_prolongations(xis, etas, jet_space)`: the prolonged fiber
expressions, ordered firstly by original fiber and secondly by derivative
multi-index. -/
def get_prolongations (xis etas : List Expr) (jet_space : JetSpace) :
    Except String (List (Sym × List (MIdx × Expr))) :=
  prolongAll xis jet_space jet_space.fibers etas

/-- An infinitesimal generator: `xis`, `etas` and the total space the
generator acts on.  The constructor (`Generator.__init__`) sympifies and
stores the given components without any validation; `sympify` is the
identity on the embedded fragment. -/
structure Generator where
  xis : List Expr
  etas : List Expr
  total_space : List Sym × List Sym
deriving DecidableEq, Repr

/-- `Generator.__init__` (with list arguments): stores the components
unchanged.  No length check of any kind is performed. -/
def Generator.make (xis etas : List Expr) (total_space : List Sym × List Sym) :
    Generator :=
  { xis := xis, etas := etas, total_space := total_space }

/-- The `xi * expr.diff(base_coord)` loop of `Generator.__call__` over the
plainly zipped (hence truncating) `(base_coord, xi)` pairs. -/
def applyBaseFold (expr : Expr) : List (Sym × Expr) → Expr → Expr
  | [], acc => acc
  | (base_coord, xi) :: rest, acc =>
    applyBaseFold expr rest (Expr.addE acc (Expr.mulE xi (expr.diff base_coord)))

/-- The inner fiber loop of `Generator.__call__` over one dependent's
dict: `out_expr += eta_prolongation * expr.diff(derivative_coordinate)`,
with the prolongation looked up in the prolongation table (`KeyError` when
absent). -/
def applyFiberInner (expr : Expr) (prol : List (Sym × List (MIdx × Expr)))
    (dep : Sym) : List (MIdx × Sym) → Expr → Except String Expr
  | [], acc => Except.ok acc
  | (multiindex, coordSym) :: rest, acc =>
    match lookup2 prol dep multiindex with
    | none => Except.error "KeyError"
    | some eta_prolongation =>
      applyFiberInner expr prol dep rest
        (Expr.addE acc (Expr.mulE eta_prolongation (expr.diff coordSym)))

/-- The outer fiber loop of `Generator.__call__` over all dependents. -/
def applyFiberFold (expr : Expr) (prol : List (Sym × List (MIdx × Expr))) :
    List (Sym × List (MIdx × Sym)) → Expr → Except String Expr
  | [], acc => Except.ok acc
  | (dep, tbl) :: rest, acc =>
    match applyFiberInner expr prol dep tbl acc with
    | Except.error e => Except.error e
    | Except.ok acc2 => applyFiberFold expr prol rest acc2

/-- `Generator.__call__(expr, jet_space)` with an explicit jet space:
compute the prolongations, then apply the differential operator in every
jet-space coordinate. -/
def Generator.apply (g : Generator) (expr : Expr) (jet_space : JetSpace) :
    Except String Expr :=
  match get_prolongations g.xis g.etas jet_space with
  | Except.error e => Except.error e
  | Except.ok eta_prolongations =>
    applyFiberFold expr eta_prolongations jet_space.fibers
      (applyBaseFold expr (List.zip jet_space.base_space g.xis) (Expr.num 0))

/-- `Generator.__add__`: requires equal total spaces (else
`NotImplementedError("Generators have to be in same coordinates")`), then
adds componentwise over python's plain (truncating) `zip`, expanding each
component. -/
def Generator.add (g1 g2 : Generator) : Except String Generator :=
  if g1.total_space = g2.total_space then
    Except.ok
      { xis := List.zipWith (fun a b => (Expr.addE a b).expand) g1.xis g2.xis
        etas := List.zipWith (fun a b => (Expr.addE a b).expand) g1.etas g2.etas
        total_space := g1.total_space }
  else Except.error "Generators have to be in same coordinates"

/-- `Generator.__rmul__`: scalar multiplication `other * generator`,
expanding each component. -/
def Generator.rmul (c : Expr) (g : Generator) : Generator :=
  { xis := g.xis.map (fun xi => (Expr.mulE c xi).expand)
    etas := g.etas.map (fun eta => (Expr.mulE c eta).expand)
    total_space := g.total_space }

/-! ### The symmetry condition evaluator (`symcond.py`)

The algebraic solving of an equation for its hint coordinate is delegated by
the source to sympy's `linsolve`, which the spec lists among the external
symbolic-algebra services.  It is modelled by a function parameter
`solve : Expr → Sym → List Expr` returning the solution branches of the
single equation for the single unknown (the `rhs[0][0]` projections of
`linsolve([diff_eq], subs_coord)`). -/

/-- The interleaved consumption of `zip(subs_coords, substitutions())` in
`find_submanifold_subs`: python's plain `zip` stops silently once the hint
list is exhausted, while exhausting the equation list first makes the inner
`zip_strict` raise.  Zero solution branches raise
`ValueError(f"Hint {subs_coord} is not in equation")`; more than one branch
raises `ValueError(f"Hint {subs_coord} has multiple" "solutions")` (the
source's adjacent string literals concatenate without a space). -/
def fssAux (solve : Expr → Sym → List Expr) :
    List Expr → List Sym → Except String (List (Sym × Expr))
  | _, [] => Except.ok []
  | [], _ :: _ => Except.error "Iterables have different lengths"
  | diff_eq :: eqs, subs_coord :: coords =>
    match solve diff_eq subs_coord with
    | [] => Except.error ("Hint " ++ subs_coord.name ++ " is not in equation")
    | [r] =>
      match fssAux solve eqs coords with
      | Except.error e => Except.error e
      | Except.ok rest => Except.ok ((subs_coord, r) :: rest)
    | _ :: _ :: _ =>
      Except.error ("Hint " ++ subs_coord.name ++ " has multiplesolutions")

/-- `symcond.find_submanifold_subs(diff_eqs, jet_space, derivative_hints)`:
hint-free mode raises `NotImplementedError`; otherwise each equation is
solved for its hint coordinate and the substitution pairs are returned.
(The `jet_space` argument is unused by the source.  The source also
constructs, but forgets to raise, a `ValueError` for duplicated hints; that
dead statement has no observable effect and is not modelled.) -/
def find_submanifold_subs (solve : Expr → Sym → List Expr) (diff_eqs : List Expr)
    (jet_space : JetSpace) (derivative_hints : List Sym) :
    Except String (List (Sym × Expr)) :=
  match jet_space, derivative_hints with
  | _, [] => Except.error "Hint-free substitutions not implemented"
  | _, _ :: _ => fssAux solve diff_eqs derivative_hints

/-- The final comprehension of `get_lin_symmetry_cond`: the generator is
applied lazily to each equation and the submanifold substitutions are applied
to the result. -/
def glscAux (g : Generator) (js : JetSpace) (subs : List (Sym × Expr)) :
    List Expr → Except String (List Expr)
  | [] => Except.ok []
  | eq1 :: eqs =>
    match g.apply eq1 js with
    | Except.error e => Except.error e
    | Except.ok halfway =>
      match glscAux g js subs eqs with
      | Except.error e => Except.error e
      | Except.ok rest => Except.ok (halfway.subs subs :: rest)

/-- `symcond.get_lin_symmetry_cond(diff_eqs, generator, jet_space,
derivative_hints)` (list form).  The `eqs_halfway` generator expression is
lazy, so `find_submanifold_subs` runs — and can fail — before any
application of the generator. -/
def get_lin_symmetry_cond (solve : Expr → Sym → List Expr) (diff_eqs : List Expr)
    (generator : Generator) (jet_space : JetSpace)
    (derivative_hints : List Sym) : Except String (List Expr) :=
  match find_submanifold_subs solve diff_eqs jet_space derivative_hints with
  | Except.error e => Except.error e
  | Except.ok submanifold_subs => glscAux generator jet_space submanifold_subs diff_eqs

/-- The `@optional_iter` single-input form of `get_lin_symmetry_cond`: a
non-iterable first argument is wrapped into a singleton and the first element
of the result is returned. -/
def get_lin_symmetry_cond_single (solve : Expr → Sym → List Expr)
    (diff_eq : Expr) (generator : Generator) (jet_space : JetSpace)
    (derivative_hint : Sym) : Except String Expr :=
  match get_lin_symmetry_cond solve [diff_eq] generator jet_space [derivative_hint] with
  | Except.error e => Except.error e
  | Except.ok [] => Except.error "StopIteration"
  | Except.ok (r :: _) => Except.ok r

/-! ### Generator decomposition (`basis.py`)

The source converts each component to a sympy polynomial in the basis
symbols (`poly(xi, basis)`) and extracts the coefficient of the monomial `1`
and of each basis symbol (`coeff_monomial`).  The source documents that only
decomposition of generators *linear* in the basis is implemented, so the
extraction is modelled on the linear fragment: `linDecomp` returns the
constant coefficient and the coefficient of each basis symbol whenever the
expression is (syntactically) at most linear in the basis symbols with
basis-free coefficients, and `none` otherwise. -/

/-- Coefficient extraction of an expression linear in the basis symbols:
returns `(constant coefficient, coefficient of each basis symbol)`.  Models
sympy's `poly(e, basis)` followed by `coeff_monomial(1)` /
`coeff_monomial(c)` on the linear fragment.  The returned coefficients are
representatives: sympy's `poly` canonicalizes them, producing expressions
equal to these after expansion, so facts about the coefficients are stated
modulo `ExprEq` and the source's truthiness test on them is decided
semantically with `Expr.isZeroPoly` (see `decomposeEntry`). -/
def Expr.linDecomp (basis : List Sym) : Expr → Option (Expr × List Expr)
  | Expr.num n => some (Expr.num n, basis.map (fun _ => Expr.num 0))
  | Expr.sym s =>
    if s ∈ basis then
      some (Expr.num 0, basis.map (fun c => if c = s then Expr.num 1 else Expr.num 0))
    else some (Expr.sym s, basis.map (fun _ => Expr.num 0))
  | Expr.add a b =>
    match a.linDecomp basis, b.linDecomp basis with
    | some (ca, la), some (cb, lb) =>
      some (Expr.addE ca cb, List.zipWith Expr.addE la lb)
    | _, _ => none
  | Expr.mul a b =>
    if a.freeOf basis then
      match b.linDecomp basis with
      | some (cb, lb) => some (Expr.mulE a cb, lb.map (fun e => Expr.mulE a e))
      | none => none
    else if b.freeOf basis then
      match a.linDecomp basis with
      | some (ca, la) => some (Expr.mulE ca b, la.map (fun e => Expr.mulE e b))
      | none => none
    else none

/-- The coefficient of the `k`-th monomial of `chain((1,), basis)`:
`k = 0` selects the constant coefficient, `k = i + 1` the coefficient of the
`i`-th basis symbol. -/
def coeffOf (d : Expr × List Expr) : Nat → Expr
  | 0 => d.1
  | i + 1 => d.2.getD i (Expr.num 0)

/-- One iteration of `decompose_generator`'s loop over `chain((1,), basis)`:
collect the coefficients of the selected monomial from every `xi` and `eta`,
and emit a generator exactly when some coefficient is truthy.  The source's
coefficients come from the canonicalizing `poly(...)`, so a coefficient is
truthy exactly when it is non-zero *as a polynomial* (a semantically-zero
coefficient is the falsy literal `S.Zero` there); the embedding decides that
with `Expr.isZeroPoly` on its representatives. -/
def decomposeEntry (xi_decomps eta_decomps : List (Expr × List Expr))
    (total_space : List Sym × List Sym) (k : Nat) : List Generator :=
  let base_xis := xi_decomps.map (fun d => coeffOf d k)
  let base_etas := eta_decomps.map (fun d => coeffOf d k)
  if (base_xis ++ base_etas).any (fun c => !c.isZeroPoly) then
    [{ xis := base_xis, etas := base_etas, total_space := total_space }]
  else []

/-- `basis.decompose_generator(generator, basis)`: decompose a generator by
a basis of arbitrary constants, one output generator per monomial of
`chain((1,), basis)` that actually appears.  `none` models the conversion
`poly(component, basis)` failing outside the implemented linear fragment. -/
def decompose_generator (generator : Generator) (basis : List Sym) :
    Option (List Generator) :=
  match generator.xis.mapM (Expr.linDecomp basis),
        generator.etas.mapM (Expr.linDecomp basis) with
  | some xi_decomps, some eta_decomps =>
    some ((List.range (basis.length + 1)).flatMap
      (decomposeEntry xi_decomps eta_decomps generator.total_space))
  | _, _ => none

/-! ### Specification-side reference definitions -/

/-- The derivative coordinate of `dep` at `idx` in a jet space (the source
raises `KeyError` where the lookup fails; the reference formulas only read
existing coordinates). -/
def coordAt (js : JetSpace) (dep : Sym) (idx : MIdx) : Sym :=
  (lookup2 js.fibers dep idx).getD ⟨"KeyError"⟩

/-- `base_index` defaulted (the reference formulas only use genuine base
coordinates). -/
def baseIdxD (js : JetSpace) (s : Sym) : MIdx := (js.base_index s).getD []

/-- The recursive prolongation formula as the source computes it (and as the
spec's detailed description states it): for a multi-index `mi` of positive
degree with index class `i` (first non-zero slot) and predecessor
`prev = mi - e_i`,

`eta^(mi) = D_[b_i](eta^(prev))
            - Σ_base u_[prev + e_base] * D_[base](xi_base)`,

each `xi_base` being differentiated in its *own* base coordinate.  The
recursion is by total degree (`fuel = mi.sum`); degree zero gives `eta`
itself. -/
def prolongationRef (xis : List Expr) (js : JetSpace) (dep : Sym) (eta : Expr) :
    Nat → MIdx → Expr
  | 0, _ => eta
  | fuel + 1, mi =>
    let i := mi.findIdx (fun x => x ≠ 0)
    let prev := vecSub mi (unitIdx js.base_space.length i)
    let td := tdD (prolongationRef xis js dep eta fuel prev)
      (js.base_space.getD i ⟨"IndexError"⟩) js
    (List.zip js.base_space xis).foldl
      (fun acc p =>
        Expr.subE acc
          (Expr.mulE (Expr.sym (coordAt js dep (vecAdd prev (baseIdxD js p.1))))
            (tdD p.2 p.1 js)))
      td

/-- The prolongation formula exactly as the claim under scrutiny words it:
identical to `prolongationRef` except that every `xi_base` is differentiated
in the *index-class* coordinate `b_i` (`D_α(ξ_base)` with
`D_α` "the total derivative in the index-class base coordinate"). -/
def prolongationClaimRef (xis : List Expr) (js : JetSpace) (dep : Sym)
    (eta : Expr) : Nat → MIdx → Expr
  | 0, _ => eta
  | fuel + 1, mi =>
    let i := mi.findIdx (fun x => x ≠ 0)
    let classCoord := js.base_space.getD i ⟨"IndexError"⟩
    let prev := vecSub mi (unitIdx js.base_space.length i)
    let td := tdD (prolongationClaimRef xis js dep eta fuel prev) classCoord js
    (List.zip js.base_space xis).foldl
      (fun acc p =>
        Expr.subE acc
          (Expr.mulE (Expr.sym (coordAt js dep (vecAdd prev (baseIdxD js p.1))))
            (tdD p.2 classCoord js)))
      td

/-- The multi-indices of a jet space of base size `n` and degree `d`, in
construction order: the zero index followed by the degree blocks. -/
def jetKeys (n d : Nat) : List MIdx :=
  (List.replicate n 0 : MIdx) :: (List.range' 1 d).flatMap (derivIndices n)

/-- The fiber table of one dependent in `JetSpace.make base f d`. -/
def canonicalTable (base : List Sym) (dep : Sym) (d : Nat) : List (MIdx × Sym) :=
  ((List.replicate base.length 0 : MIdx), dep) ::
    (List.range' 1 d).flatMap (jetBlock base dep)

/-- The prolongation table `get_prolongations` produces on a constructed jet
space: every multi-index of the space mapped to the reference formula. -/
def canonicalProlTable (xis etas : List Expr) (base f : List Sym) (d : Nat) :
    List (Sym × List (MIdx × Expr)) :=
  (List.zip f etas).map (fun p =>
    (p.1, (jetKeys base.length d).map (fun mi =>
      (mi, prolongationRef xis (JetSpace.make base f d) p.1 p.2 mi.sum mi))))

/-- The zero generator on a total space: every `xi` and every `eta` is the
zero expression. -/
def zeroGenerator (base f : List Sym) : Generator :=
  { xis := base.map (fun _ => Expr.num 0)
    etas := f.map (fun _ => Expr.num 0)
    total_space := (base, f) }

/-- The inner fiber loop of `Generator.__call__` with the prolongation
lookups defaulted (the specification-side total counterpart of
`applyFiberInner`; they agree whenever every lookup succeeds). -/
def applyFiberInnerP (expr : Expr) (prol : List (Sym × List (MIdx × Expr)))
    (dep : Sym) : List (MIdx × Sym) → Expr → Expr
  | [], acc => acc
  | (multiindex, coordSym) :: rest, acc =>
    applyFiberInnerP expr prol dep rest
      (Expr.addE acc
        (Expr.mulE ((lookup2 prol dep multiindex).getD (Expr.num 0))
          (expr.diff coordSym)))

/-- The outer fiber loop of `Generator.__call__`, total counterpart. -/
def applyFiberFoldP (expr : Expr) (prol : List (Sym × List (MIdx × Expr))) :
    List (Sym × List (MIdx × Sym)) → Expr → Expr
  | [], acc => acc
  | (dep, tbl) :: rest, acc =>
    applyFiberFoldP expr prol rest (applyFiberInnerP expr prol dep tbl acc)

/-- The generator `Σ c_i * G_i` as the driver scripts build it:
`c_1 * G_1 + c_2 * G_2 + ...` through `Generator.__rmul__` and
`Generator.__add__`. -/
def buildLinComb (cs : List Sym) (gens : List Generator) :
    Except String Generator :=
  match cs, gens with
  | c :: cs2, g :: gens2 =>
    (List.zip cs2 gens2).foldlM
      (fun acc p =>
        match Generator.add acc (Generator.rmul (Expr.sym p.1) p.2) with
        | Except.error e => Except.error e
        | Except.ok s => Except.ok s)
      (Generator.rmul (Expr.sym c) g)
  | _, _ => Except.error "empty linear combination"

/-! ## Lemmas about the expression fragment -/

theorem addE_zero_left (b : Expr) : Expr.addE (Expr.num 0) b = b := by
  simp [Expr.addE]

theorem addE_zero_right (a : Expr) : Expr.addE a (Expr.num 0) = a := by
  unfold Expr.addE
  split_ifs with h1 h2
  · exact h1.symm
  · rfl
  · simp at h2

theorem mulE_zero_left (b : Expr) : Expr.mulE (Expr.num 0) b = Expr.num 0 := by
  simp [Expr.mulE]

theorem mulE_zero_right (a : Expr) : Expr.mulE a (Expr.num 0) = Expr.num 0 := by
  simp [Expr.mulE]

theorem mulE_one_left (b : Expr) (h : b ≠ Expr.num 0) :
    Expr.mulE (Expr.num 1) b = b := by
  unfold Expr.mulE
  split_ifs with h1 h2 h3
  · rcases h1 with h1 | h1
    · exact absurd h1 (by simp)
    · exact absurd h1 h
  · rfl
  · exact absurd rfl h2
  · exact absurd rfl h2

theorem negE_zero : Expr.negE (Expr.num 0) = Expr.num 0 := by
  simp [Expr.negE, mulE_zero_right]

theorem subE_zero_right (a : Expr) : Expr.subE a (Expr.num 0) = a := by
  simp [Expr.subE, negE_zero, addE_zero_right]

theorem toPoly_addE (a b : Expr) : toPoly (Expr.addE a b) = toPoly a + toPoly b := by
  unfold Expr.addE
  split_ifs with h1 h2
  · subst h1; simp [toPoly]
  · subst h2; simp [toPoly]
  · split
    · simp [toPoly, MvPolynomial.C_add]
    · rfl

theorem toPoly_mulE (a b : Expr) : toPoly (Expr.mulE a b) = toPoly a * toPoly b := by
  unfold Expr.mulE
  split_ifs with h1 h2 h3
  · rcases h1 with h1 | h1 <;> subst h1 <;> simp [toPoly]
  · subst h2; simp [toPoly]
  · subst h3; simp [toPoly]
  · split
    · simp [toPoly, MvPolynomial.C_mul]
    · rfl

theorem toPoly_negE (a : Expr) : toPoly (Expr.negE a) = -toPoly a := by
  simp [Expr.negE, toPoly_mulE, toPoly]

theorem toPoly_subE (a b : Expr) : toPoly (Expr.subE a b) = toPoly a - toPoly b := by
  simp [Expr.subE, toPoly_addE, toPoly_negE]
  ring

theorem toPoly_diff (e : Expr) (s : Sym) :
    toPoly (e.diff s) = MvPolynomial.pderiv s (toPoly e) := by
  induction e with
  | num n => simp [Expr.diff, toPoly, MvPolynomial.pderiv_C]
  | sym t =>
    by_cases h : t = s
    · subst h; simp [Expr.diff, toPoly]
    · simp [Expr.diff, toPoly, h, MvPolynomial.pderiv_X_of_ne h]
  | add a b iha ihb =>
    simp [Expr.diff, toPoly, toPoly_addE, iha, ihb]
  | mul a b iha ihb =>
    simp only [Expr.diff, toPoly, toPoly_addE, toPoly_mulE, iha, ihb,
      MvPolynomial.pderiv_mul]

theorem subsOne_num (n : Int) (s : Sym) (r : Expr) :
    (Expr.num n).subsOne s r = Expr.num n := rfl

theorem subs_num (n : Int) (ps : List (Sym × Expr)) :
    (Expr.num n).subs ps = Expr.num n := by
  induction ps with
  | nil => rfl
  | cons p rest ih =>
    simpa [Expr.subs, subsOne_num] using ih

/-! ## Lemmas about association-list lookup -/

theorem alookup_append_some {α β : Type} [DecidableEq α] {l1 : List (α × β)}
    (l2 : List (α × β)) {a : α} {v : β} (h : alookup l1 a = some v) :
    alookup (l1 ++ l2) a = some v := by
  induction l1 with
  | nil => simp [alookup] at h
  | cons p rest ih =>
    by_cases hp : p.1 = a
    · simp only [alookup, hp, if_true] at h
      simp only [List.cons_append, alookup, hp, if_true]
      exact h
    · simp only [alookup, hp, if_false] at h
      simp only [List.cons_append, alookup, hp, if_false]
      exact ih h

theorem alookup_isSome_of_mem {α β : Type} [DecidableEq α] {l : List (α × β)}
    {a : α} (h : a ∈ l.map Prod.fst) : ∃ v, alookup l a = some v := by
  induction l with
  | nil => simp at h
  | cons p rest ih =>
    by_cases hp : p.1 = a
    · exact ⟨p.2, by simp [alookup, hp]⟩
    · have : a ∈ rest.map Prod.fst := by
        rcases List.mem_map.1 h with ⟨q, hq, hqa⟩
        rcases List.mem_cons.1 hq with h1 | h1
        · exact absurd (h1 ▸ hqa) hp
        · exact List.mem_map.2 ⟨q, h1, hqa⟩
      rcases ih this with ⟨v, hv⟩
      exact ⟨v, by simpa [alookup, hp] using hv⟩

theorem alookup_eq_of_forall {α β : Type} [DecidableEq α] {l : List (α × β)}
    {g : α → β} (hg : ∀ p ∈ l, p.2 = g p.1) {a : α} {v : β}
    (h : alookup l a = some v) : v = g a := by
  induction l with
  | nil => simp [alookup] at h
  | cons p rest ih =>
    by_cases hp : p.1 = a
    · simp only [alookup, hp, if_true, Option.some.injEq] at h
      have hpv := hg p (List.mem_cons_self p rest)
      rw [← h, hpv, hp]
    · simp only [alookup, hp, if_false] at h
      exact ih (fun q hq => hg q (List.mem_cons_of_mem p hq)) h

theorem alookup_map_self {α β : Type} [DecidableEq α] (l : List α) (g : α → β)
    (a : α) (h : a ∈ l) :
    alookup (l.map (fun k => (k, g k))) a = some (g a) := by
  induction l with
  | nil => simp at h
  | cons x rest ih =>
    by_cases hx : x = a
    · simp [alookup, hx]
    · rcases List.mem_cons.1 h with h1 | h1
      · exact absurd h1.symm hx
      · simpa [alookup, hx] using ih h1

/-! ## Lemmas about multi-indices -/

theorem length_unitIdx {n i : Nat} (h : i < n) : (unitIdx n i).length = n := by
  simp [unitIdx]
  omega

theorem sum_replicate_zero (k : Nat) : (List.replicate k (0 : Nat)).sum = 0 := by
  induction k with
  | zero => rfl
  | succ m ih => simpa [List.replicate_succ] using ih

theorem sum_unitIdx {n i : Nat} : (unitIdx n i).sum = 1 := by
  simp [unitIdx, List.sum_append, sum_replicate_zero]

theorem length_vecAdd (a b : MIdx) :
    (vecAdd a b).length = min a.length b.length := by
  simp [vecAdd]

theorem sum_vecAdd {a b : MIdx} (h : a.length = b.length) :
    (vecAdd a b).sum = a.sum + b.sum := by
  induction a generalizing b with
  | nil => cases b <;> simp_all [vecAdd]
  | cons x xs ih =>
    cases b with
    | nil => simp at h
    | cons y ys =>
      have := ih (b := ys) (by simpa using h)
      simp [vecAdd, List.sum_cons] at this ⊢
      omega

theorem vecAdd_zero_left {a : MIdx} : vecAdd (List.replicate a.length 0) a = a := by
  induction a with
  | nil => rfl
  | cons x xs ih => simpa [vecAdd, List.replicate_succ] using ih

theorem vecAdd_zero_right {a : MIdx} : vecAdd a (List.replicate a.length 0) = a := by
  induction a with
  | nil => rfl
  | cons x xs ih => simpa [vecAdd, List.replicate_succ] using ih

theorem vecSub_zero_right {a : MIdx} : vecSub a (List.replicate a.length 0) = a := by
  induction a with
  | nil => rfl
  | cons x xs ih => simpa [vecSub, List.replicate_succ] using ih

theorem zipWith_replicate_both (f : Nat → Nat → Nat) (a b : Nat) (i : Nat) :
    List.zipWith f (List.replicate i a) (List.replicate i b) =
      List.replicate i (f a b) := by
  induction i with
  | zero => rfl
  | succ k ih => simpa [List.replicate_succ] using ih

/-- Subtracting the unit multi-index of the first non-zero slot from a
multi-index in decomposed form. -/
theorem vecSub_unit_decomp {n i v : Nat} {rest : MIdx}
    (h : (List.replicate i 0 ++ (v + 1) :: rest : MIdx).length = n) :
    vecSub (List.replicate i 0 ++ (v + 1) :: rest) (unitIdx n i) =
      List.replicate i 0 ++ v :: rest := by
  have hrest : rest.length = n - i - 1 := by
    simp at h; omega
  have hlen : (List.replicate i (0 : Nat)).length = (List.replicate i (0 : Nat)).length := rfl
  unfold vecSub unitIdx
  rw [List.zipWith_append _ _ _ _ _ (by simp)]
  rw [zipWith_replicate_both]
  simp only [List.zipWith_cons_cons]
  have : List.zipWith (· - ·) rest (List.replicate (n - i - 1) 0) = rest := by
    rw [← hrest]
    exact vecSub_zero_right
  rw [this]
  norm_num

/-- Adding a unit multi-index back onto the predecessor. -/
theorem vecAdd_unit_decomp {n i v : Nat} {rest : MIdx}
    (h : (List.replicate i 0 ++ (v + 1) :: rest : MIdx).length = n) :
    vecAdd (unitIdx n i) (List.replicate i 0 ++ v :: rest) =
      List.replicate i 0 ++ (v + 1) :: rest := by
  have hrest : rest.length = n - i - 1 := by
    simp at h; omega
  unfold vecAdd unitIdx
  rw [List.zipWith_append _ _ _ _ _ (by simp)]
  rw [zipWith_replicate_both]
  simp only [List.zipWith_cons_cons]
  have h2 : List.zipWith (· + ·) (List.replicate (n - i - 1) 0) rest = rest := by
    rw [← hrest]
    exact vecAdd_zero_left
  rw [h2]
  have h3 : 1 + v = v + 1 := by omega
  rw [h3]

/-- Decomposition of a multi-index with positive total degree at its first
non-zero slot, together with the behavior of `findIdx` / `findIdx?` there. -/
theorem first_nonzero_decomp (mi : MIdx) (h : mi.sum ≠ 0) :
    ∃ i v rest, mi = List.replicate i 0 ++ (v + 1) :: rest ∧
      mi.findIdx (fun x => x ≠ 0) = i ∧
      mi.findIdx? (fun x => x ≠ 0) = some i := by
  induction mi with
  | nil => simp at h
  | cons x xs ih =>
    cases x with
    | zero =>
      have hxs : xs.sum ≠ 0 := by simpa using h
      rcases ih hxs with ⟨i, v, rest, hdec, hfi, hfi2⟩
      refine ⟨i + 1, v, rest, ?_, ?_, ?_⟩
      · rw [hdec, List.replicate_succ]
        rfl
      · have hstep : List.findIdx (fun x => decide (x ≠ 0)) ((0 : Nat) :: xs) =
            List.findIdx (fun x => decide (x ≠ 0)) xs + 1 := by
          rw [List.findIdx_cons]
          rfl
        rw [hstep, hfi]
      · have hstep : List.findIdx? (fun x => decide (x ≠ 0)) ((0 : Nat) :: xs) =
            (List.findIdx? (fun x => decide (x ≠ 0)) xs).map (· + 1) := by
          rw [List.findIdx?_cons, show (decide ((0 : Nat) ≠ 0)) = false from rfl]
          simp only [Bool.false_eq_true, if_false]
          exact List.findIdx?_succ
        rw [hstep, hfi2]
        rfl
    | succ w =>
      refine ⟨0, w, xs, by simp, ?_, ?_⟩
      · rw [List.findIdx_cons]
        rfl
      · rw [List.findIdx?_cons, show (decide ((w + 1 : Nat) ≠ 0)) = true from rfl]
        rfl

/-- A multi-index of total degree zero is the zero multi-index. -/
theorem eq_zero_of_sum_zero {mi : MIdx} (h : mi.sum = 0) :
    mi = List.replicate mi.length 0 := by
  induction mi with
  | nil => rfl
  | cons x xs ih =>
    simp only [List.sum_cons] at h
    have hx : x = 0 := by omega
    have hxs : xs.sum = 0 := by omega
    conv_lhs => rw [hx, ih hxs]
    simp [List.replicate_succ]

/-! ## Lemmas about `combinations_with_replacement` -/

theorem cwr_succ_cons {α : Type} (d : Nat) (x : α) (xs : List α) :
    cwr (d + 1) (x :: xs) =
      ((cwr d (x :: xs)).map (fun c => x :: c)) ++ cwr (d + 1) xs := by
  rfl

theorem mem_cwr_length {α : Type} {d : Nat} {l c : List α} (h : c ∈ cwr d l) :
    c.length = d := by
  induction d generalizing l c with
  | zero =>
    simp only [cwr, List.mem_singleton] at h
    simp [h]
  | succ k ih =>
    unfold cwr at h
    rcases List.mem_flatMap.1 h with ⟨s, _, hc⟩
    match s, hc with
    | [], hc => simp at hc
    | x :: s2, hc =>
      rcases List.mem_map.1 hc with ⟨c2, hc2, rfl⟩
      simp [ih hc2]

theorem mem_cwr_forall_mem {α : Type} {d : Nat} {l c : List α} (h : c ∈ cwr d l) :
    ∀ y ∈ c, y ∈ l := by
  induction d generalizing l c with
  | zero =>
    simp only [cwr, List.mem_singleton] at h
    simp [h]
  | succ k ih =>
    unfold cwr at h
    rcases List.mem_flatMap.1 h with ⟨s, hs, hc⟩
    have hsl : s <:+ l := (List.mem_tails _ _).1 hs
    match s, hc with
    | [], hc => simp at hc
    | x :: s2, hc =>
      rcases List.mem_map.1 hc with ⟨c2, hc2, rfl⟩
      intro y hy
      rcases List.mem_cons.1 hy with hy1 | hy1
      · exact hsl.subset (hy1 ▸ List.mem_cons_self x s2)
      · exact hsl.subset (ih hc2 y hy1)

theorem cwr_suffix_subset {α : Type} {l1 l2 : List α} (h : l1 <:+ l2) (d : Nat)
    {c : List α} (hc : c ∈ cwr d l1) : c ∈ cwr d l2 := by
  cases d with
  | zero => simpa [cwr] using hc
  | succ k =>
    unfold cwr at hc ⊢
    rcases List.mem_flatMap.1 hc with ⟨s, hs, hcs⟩
    exact List.mem_flatMap.2 ⟨s, (List.mem_tails _ _).2 (((List.mem_tails _ _).1 hs).trans h), hcs⟩

theorem cwr_one {α : Type} (l : List α) : cwr 1 l = l.map (fun x => [x]) := by
  induction l with
  | nil => rfl
  | cons x xs ih =>
    rw [cwr_succ_cons, ih]
    rfl

theorem vecAdd_assoc (a b c : MIdx) : vecAdd (vecAdd a b) c = vecAdd a (vecAdd b c) := by
  induction a generalizing b c with
  | nil => simp [vecAdd]
  | cons x xs ih =>
    cases b with
    | nil => simp [vecAdd]
    | cons y ys =>
      cases c with
      | nil => simp [vecAdd]
      | cons z zs =>
        have h3 := ih ys zs
        simp only [vecAdd] at h3
        simp only [vecAdd, List.zipWith_cons_cons]
        rw [Nat.add_assoc, h3]

theorem foldl_vecAdd_shift (l : List MIdx) (a b : MIdx) :
    l.foldl vecAdd (vecAdd a b) = vecAdd a (l.foldl vecAdd b) := by
  induction l generalizing b with
  | nil => rfl
  | cons x xs ih =>
    show xs.foldl vecAdd (vecAdd (vecAdd a b) x) = vecAdd a (xs.foldl vecAdd (vecAdd b x))
    rw [vecAdd_assoc]
    exact ih (vecAdd b x)

theorem sumIndices_cons {x : MIdx} {c : List MIdx} (hc : c ≠ []) :
    sumIndices (x :: c) = vecAdd x (sumIndices c) := by
  match c, hc with
  | y :: c2, _ =>
    show c2.foldl vecAdd (vecAdd x y) = vecAdd x (c2.foldl vecAdd y)
    exact foldl_vecAdd_shift c2 x y

theorem foldl_vecAdd_length {c : List MIdx} {n : Nat} (h : ∀ v ∈ c, v.length = n) :
    ∀ acc : MIdx, acc.length = n → (c.foldl vecAdd acc).length = n := by
  induction c with
  | nil => intro acc ha; simpa using ha
  | cons x xs ih =>
    intro acc ha
    have hx : x.length = n := h x (List.mem_cons_self x xs)
    have : (vecAdd acc x).length = n := by
      rw [length_vecAdd, ha, hx]
      omega
    exact ih (fun v hv => h v (List.mem_cons_of_mem x hv)) _ this

theorem foldl_vecAdd_sum {c : List MIdx} {n : Nat} (h : ∀ v ∈ c, v.length = n)
    (h1 : ∀ v ∈ c, v.sum = 1) :
    ∀ acc : MIdx, acc.length = n → (c.foldl vecAdd acc).sum = acc.sum + c.length := by
  induction c with
  | nil => intro acc _; simp
  | cons x xs ih =>
    intro acc ha
    have hx : x.length = n := h x (List.mem_cons_self x xs)
    have hx1 : x.sum = 1 := h1 x (List.mem_cons_self x xs)
    have hlen : (vecAdd acc x).length = n := by
      rw [length_vecAdd, ha, hx]
      omega
    have := ih (fun v hv => h v (List.mem_cons_of_mem x hv))
      (fun v hv => h1 v (List.mem_cons_of_mem x hv)) _ hlen
    show (xs.foldl vecAdd (vecAdd acc x)).sum = acc.sum + (x :: xs).length
    rw [this, sum_vecAdd (by rw [ha, hx]), hx1]
    simp
    omega

theorem length_derivTuples (n : Nat) : (derivTuples n).length = n := by
  simp [derivTuples]

theorem getElem_derivTuples {n i : Nat} (h : i < n)
    (h2 : i < (derivTuples n).length) :
    (derivTuples n)[i] = unitIdx n i := by
  simp [derivTuples]

theorem mem_derivTuples {n : Nat} {v : MIdx} (h : v ∈ derivTuples n) :
    ∃ i, i < n ∧ v = unitIdx n i := by
  rcases List.mem_map.1 h with ⟨i, hi, rfl⟩
  exact ⟨i, List.mem_range.1 hi, rfl⟩

/-- Soundness of the generated degree-`d` multi-indices: length `n` and
total degree `d`. -/
theorem DI_sound {n d : Nat} {mi : MIdx} (hd : 1 ≤ d) (h : mi ∈ derivIndices n d) :
    mi.length = n ∧ mi.sum = d := by
  rcases List.mem_map.1 h with ⟨c, hc, rfl⟩
  have hclen : c.length = d := mem_cwr_length hc
  have hmem := mem_cwr_forall_mem hc
  have hlen : ∀ v ∈ c, v.length = n := by
    intro v hv
    rcases mem_derivTuples (hmem v hv) with ⟨i, hi, rfl⟩
    exact length_unitIdx hi
  have hone : ∀ v ∈ c, v.sum = 1 := by
    intro v hv
    rcases mem_derivTuples (hmem v hv) with ⟨i, hi, rfl⟩
    exact sum_unitIdx
  obtain ⟨v, c2, rfl⟩ : ∃ v c2, c = v :: c2 := by
    cases c with
    | nil => simp at hclen; omega
    | cons v c2 => exact ⟨v, c2, rfl⟩
  have hvlen : v.length = n := hlen v (List.mem_cons_self v c2)
  constructor
  · exact foldl_vecAdd_length (fun w hw => hlen w (List.mem_cons_of_mem v hw)) v hvlen
  · have := foldl_vecAdd_sum (fun w hw => hlen w (List.mem_cons_of_mem v hw))
      (fun w hw => hone w (List.mem_cons_of_mem v hw)) v hvlen
    show (c2.foldl vecAdd v).sum = d
    rw [this, hone v (List.mem_cons_self v c2)]
    have hc2 : c2.length + 1 = d := by simpa using hclen
    omega

theorem drop_derivTuples_cons {n i : Nat} (h : i < n) :
    List.drop i (derivTuples n) = unitIdx n i :: List.drop (i + 1) (derivTuples n) := by
  rw [List.drop_eq_getElem_cons (by simpa [length_derivTuples] using h)]
  rw [getElem_derivTuples h (by simpa [length_derivTuples] using h)]

theorem le_of_zero_decomp {i i2 v2 : Nat} {t1 t2 : MIdx}
    (h : List.replicate i 0 ++ t1 = List.replicate i2 0 ++ (v2 + 1) :: t2) :
    i ≤ i2 := by
  by_contra hlt
  push_neg at hlt
  have h1 : (List.replicate i (0 : Nat) ++ t1)[i2]? = some 0 := by
    rw [List.getElem?_append_left (by simpa using hlt)]
    simp [hlt]
  have h2 : (List.replicate i2 (0 : Nat) ++ (v2 + 1) :: t2)[i2]? = some (v2 + 1) := by
    rw [List.getElem?_append_right (by simp)]
    simp
  rw [h] at h1
  rw [h1] at h2
  simp at h2

/-- Completeness of the generated multi-indices, relativized to the suffix
of unit tuples starting at the first non-zero slot. -/
theorem DI_complete_aux {n : Nat} :
    ∀ (d : Nat) (mi : MIdx), mi.length = n → mi.sum = d + 1 →
      mi ∈ (cwr (d + 1)
        (List.drop (mi.findIdx (fun x => x ≠ 0)) (derivTuples n))).map sumIndices := by
  intro d
  induction d with
  | zero =>
    intro mi hlen hsum
    rcases first_nonzero_decomp mi (by omega) with ⟨i, v, rest, hdec, hfi, _⟩
    have hsum2 : v + 1 + rest.sum = 1 := by
      rw [hdec] at hsum
      simpa [List.sum_append, sum_replicate_zero] using hsum
    have hv : v = 0 := by omega
    have hrsum : rest.sum = 0 := by omega
    have hrest := eq_zero_of_sum_zero hrsum
    have hlen2 : i + 1 + rest.length = n := by
      rw [hdec] at hlen
      simp at hlen
      omega
    have hin : i < n := by omega
    have hrl : rest.length = n - i - 1 := by omega
    have hmi : mi = unitIdx n i := by
      rw [hdec, hv, hrest, hrl, unitIdx]
    rw [hfi, cwr_one, drop_derivTuples_cons hin]
    refine List.mem_map.2 ⟨[unitIdx n i], ?_, by rw [hmi]; rfl⟩
    exact List.mem_map.2 ⟨unitIdx n i, List.mem_cons_self _ _, rfl⟩
  | succ k ih =>
    intro mi hlen hsum
    rcases first_nonzero_decomp mi (by omega) with ⟨i, v, rest, hdec, hfi, _⟩
    have hlen2 : i + 1 + rest.length = n := by
      rw [hdec] at hlen
      simp at hlen
      omega
    have hin : i < n := by omega
    have hprevlen : (List.replicate i 0 ++ v :: rest : MIdx).length = n := by
      simp
      omega
    have hsum2 : v + 1 + rest.sum = k + 2 := by
      rw [hdec] at hsum
      simpa [List.sum_append, sum_replicate_zero] using hsum
    have hprevsum : (List.replicate i 0 ++ v :: rest : MIdx).sum = k + 1 := by
      simp [List.sum_append, sum_replicate_zero]
      omega
    have IH := ih (List.replicate i 0 ++ v :: rest) hprevlen hprevsum
    rcases List.mem_map.1 IH with ⟨c, hc, hcsum⟩
    -- the first non-zero slot of the predecessor is at least i
    rcases first_nonzero_decomp (List.replicate i 0 ++ v :: rest)
      (by rw [hprevsum]; omega) with ⟨i2, v2, rest2, hdec2, hfi2, _⟩
    have hi2 : i ≤ i2 := @le_of_zero_decomp i i2 v2 (v :: rest) rest2 hdec2
    have hcin : c ∈ cwr (k + 1) (List.drop i (derivTuples n)) := by
      rw [hfi2] at hc
      exact cwr_suffix_subset (List.drop_suffix_drop_left _ hi2) _ hc
    have hcne : c ≠ [] := by
      have := mem_cwr_length hc
      intro hnil
      rw [hnil] at this
      simp at this
    have hmem : (unitIdx n i :: c) ∈ cwr (k + 2) (List.drop i (derivTuples n)) := by
      rw [drop_derivTuples_cons hin, cwr_succ_cons]
      refine List.mem_append_left _ (List.mem_map.2 ⟨c, ?_, rfl⟩)
      rw [← drop_derivTuples_cons hin]
      exact hcin
    have hsumix : sumIndices (unitIdx n i :: c) = mi := by
      rw [sumIndices_cons hcne, hcsum, hdec]
      exact vecAdd_unit_decomp (by rw [← hdec]; exact hlen)
    rw [hfi]
    exact List.mem_map.2 ⟨unitIdx n i :: c, hmem, hsumix⟩

/-- Completeness of the generated degree-`d` multi-indices. -/
theorem DI_complete {n d : Nat} {mi : MIdx} (hd : 1 ≤ d) (hlen : mi.length = n)
    (hsum : mi.sum = d) : mi ∈ derivIndices n d := by
  obtain ⟨e, rfl⟩ : ∃ e, d = e + 1 := ⟨d - 1, by omega⟩
  have h := DI_complete_aux e mi hlen hsum
  rcases List.mem_map.1 h with ⟨c, hc, hcsum⟩
  exact List.mem_map.2 ⟨c, cwr_suffix_subset (List.drop_suffix _ _) _ hc, hcsum⟩

/-- The keys of a constructed jet space's fiber tables: exactly the
multi-indices of length `n` and total degree at most `d`. -/
theorem mem_jetKeys {n d : Nat} {mi : MIdx} :
    mi ∈ jetKeys n d ↔ mi.length = n ∧ mi.sum ≤ d := by
  constructor
  · intro h
    rcases List.mem_cons.1 h with h1 | h1
    · subst h1
      simp [sum_replicate_zero]
    · rcases List.mem_flatMap.1 h1 with ⟨m, hm, hmi⟩
      have hm1 : 1 ≤ m ∧ m < 1 + d := by
        constructor
        · exact (List.mem_range'_1.1 hm).1
        · exact (List.mem_range'_1.1 hm).2
      obtain ⟨hlen, hsum⟩ := DI_sound hm1.1 hmi
      exact ⟨hlen, by omega⟩
  · rintro ⟨hlen, hsum⟩
    by_cases h0 : mi.sum = 0
    · have := eq_zero_of_sum_zero h0
      rw [hlen] at this
      exact this ▸ List.mem_cons_self _ _
    · refine List.mem_cons_of_mem _ (List.mem_flatMap.2 ⟨mi.sum, ?_, ?_⟩)
      · exact List.mem_range'_1.2 ⟨by omega, by omega⟩
      · exact DI_complete (by omega) hlen rfl

/-! ## Structure of constructed jet spaces -/

theorem addJetFibers_foldl (base : List Sym) (ds : List Nat)
    (fbs : List (Sym × List (MIdx × Sym))) :
    ds.foldl (fun fs d => fs.map (fun p => (p.1, p.2 ++ jetBlock base p.1 d))) fbs =
      fbs.map (fun p => (p.1, p.2 ++ ds.flatMap (jetBlock base p.1))) := by
  induction ds generalizing fbs with
  | nil => simp
  | cons d ds ih =>
    show ds.foldl _ (fbs.map _) = _
    rw [ih]
    rw [List.map_map]
    apply List.map_congr_left
    intro p _
    simp [List.append_assoc]

theorem make_fibers (b f : List Sym) (d : Nat) :
    (JetSpace.make b f d).fibers = f.map (fun dep => (dep, canonicalTable b dep d)) := by
  show addJetFibers b _ 1 d = _
  unfold addJetFibers
  rw [addJetFibers_foldl, List.map_map]
  apply List.map_congr_left
  intro dep _
  have hd : d + 1 - 1 = d := by omega
  simp [canonicalTable, hd]

theorem make_base (b f : List Sym) (d : Nat) :
    (JetSpace.make b f d).base_space = b := rfl

theorem make_degree (b f : List Sym) (d : Nat) :
    (JetSpace.make b f d).degree = d := rfl

theorem extended_base (js : JetSpace) (d2 : Nat) :
    (js.extended d2).base_space = js.base_space := rfl

/-- Extending a constructed jet space yields the constructed jet space of
the higher degree. -/
theorem extended_make {b f : List Sym} {d d2 : Nat} (h : d ≤ d2) :
    (JetSpace.make b f d).extended d2 = JetSpace.make b f d2 := by
  unfold JetSpace.extended JetSpace.make
  simp only [JetSpace.mk.injEq, true_and]
  show addJetFibers b (addJetFibers b _ 1 d) (d + 1) d2 = _
  unfold addJetFibers
  rw [addJetFibers_foldl, addJetFibers_foldl, addJetFibers_foldl, List.map_map]
  apply List.map_congr_left
  intro dep _
  simp only [Function.comp_apply, Prod.mk.injEq, true_and, List.append_assoc]
  rw [← List.flatMap_append]
  have hr : List.range' 1 (d + 1 - 1) ++ List.range' (d + 1) (d2 + 1 - (d + 1)) =
      List.range' 1 (d2 + 1 - 1) := by
    have h0 : d + 1 - 1 = d := by omega
    have ha : d2 + 1 - (d + 1) = d2 - d := by omega
    have hb : d2 + 1 - 1 = (d2 - d) + d := by omega
    have hc : d + 1 = 1 + d := by omega
    rw [h0, ha, hb, hc, List.range'_append_1]
  rw [hr]

theorem cwr_length_congr {α β : Type} :
    ∀ (d : Nat) (l1 : List α) (l2 : List β), l1.length = l2.length →
      (cwr d l1).length = (cwr d l2).length := by
  intro d
  induction d with
  | zero => intro l1 l2 _; rfl
  | succ k ih =>
    intro l1 l2 h
    induction l1 generalizing l2 with
    | nil =>
      cases l2 with
      | nil => rfl
      | cons y ys => simp at h
    | cons x xs ih2 =>
      cases l2 with
      | nil => simp at h
      | cons y ys =>
        rw [cwr_succ_cons, cwr_succ_cons]
        simp only [List.length_append, List.length_map]
        rw [ih (x :: xs) (y :: ys) h, ih2 ys (by simpa using h)]

theorem jetBlock_keys (b : List Sym) (dep : Sym) (m : Nat) :
    (jetBlock b dep m).map Prod.fst = derivIndices b.length m := by
  unfold jetBlock
  rw [List.map_map]
  have hlen : (derivIndices b.length m).length = (cwr m b).length := by
    unfold derivIndices
    rw [List.length_map]
    exact cwr_length_congr m (derivTuples b.length) b (by simp [length_derivTuples])
  have : (Prod.fst ∘ fun p : MIdx × List Sym => (p.1, derivSym dep p.2)) = Prod.fst := by
    funext p
    rfl
  rw [this]
  exact List.map_fst_zip _ _ (le_of_eq hlen)

theorem canonicalTable_keys (b : List Sym) (dep : Sym) (d : Nat) :
    (canonicalTable b dep d).map Prod.fst = jetKeys b.length d := by
  unfold canonicalTable jetKeys
  simp only [List.map_cons, List.map_flatMap, jetBlock_keys]

/-! ## The total derivative on constructed jet spaces -/

theorem findIdx?_some_lt {α : Type} {p : α → Bool} :
    ∀ {l : List α} {i : Nat}, l.findIdx? p = some i → i < l.length := by
  intro l
  induction l with
  | nil => intro i h; simp at h
  | cons x xs ih =>
    intro i h
    rw [List.findIdx?_cons] at h
    by_cases hp : p x
    · rw [if_pos hp] at h
      cases h
      simp
    · rw [if_neg hp, List.findIdx?_succ] at h
      rcases Option.map_eq_some'.1 h with ⟨j, hj, rfl⟩
      have := ih hj
      simp
      omega

theorem findIdx?_some_of_mem {α : Type} [DecidableEq α] {l : List α} {a : α}
    (h : a ∈ l) : ∃ i, l.findIdx? (fun x => x = a) = some i := by
  induction l with
  | nil => simp at h
  | cons x xs ih =>
    by_cases hx : x = a
    · exact ⟨0, by simp [List.findIdx?_cons, hx]⟩
    · rcases List.mem_cons.1 h with h1 | h1
      · exact absurd h1.symm hx
      · rcases ih h1 with ⟨j, hj⟩
        refine ⟨j + 1, ?_⟩
        rw [List.findIdx?_cons, if_neg (by simpa using hx), List.findIdx?_succ, hj]
        rfl

theorem base_index_some {js : JetSpace} {c : Sym} (hc : c ∈ js.base_space) :
    ∃ i, i < js.base_space.length ∧
      js.base_index c = some (unitIdx js.base_space.length i) := by
  rcases findIdx?_some_of_mem hc with ⟨i, hi⟩
  exact ⟨i, findIdx?_some_lt hi, by simp [JetSpace.base_index, hi]⟩

theorem lookup2_make_some {b f : List Sym} {d : Nat} {dep : Sym} {mi : MIdx}
    (hdep : dep ∈ f) (hlen : mi.length = b.length) (hsum : mi.sum ≤ d) :
    ∃ s, lookup2 (JetSpace.make b f d).fibers dep mi = some s := by
  unfold lookup2
  rw [make_fibers, alookup_map_self _ _ _ hdep]
  have hmi : mi ∈ (canonicalTable b dep d).map Prod.fst := by
    rw [canonicalTable_keys]
    exact mem_jetKeys.2 ⟨hlen, hsum⟩
  exact alookup_isSome_of_mem hmi

theorem canonicalTable_entry_sound {b : List Sym} {dep : Sym} {d : Nat}
    {q : MIdx × Sym} (h : q ∈ canonicalTable b dep d) :
    q.1.length = b.length ∧ q.1.sum ≤ d := by
  have : q.1 ∈ (canonicalTable b dep d).map Prod.fst := List.mem_map_of_mem _ h
  rw [canonicalTable_keys] at this
  exact mem_jetKeys.1 this

theorem tdFoldFiberP_cons (cod : JetSpace) (ci : MIdx) (x : Expr) (dep : Sym)
    (q : MIdx × Sym) (rest : List (MIdx × Sym)) (acc : Expr) :
    tdFoldFiberP cod ci x dep (q :: rest) acc =
      tdFoldFiberP cod ci x dep rest
        (Expr.addE acc
          (Expr.mulE
            (Expr.sym ((lookup2 cod.fibers dep (vecAdd q.1 ci)).getD ⟨"KeyError"⟩))
            (x.diff q.2))) := by
  obtain ⟨qi, qc⟩ := q
  rfl

theorem tdFoldP_cons (cod : JetSpace) (ci : MIdx) (x : Expr)
    (p : Sym × List (MIdx × Sym)) (rest : List (Sym × List (MIdx × Sym)))
    (acc : Expr) :
    tdFoldP cod ci x (p :: rest) acc =
      tdFoldP cod ci x rest (tdFoldFiberP cod ci x p.1 p.2 acc) := by
  obtain ⟨dep, tbl⟩ := p
  rfl

theorem tdFoldFiber_ok_eq {cod : JetSpace} {ci : MIdx} {x : Expr} {dep : Sym}
    {tbl : List (MIdx × Sym)}
    (h : ∀ q ∈ tbl, ∃ s, lookup2 cod.fibers dep (vecAdd q.1 ci) = some s) :
    ∀ acc, tdFoldFiber cod ci x dep tbl acc =
      Except.ok (tdFoldFiberP cod ci x dep tbl acc) := by
  induction tbl with
  | nil => intro acc; rfl
  | cons q rest ih =>
    intro acc
    rcases h q (List.mem_cons_self q rest) with ⟨s, hs⟩
    show (match lookup2 cod.fibers dep (vecAdd q.1 ci) with
      | none => Except.error "KeyError"
      | some deriv_symbol => tdFoldFiber cod ci x dep rest
          (Expr.addE acc (Expr.mulE (Expr.sym deriv_symbol) (x.diff q.2)))) = _
    rw [hs]
    show tdFoldFiber cod ci x dep rest _ = _
    rw [ih (fun q2 hq2 => h q2 (List.mem_cons_of_mem q hq2))]
    rw [tdFoldFiberP_cons, hs, Option.getD_some]

theorem tdFold_ok_eq {cod : JetSpace} {ci : MIdx} {x : Expr}
    {fibersList : List (Sym × List (MIdx × Sym))}
    (h : ∀ p ∈ fibersList, ∀ q ∈ p.2,
      ∃ s, lookup2 cod.fibers p.1 (vecAdd q.1 ci) = some s) :
    ∀ acc, tdFold cod ci x fibersList acc =
      Except.ok (tdFoldP cod ci x fibersList acc) := by
  induction fibersList with
  | nil => intro acc; rfl
  | cons p rest ih =>
    intro acc
    show (match tdFoldFiber cod ci x p.1 p.2 acc with
      | Except.error e => Except.error e
      | Except.ok acc2 => tdFold cod ci x rest acc2) = _
    rw [tdFoldFiber_ok_eq (h p (List.mem_cons_self p rest)) acc]
    show tdFold cod ci x rest _ = _
    rw [ih (fun p2 hp2 => h p2 (List.mem_cons_of_mem p hp2))]
    rw [tdFoldP_cons]

/-- `total_derivative` on a constructed jet space, with a coordinate of its
base space, always succeeds, and evaluates to the total fold. -/
theorem total_derivative_make_eq {b f : List Sym} {d : Nat} (x : Expr) {c : Sym}
    (hc : c ∈ b) :
    ∃ i, i < b.length ∧
      total_derivative x c (JetSpace.make b f d) =
        Except.ok (tdFoldP ((JetSpace.make b f d).extended (d + 1))
          (unitIdx b.length i) x (JetSpace.make b f d).fibers (x.diff c)) := by
  rcases @base_index_some (JetSpace.make b f d) c hc with ⟨i, hi, hbi⟩
  have hi2 : i < b.length := hi
  refine ⟨i, hi2, ?_⟩
  have hlk : ∀ p ∈ (JetSpace.make b f d).fibers, ∀ q ∈ p.2,
      ∃ s, lookup2 ((JetSpace.make b f d).extended (d + 1)).fibers p.1
        (vecAdd q.1 (unitIdx b.length i)) = some s := by
    intro p hp q hq
    rw [make_fibers] at hp
    rcases List.mem_map.1 hp with ⟨dep, hdep, rfl⟩
    have hq2 := canonicalTable_entry_sound hq
    rw [extended_make (Nat.le_succ d)]
    refine lookup2_make_some hdep ?_ ?_
    · rw [length_vecAdd, hq2.1, length_unitIdx hi2]
      simp
    · rw [sum_vecAdd (by rw [hq2.1, length_unitIdx hi2]), sum_unitIdx]
      omega
  show (match (JetSpace.make b f d).base_index c with
    | none => Except.error "ValueError: coordinate is not in the base space"
    | some coord_index =>
      tdFold ((JetSpace.make b f d).extended ((JetSpace.make b f d).degree + 1))
        coord_index x (JetSpace.make b f d).fibers (x.diff c)) = _
  rw [hbi]
  exact tdFold_ok_eq hlk (x.diff c)

/-- The defaulted total derivative of the zero expression is the zero
expression, on any jet space and any coordinate (each step of the fold
multiplies by the zero derivative and is absorbed). -/
theorem tdFoldFiber_zero_ok {cod : JetSpace} {ci : MIdx} {dep : Sym}
    {tbl : List (MIdx × Sym)} :
    ∀ {acc r}, tdFoldFiber cod ci (Expr.num 0) dep tbl acc = Except.ok r → r = acc := by
  induction tbl with
  | nil =>
    intro acc r h
    cases h
    rfl
  | cons q rest ih =>
    intro acc r h
    unfold tdFoldFiber at h
    cases hl : lookup2 cod.fibers dep (vecAdd q.1 ci) with
    | none => rw [hl] at h; cases h
    | some s =>
      rw [hl] at h
      have := ih h
      rwa [show (Expr.num 0).diff q.2 = Expr.num 0 from rfl, mulE_zero_right,
        addE_zero_right] at this

theorem tdFold_zero_ok {cod : JetSpace} {ci : MIdx}
    {fibersList : List (Sym × List (MIdx × Sym))} :
    ∀ {acc r}, tdFold cod ci (Expr.num 0) fibersList acc = Except.ok r → r = acc := by
  induction fibersList with
  | nil =>
    intro acc r h
    cases h
    rfl
  | cons p rest ih =>
    intro acc r h
    unfold tdFold at h
    cases hf : tdFoldFiber cod ci (Expr.num 0) p.1 p.2 acc with
    | error e => rw [hf] at h; cases h
    | ok acc2 =>
      rw [hf] at h
      rw [ih h]
      exact tdFoldFiber_zero_ok hf

/-- `tdD` of the zero expression is the zero expression, unconditionally. -/
theorem tdD_zero (c : Sym) (js : JetSpace) : tdD (Expr.num 0) c js = Expr.num 0 := by
  unfold tdD
  cases ht : total_derivative (Expr.num 0) c js with
  | error e => rfl
  | ok r =>
    unfold total_derivative at ht
    cases hb : js.base_index c with
    | none => rw [hb] at ht; cases ht
    | some ci =>
      rw [hb] at ht
      have := tdFold_zero_ok ht
      rw [this]
      rfl

/-! ## The prolongation computation on constructed jet spaces -/

theorem alookup_some_mem {α β : Type} [DecidableEq α] {l : List (α × β)} {a : α}
    {v : β} (h : alookup l a = some v) : (a, v) ∈ l := by
  induction l with
  | nil => simp [alookup] at h
  | cons p rest ih =>
    by_cases hp : p.1 = a
    · simp only [alookup, hp, if_true, Option.some.injEq] at h
      subst hp
      rw [← h]
      exact List.mem_cons_self p rest
    · simp only [alookup, hp, if_false] at h
      exact List.mem_cons_of_mem p (ih h)

theorem zipStrict_eq_zip {α β : Type} :
    ∀ {l1 : List α} {l2 : List β}, l1.length = l2.length →
      zipStrict l1 l2 = Except.ok (List.zip l1 l2) := by
  intro l1
  induction l1 with
  | nil =>
    intro l2 h
    cases l2 with
    | nil => rfl
    | cons y ys => simp at h
  | cons x xs ih =>
    intro l2 h
    cases l2 with
    | nil => simp at h
    | cons y ys =>
      show (match zipStrict xs ys with
        | Except.error e => Except.error e
        | Except.ok rest => Except.ok ((x, y) :: rest)) = _
      rw [ih (by simpa using h)]
      rfl

theorem tdD_make_ok {b f : List Sym} {d : Nat} (x : Expr) {c : Sym} (hc : c ∈ b) :
    total_derivative x c (JetSpace.make b f d) =
      Except.ok (tdD x c (JetSpace.make b f d)) := by
  rcases total_derivative_make_eq (f := f) (d := d) x hc with ⟨i, _, heq⟩
  rw [heq]
  unfold tdD
  rw [heq]

theorem getD_eq_getElem {α : Type} {l : List α} {i : Nat} (h : i < l.length)
    (dflt : α) : l.getD i dflt = l[i] := by
  simp [List.getD_eq_getElem?_getD, List.getElem?_eq_getElem h]

/-- The `xi`-terms loop of `get_prolongations` on a constructed jet space:
it never fails and computes the fold by which the reference formula
subtracts `u_(prev + e_base) * D_base(xi_base)`. -/
theorem xiTermsFold_make {b f : List Sym} {d : Nat} {dep : Sym} {prev : MIdx}
    (hdep : dep ∈ f) (hplen : prev.length = b.length) (hpsum : prev.sum + 1 ≤ d) :
    ∀ (pairs : List (Sym × Expr)), (∀ p ∈ pairs, p.1 ∈ b) →
    ∀ A, xiTermsFold (JetSpace.make b f d) dep prev pairs A =
      Except.ok (pairs.foldl (fun acc p =>
        Expr.subE acc (Expr.mulE
          (Expr.sym (coordAt (JetSpace.make b f d) dep
            (vecAdd prev (baseIdxD (JetSpace.make b f d) p.1))))
          (tdD p.2 p.1 (JetSpace.make b f d)))) A) := by
  intro pairs
  induction pairs with
  | nil => intro _ A; rfl
  | cons p rest ih =>
    intro hmem A
    obtain ⟨bc, xi⟩ := p
    have hbc : bc ∈ b := hmem (bc, xi) (List.mem_cons_self _ _)
    rcases @base_index_some (JetSpace.make b f d) bc hbc with ⟨i1, hi1, hbi1⟩
    rw [make_base] at hbi1
    have hi1b : i1 < b.length := hi1
    have hdidx_len : (vecAdd prev (unitIdx b.length i1)).length = b.length := by
      rw [length_vecAdd, hplen, length_unitIdx hi1b]
      simp
    have hdidx_sum : (vecAdd prev (unitIdx b.length i1)).sum ≤ d := by
      rw [sum_vecAdd (by rw [hplen, length_unitIdx hi1b]), sum_unitIdx]
      omega
    rcases lookup2_make_some (d := d) hdep hdidx_len hdidx_sum with ⟨dc, hdc⟩
    have htd := tdD_make_ok (f := f) (d := d) xi hbc
    show (match (JetSpace.make b f d).base_index bc with
      | none => Except.error "ValueError: coordinate is not in the base space"
      | some base_idx =>
        match lookup2 (JetSpace.make b f d).fibers dep (vecAdd prev base_idx) with
        | none => Except.error "KeyError"
        | some deriv_coord =>
          match total_derivative xi bc (JetSpace.make b f d) with
          | Except.error e => Except.error e
          | Except.ok td =>
            xiTermsFold (JetSpace.make b f d) dep prev rest
              (Expr.subE A (Expr.mulE (Expr.sym deriv_coord) td))) = _
    rw [hbi1]
    show (match lookup2 (JetSpace.make b f d).fibers dep
        (vecAdd prev (unitIdx b.length i1)) with
      | none => Except.error "KeyError"
      | some deriv_coord =>
        match total_derivative xi bc (JetSpace.make b f d) with
        | Except.error e => Except.error e
        | Except.ok td =>
          xiTermsFold (JetSpace.make b f d) dep prev rest
            (Expr.subE A (Expr.mulE (Expr.sym deriv_coord) td))) = _
    rw [hdc]
    show (match total_derivative xi bc (JetSpace.make b f d) with
      | Except.error e => Except.error e
      | Except.ok td =>
        xiTermsFold (JetSpace.make b f d) dep prev rest
          (Expr.subE A (Expr.mulE (Expr.sym dc) td))) = _
    rw [htd]
    show xiTermsFold (JetSpace.make b f d) dep prev rest
      (Expr.subE A (Expr.mulE (Expr.sym dc) (tdD xi bc (JetSpace.make b f d)))) = _
    rw [ih (fun q hq => hmem q (List.mem_cons_of_mem _ hq))]
    have hco : coordAt (JetSpace.make b f d) dep
        (vecAdd prev (baseIdxD (JetSpace.make b f d) bc)) = dc := by
      unfold coordAt baseIdxD
      rw [hbi1, Option.getD_some, hdc, Option.getD_some]
    show _ = Except.ok (List.foldl _ (Expr.subE A (Expr.mulE (Expr.sym
      (coordAt (JetSpace.make b f d) dep
        (vecAdd prev (baseIdxD (JetSpace.make b f d) bc))))
      (tdD xi bc (JetSpace.make b f d)))) rest)
    rw [hco]

/-- The defining unfolding of the reference prolongation formula at positive
degree. -/
theorem prolongationRef_succ (xis : List Expr) (js : JetSpace) (dep : Sym)
    (eta : Expr) (fuel : Nat) (mi : MIdx) :
    prolongationRef xis js dep eta (fuel + 1) mi =
      (List.zip js.base_space xis).foldl
        (fun acc p =>
          Expr.subE acc
            (Expr.mulE
              (Expr.sym (coordAt js dep
                (vecAdd (vecSub mi (unitIdx js.base_space.length
                  (mi.findIdx (fun x => x ≠ 0)))) (baseIdxD js p.1))))
              (tdD p.2 p.1 js)))
        (tdD (prolongationRef xis js dep eta fuel
            (vecSub mi (unitIdx js.base_space.length (mi.findIdx (fun x => x ≠ 0)))))
          (js.base_space.getD (mi.findIdx (fun x => x ≠ 0)) ⟨"IndexError"⟩) js) := rfl

/-- One step of `get_prolongations` on a constructed jet space computes the
reference formula, provided the predecessor is already in the accumulated
table. -/
theorem prolongStep_make {b f : List Sym} {d : Nat} {xis : List Expr} {dep : Sym}
    {eta : Expr} (hx : xis.length = b.length) (hdep : dep ∈ f)
    {acc : List (MIdx × Expr)} {mi : MIdx}
    (hmi : mi.length = b.length) (hs1 : 1 ≤ mi.sum) (hsd : mi.sum ≤ d)
    (hacc : ∀ q ∈ acc,
      q.2 = prolongationRef xis (JetSpace.make b f d) dep eta q.1.sum q.1)
    (haccmem : ∀ k : MIdx, k.length = b.length → k.sum + 1 = mi.sum →
      k ∈ acc.map Prod.fst) :
    prolongStep xis (JetSpace.make b f d) dep acc mi =
      Except.ok (acc ++
        [(mi, prolongationRef xis (JetSpace.make b f d) dep eta mi.sum mi)]) := by
  rcases first_nonzero_decomp mi (by omega) with ⟨i, v, rest, hdec, hfi, hfi2⟩
  have hlen2 : i + 1 + rest.length = b.length := by
    rw [hdec] at hmi
    simp at hmi
    omega
  have hin : i < b.length := by omega
  have hprev : vecSub mi (unitIdx b.length i) = List.replicate i 0 ++ v :: rest := by
    rw [hdec]
    exact vecSub_unit_decomp (by rw [← hdec]; exact hmi)
  have hprevlen : (vecSub mi (unitIdx b.length i)).length = b.length := by
    rw [hprev]
    simp
    omega
  have hmisum : mi.sum = v + 1 + rest.sum := by
    rw [hdec]
    simp [List.sum_append, sum_replicate_zero]
  have hprevsum : (vecSub mi (unitIdx b.length i)).sum + 1 = mi.sum := by
    rw [hprev, hmisum]
    simp [List.sum_append, sum_replicate_zero]
    omega
  have hmem := haccmem _ hprevlen hprevsum
  rcases alookup_isSome_of_mem hmem with ⟨pv, hpv⟩
  have hpv2 : pv = prolongationRef xis (JetSpace.make b f d) dep eta
      (vecSub mi (unitIdx b.length i)).sum (vecSub mi (unitIdx b.length i)) :=
    hacc _ (alookup_some_mem hpv)
  have hgb : b[i] ∈ b := List.getElem_mem hin
  have htd := tdD_make_ok (f := f) (d := d) pv hgb
  have hfold := xiTermsFold_make (d := d) hdep hprevlen (by omega) (List.zip b xis)
    (fun p hp => (List.of_mem_zip hp).1)
    (tdD pv b[i] (JetSpace.make b f d))
  show (match mi.findIdx? (fun x => x ≠ 0) with
    | none => Except.error "StopIteration"
    | some index_class =>
      match b[index_class]? with
      | none => Except.error "IndexError"
      | some leading_deriv_symbol =>
        match alookup acc (vecSub mi (unitIdx b.length index_class)) with
        | none => Except.error "KeyError"
        | some prev_prolongation =>
          match total_derivative prev_prolongation leading_deriv_symbol
              (JetSpace.make b f d) with
          | Except.error e => Except.error e
          | Except.ok eta_component =>
            match zipStrict b xis with
            | Except.error e => Except.error e
            | Except.ok pairs =>
              match xiTermsFold (JetSpace.make b f d) dep
                  (vecSub mi (unitIdx b.length index_class)) pairs eta_component with
              | Except.error e => Except.error e
              | Except.ok value => Except.ok (acc ++ [(mi, value)])) = _
  rw [hfi2]
  show (match b[i]? with
    | none => Except.error "IndexError"
    | some leading_deriv_symbol =>
      match alookup acc (vecSub mi (unitIdx b.length i)) with
      | none => Except.error "KeyError"
      | some prev_prolongation =>
        match total_derivative prev_prolongation leading_deriv_symbol
            (JetSpace.make b f d) with
        | Except.error e => Except.error e
        | Except.ok eta_component =>
          match zipStrict b xis with
          | Except.error e => Except.error e
          | Except.ok pairs =>
            match xiTermsFold (JetSpace.make b f d) dep
                (vecSub mi (unitIdx b.length i)) pairs eta_component with
            | Except.error e => Except.error e
            | Except.ok value => Except.ok (acc ++ [(mi, value)])) = _
  rw [List.getElem?_eq_getElem hin]
  show (match alookup acc (vecSub mi (unitIdx b.length i)) with
    | none => Except.error "KeyError"
    | some prev_prolongation =>
      match total_derivative prev_prolongation b[i] (JetSpace.make b f d) with
      | Except.error e => Except.error e
      | Except.ok eta_component =>
        match zipStrict b xis with
        | Except.error e => Except.error e
        | Except.ok pairs =>
          match xiTermsFold (JetSpace.make b f d) dep
              (vecSub mi (unitIdx b.length i)) pairs eta_component with
          | Except.error e => Except.error e
          | Except.ok value => Except.ok (acc ++ [(mi, value)])) = _
  rw [hpv]
  show (match total_derivative pv b[i] (JetSpace.make b f d) with
    | Except.error e => Except.error e
    | Except.ok eta_component =>
      match zipStrict b xis with
      | Except.error e => Except.error e
      | Except.ok pairs =>
        match xiTermsFold (JetSpace.make b f d) dep
            (vecSub mi (unitIdx b.length i)) pairs eta_component with
        | Except.error e => Except.error e
        | Except.ok value => Except.ok (acc ++ [(mi, value)])) = _
  rw [htd]
  show (match zipStrict b xis with
    | Except.error e => Except.error e
    | Except.ok pairs =>
      match xiTermsFold (JetSpace.make b f d) dep
          (vecSub mi (unitIdx b.length i)) pairs (tdD pv b[i] (JetSpace.make b f d)) with
      | Except.error e => Except.error e
      | Except.ok value => Except.ok (acc ++ [(mi, value)])) = _
  rw [zipStrict_eq_zip hx.symm]
  show (match xiTermsFold (JetSpace.make b f d) dep
      (vecSub mi (unitIdx b.length i)) (List.zip b xis)
      (tdD pv b[i] (JetSpace.make b f d)) with
    | Except.error e => Except.error e
    | Except.ok value => Except.ok (acc ++ [(mi, value)])) = _
  rw [hfold]
  show Except.ok (acc ++ [(mi, _)]) = Except.ok (acc ++ [(mi, _)])
  congr 3
  rw [← hprevsum, prolongationRef_succ]
  simp only [make_base]
  rw [hfi, getD_eq_getElem hin, hpv2]

/-- `prolongFold` distributes over list concatenation. -/
theorem prolongFold_append (xis : List Expr) (js : JetSpace) (dep : Sym)
    (l1 l2 : List MIdx) :
    ∀ acc, prolongFold xis js dep (l1 ++ l2) acc =
      match prolongFold xis js dep l1 acc with
      | Except.error e => Except.error e
      | Except.ok a2 => prolongFold xis js dep l2 a2 := by
  induction l1 with
  | nil => intro acc; rfl
  | cons mi l1 ih =>
    intro acc
    show (match prolongStep xis js dep acc mi with
      | Except.error e => Except.error e
      | Except.ok acc2 => prolongFold xis js dep (l1 ++ l2) acc2) =
      match (match prolongStep xis js dep acc mi with
        | Except.error e => Except.error e
        | Except.ok acc2 => prolongFold xis js dep l1 acc2) with
      | Except.error e => Except.error e
      | Except.ok a2 => prolongFold xis js dep l2 a2
    cases hstep : prolongStep xis js dep acc mi with
    | error e => rfl
    | ok acc2 => exact ih acc2

/-- Folding `prolongStep` over one complete degree block. -/
theorem prolongFold_block {b f : List Sym} {d : Nat} {xis : List Expr}
    {dep : Sym} {eta : Expr} (hx : xis.length = b.length) (hdep : dep ∈ f)
    {m : Nat} (hm1 : 1 ≤ m) (hmd : m ≤ d) :
    ∀ (ks : List MIdx), (∀ k ∈ ks, k.length = b.length ∧ k.sum = m) →
    ∀ (acc : List (MIdx × Expr)),
      (∀ q ∈ acc,
        q.2 = prolongationRef xis (JetSpace.make b f d) dep eta q.1.sum q.1) →
      (∀ k : MIdx, k.length = b.length → k.sum + 1 = m → k ∈ acc.map Prod.fst) →
      prolongFold xis (JetSpace.make b f d) dep ks acc =
        Except.ok (acc ++ ks.map (fun k =>
          (k, prolongationRef xis (JetSpace.make b f d) dep eta k.sum k))) := by
  intro ks
  induction ks with
  | nil =>
    intro _ acc _ _
    simp [prolongFold]
  | cons k ks ih =>
    intro hks acc hacc haccmem
    have hk := hks k (List.mem_cons_self k ks)
    have hstep := @prolongStep_make b f d xis dep eta hx hdep acc k hk.1
      (by omega) (by omega)
      hacc (fun k2 h1 h2 => haccmem k2 h1 (by omega))
    show (match prolongStep xis (JetSpace.make b f d) dep acc k with
      | Except.error e => Except.error e
      | Except.ok acc2 => prolongFold xis (JetSpace.make b f d) dep ks acc2) = _
    rw [hstep]
    show prolongFold xis (JetSpace.make b f d) dep ks _ = _
    rw [ih (fun k2 hk2 => hks k2 (List.mem_cons_of_mem k hk2))
      (acc ++ [(k, prolongationRef xis (JetSpace.make b f d) dep eta k.sum k)])
      ?hacc2 ?hmem2]
    case hacc2 =>
      intro q hq
      rcases List.mem_append.1 hq with h1 | h1
      · exact hacc q h1
      · rcases List.mem_singleton.1 h1 with rfl
        rfl
    case hmem2 =>
      intro k2 h1 h2
      rw [List.map_append]
      exact List.mem_append_left _ (haccmem k2 h1 h2)
    simp

/-- Folding `prolongStep` over all degree blocks up to `m`. -/
theorem prolongFold_blocks {b f : List Sym} {d : Nat} {xis : List Expr}
    {dep : Sym} {eta : Expr} (hx : xis.length = b.length) (hdep : dep ∈ f) :
    ∀ (m : Nat), m ≤ d →
      prolongFold xis (JetSpace.make b f d) dep
        ((List.range' 1 m).flatMap (derivIndices b.length))
        [((List.replicate b.length 0 : MIdx), eta)] =
      Except.ok ((jetKeys b.length m).map (fun k =>
        (k, prolongationRef xis (JetSpace.make b f d) dep eta k.sum k))) := by
  intro m
  induction m with
  | zero =>
    intro _
    show Except.ok _ = _
    simp only [jetKeys, List.range'_zero, List.flatMap_nil, List.map_cons,
      List.map_nil, sum_replicate_zero]
    rfl
  | succ m ih =>
    intro hm
    have hrange : List.range' 1 (m + 1) = List.range' 1 m ++ [1 + m] := by
      rw [← List.range'_one (s := 1 + m)]
      rw [List.range'_append_1]
      congr 1
      omega
    rw [hrange, List.flatMap_append, prolongFold_append, ih (by omega)]
    show prolongFold xis (JetSpace.make b f d) dep ([1 + m].flatMap (derivIndices b.length)) _ = _
    have hflat : ([1 + m].flatMap (derivIndices b.length)) = derivIndices b.length (1 + m) := by
      simp
    rw [hflat]
    rw [prolongFold_block hx hdep (by omega) (by omega) (derivIndices b.length (1 + m))
      (fun k hk => DI_sound (by omega) hk) _ ?hacc ?hmem]
    case hacc =>
      intro q hq
      rcases List.mem_map.1 hq with ⟨k, _, rfl⟩
      rfl
    case hmem =>
      intro k h1 h2
      rw [List.map_map]
      have : (Prod.fst ∘ fun k : MIdx =>
          (k, prolongationRef xis (JetSpace.make b f d) dep eta k.sum k)) = id := by
        funext q
        rfl
      rw [this, List.map_id]
      exact mem_jetKeys.2 ⟨h1, by omega⟩
    show Except.ok _ = _
    congr 1
    rw [← List.map_append]
    congr 1
    show jetKeys b.length m ++ derivIndices b.length (1 + m) = jetKeys b.length (m + 1)
    unfold jetKeys
    rw [List.cons_append]
    congr 1
    rw [hrange, List.flatMap_append]
    simp

/-- `prolongFiber` on a constructed jet space's canonical fiber table. -/
theorem prolongFiber_make {b f : List Sym} {d : Nat} {xis : List Expr}
    {dep : Sym} (eta : Expr) (hx : xis.length = b.length) (hdep : dep ∈ f) :
    prolongFiber xis (JetSpace.make b f d) dep eta (canonicalTable b dep d) =
      Except.ok ((jetKeys b.length d).map (fun k =>
        (k, prolongationRef xis (JetSpace.make b f d) dep eta k.sum k))) := by
  have hkeys := canonicalTable_keys b dep d
  unfold canonicalTable at hkeys ⊢
  show prolongFold xis (JetSpace.make b f d) dep
    (((List.range' 1 d).flatMap (jetBlock b dep)).map Prod.fst)
    [((List.replicate b.length 0 : MIdx), eta)] = _
  have htail : ((List.range' 1 d).flatMap (jetBlock b dep)).map Prod.fst =
      (List.range' 1 d).flatMap (derivIndices b.length) := by
    have := congrArg List.tail hkeys
    simpa [jetKeys] using this
  rw [htail]
  exact prolongFold_blocks hx hdep d (le_refl d)

/-- C1 machinery: `get_prolongations` on a constructed jet space succeeds
and computes exactly the canonical prolongation table: every multi-index of
the space mapped to the reference recursion. -/
theorem get_prolongations_make {b f : List Sym} {d : Nat} {xis etas : List Expr}
    (hx : xis.length = b.length) (he : etas.length = f.length) :
    get_prolongations xis etas (JetSpace.make b f d) =
      Except.ok (canonicalProlTable xis etas b f d) := by
  show prolongAll xis (JetSpace.make b f d) (JetSpace.make b f d).fibers etas = _
  rw [make_fibers]
  have main : ∀ (f2 : List Sym) (etas2 : List Expr), (∀ dep ∈ f2, dep ∈ f) →
      etas2.length = f2.length →
      prolongAll xis (JetSpace.make b f d)
        (f2.map (fun dep => (dep, canonicalTable b dep d))) etas2 =
        Except.ok ((List.zip f2 etas2).map (fun p =>
          (p.1, (jetKeys b.length d).map (fun mi =>
            (mi, prolongationRef xis (JetSpace.make b f d) p.1 p.2 mi.sum mi))))) := by
    intro f2
    induction f2 with
    | nil =>
      intro etas2 _ he2
      cases etas2 with
      | nil => rfl
      | cons e es => simp at he2
    | cons dep f3 ih =>
      intro etas2 hsub he2
      cases etas2 with
      | nil => simp at he2
      | cons eta etas3 =>
        show (match prolongFiber xis (JetSpace.make b f d) dep eta
            (canonicalTable b dep d) with
          | Except.error e => Except.error e
          | Except.ok t =>
            match prolongAll xis (JetSpace.make b f d)
                (f3.map (fun dep => (dep, canonicalTable b dep d))) etas3 with
            | Except.error e => Except.error e
            | Except.ok rest => Except.ok ((dep, t) :: rest)) = _
        rw [prolongFiber_make eta hx (hsub dep (List.mem_cons_self dep f3))]
        rw [ih etas3 (fun q hq => hsub q (List.mem_cons_of_mem dep hq))
          (by simpa using he2)]
        rfl
  exact main f etas (fun _ h => h) he

/-! ## Claim C5: the total derivative of `W` by `t` at degree 1 -/

/-- C5: on the jet space with base `{t}`, fiber `{W}` and degree 1,
`total_derivative(W, t, domain)` returns exactly the first-order derivative
coordinate — the symbol the jet space associates to the multi-index `(1,)`
of `W`. -/
theorem total_derivative_W_is_W_t :
    total_derivative (Expr.sym ⟨"W"⟩) ⟨"t"⟩ (JetSpace.make [⟨"t"⟩] [⟨"W"⟩] 1) =
      Except.ok (Expr.sym ⟨"W_\x7bt\x7d"⟩) ∧
    lookup2 (JetSpace.make [⟨"t"⟩] [⟨"W"⟩] 1).fibers ⟨"W"⟩ [1] =
      some ⟨"W_\x7bt\x7d"⟩ := by
  constructor
  · decide
  · decide

/-! ## Claim C7: extension composition -/

/-- C8: `extension(new_degree)` raises
`ValueError("Extension must be to higher degree")` whenever
`new_degree <= degree`, and for `new_degree > degree` returns a new jet
space of degree `new_degree`.  (The source deep-copies before modifying, so
the original is never mutated; in the pure embedding immutability is
inherent — `extension` is a function producing a new value.) -/
theorem extension_degree_check (js : JetSpace) (nd : Nat) :
    (nd ≤ js.degree → js.extension nd = Except.error "Extension must be to higher degree") ∧
    (js.degree < nd →
      js.extension nd = Except.ok (js.extended nd) ∧ (js.extended nd).degree = nd) := by
  constructor
  · intro h
    unfold JetSpace.extension
    rw [if_neg (by omega)]
  · intro h
    unfold JetSpace.extension
    rw [if_pos h]
    exact ⟨rfl, rfl⟩

/-- Witness for C8: both branches at concrete inputs. -/
theorem extension_degree_check_witness :
    (JetSpace.make [⟨"t"⟩] [⟨"W"⟩] 1).extension 1 =
      Except.error "Extension must be to higher degree" ∧
    ((JetSpace.make [⟨"t"⟩] [⟨"W"⟩] 1).extension 2 =
      Except.ok ((JetSpace.make [⟨"t"⟩] [⟨"W"⟩] 1).extended 2) ∧
      ((JetSpace.make [⟨"t"⟩] [⟨"W"⟩] 1).extended 2).degree = 2) :=
  ⟨(extension_degree_check _ 1).1 (by decide), (extension_degree_check _ 2).2 (by decide)⟩

/-! ## Claim C9: the hint substitution's three outcomes -/

/-- C9: solving an equation for its hint coordinate produces the
substitution exactly when the solve yields a single solution; zero
solutions raise `ValueError("Hint ... is not in equation")` and more than
one solution raises the distinct
`ValueError("Hint ... has multiplesolutions")` (sic — the source's adjacent
string literals concatenate without a space). -/
theorem find_submanifold_subs_solve_cases (solve : Expr → Sym → List Expr)
    (e : Expr) (h : Sym) (js : JetSpace) :
    find_submanifold_subs solve [e] js [h] =
      match solve e h with
      | [] => Except.error ("Hint " ++ h.name ++ " is not in equation")
      | [r] => Except.ok [(h, r)]
      | _ :: _ :: _ => Except.error ("Hint " ++ h.name ++ " has multiplesolutions") := by
  show fssAux solve [e] [h] = _
  cases hs : solve e h with
  | nil => simp [fssAux, hs]
  | cons r rest =>
    cases rest with
    | nil => simp [fssAux, hs]
    | cons r2 rest2 => simp [fssAux, hs]

/-! ## Claim C10 (corrected): the generator constructor does not validate -/

/-- C10 counterexample: a `Generator` constructed with one `xi` over an
empty base space — the constructor succeeds and the claimed invariant
`len(xis) == len(total_space.base)` fails. -/
theorem generator_make_no_validation_cex :
    ¬ (((Generator.make [Expr.sym ⟨"x"⟩] [] ([], [])).xis.length =
          (Generator.make [Expr.sym ⟨"x"⟩] [] ([], [])).total_space.1.length) ∧
        ((Generator.make [Expr.sym ⟨"x"⟩] [] ([], [])).etas.length =
          (Generator.make [Expr.sym ⟨"x"⟩] [] ([], [])).total_space.2.length)) := by
  decide

/-- C10 amended: `Generator.__init__` performs no validation; it stores the
given component lists unchanged, so the length invariants hold exactly when
the caller supplies lists of matching lengths. -/
theorem generator_make_stores_unchanged (xis etas : List Expr)
    (ts : List Sym × List Sym) :
    (Generator.make xis etas ts).xis = xis ∧
      (Generator.make xis etas ts).etas = etas ∧
      (Generator.make xis etas ts).total_space = ts :=
  ⟨rfl, rfl, rfl⟩

/-! ## Claim C6: prolongations at degree zero -/

theorem canonicalTable_zero (b : List Sym) (dep : Sym) :
    canonicalTable b dep 0 = [((List.replicate b.length 0 : MIdx), dep)] := by
  simp [canonicalTable]

/-- C6: on a degree-0 jet space, `get_prolongations` returns, for each
fiber, exactly the single-entry table mapping the zero multi-index to that
fiber's `eta`, unchanged. -/
theorem get_prolongations_degree_zero {b f : List Sym} (xis : List Expr)
    {etas : List Expr} (hf : f.Nodup) (he : etas.length = f.length) :
    get_prolongations xis etas (JetSpace.make b f 0) =
      Except.ok ((List.zip f etas).map (fun p =>
        (p.1, [((List.replicate b.length 0 : MIdx), p.2)]))) := by
  show prolongAll xis (JetSpace.make b f 0) (JetSpace.make b f 0).fibers etas = _
  rw [make_fibers]
  have main : ∀ (f2 : List Sym) (etas2 : List Expr), etas2.length = f2.length →
      prolongAll xis (JetSpace.make b f 0)
        (f2.map (fun dep => (dep, canonicalTable b dep 0))) etas2 =
        Except.ok ((List.zip f2 etas2).map (fun p =>
          (p.1, [((List.replicate b.length 0 : MIdx), p.2)]))) := by
    intro f2
    induction f2 with
    | nil =>
      intro etas2 he2
      cases etas2 with
      | nil => rfl
      | cons e es => simp at he2
    | cons dep f3 ih =>
      intro etas2 he2
      cases etas2 with
      | nil => simp at he2
      | cons eta etas3 =>
        show prolongAll xis _ ((dep, canonicalTable b dep 0) :: _) (eta :: etas3) = _
        unfold prolongAll
        rw [canonicalTable_zero]
        show (match prolongFold xis (JetSpace.make b f 0) dep []
            [((List.replicate (JetSpace.make b f 0).base_space.length 0 : MIdx), eta)] with
          | Except.error e => Except.error e
          | Except.ok t =>
            match prolongAll xis (JetSpace.make b f 0)
                (f3.map (fun dep => (dep, canonicalTable b dep 0))) etas3 with
            | Except.error e => Except.error e
            | Except.ok rest => Except.ok ((dep, t) :: rest)) = _
        rw [ih etas3 (by simpa using he2)]
        rfl
  exact main f etas he

/-! ## Claim C1 (corrected): the prolongation formula the code computes -/

/-- C1 counterexample: over base `(x, y)`, fiber `u`, degree 1, with
`ξ = (x, 0)` and `η = 0`, the code's prolongation component at the
multi-index `(0, 1)` is `-u_x` (each `ξ_base` is differentiated in its own
base coordinate), whereas the claim's formula — `D_α(ξ_base)` with `D_α`
the total derivative in the index-class coordinate `y` — gives `0`; the two
are not even equal after expansion. -/
theorem prolongation_claim_formula_cex :
    (get_prolongations [Expr.sym ⟨"x"⟩, Expr.num 0] [Expr.num 0]
        (JetSpace.make [⟨"x"⟩, ⟨"y"⟩] [⟨"u"⟩] 1)).toOption.bind
      (fun P => lookup2 P ⟨"u"⟩ [0, 1]) =
      some (Expr.mul (Expr.num (-1)) (Expr.sym ⟨"u_\x7bx\x7d"⟩)) ∧
    prolongationClaimRef [Expr.sym ⟨"x"⟩, Expr.num 0]
        (JetSpace.make [⟨"x"⟩, ⟨"y"⟩] [⟨"u"⟩] 1) ⟨"u"⟩ (Expr.num 0) 1 [0, 1] =
      Expr.num 0 ∧
    ¬ ExprEq (Expr.mul (Expr.num (-1)) (Expr.sym ⟨"u_\x7bx\x7d"⟩)) (Expr.num 0) := by
  refine ⟨by decide, by decide, ?_⟩
  intro h
  have h2 : toPoly (Expr.mul (Expr.num (-1)) (Expr.sym ⟨"u_\x7bx\x7d"⟩)) =
      toPoly (Expr.num 0) := h
  have h3 := congrArg (MvPolynomial.eval (fun _ => (1 : ℤ))) h2
  simp [toPoly] at h3

/-- C1 (amended): on every constructed jet space, `get_prolongations`
computes, for each fiber and each multi-index in ascending total order, the
recursion

`η^(α) = D_c(η^(α−1)) − Σ_base u_(α−1+base) · D_base(ξ_base)`,

where `c` is the index-class (first non-zero slot) base coordinate, `α−1`
the predecessor multi-index, and — unlike the claim's wording — each
`ξ_base` is differentiated in its own base coordinate, not in the
index-class coordinate.  The degree-zero component is `η` itself, and every
predecessor is computed before its successors (`canonicalProlTable` lists
the components in ascending-degree construction order and is well-defined
by recursion on the total degree). -/
theorem get_prolongations_computes_formula {b f : List Sym} {d : Nat}
    {xis etas : List Expr} (hf : f.Nodup) (hx : xis.length = b.length)
    (he : etas.length = f.length) :
    get_prolongations xis etas (JetSpace.make b f d) =
      Except.ok (canonicalProlTable xis etas b f d) :=
  get_prolongations_make hx he

/-- Witness for the amended C1 at a concrete generator and jet space. -/
theorem get_prolongations_computes_formula_witness :
    get_prolongations [Expr.sym ⟨"x"⟩, Expr.num 0] [Expr.num 0]
        (JetSpace.make [⟨"x"⟩, ⟨"y"⟩] [⟨"u"⟩] 1) =
      Except.ok (canonicalProlTable [Expr.sym ⟨"x"⟩, Expr.num 0] [Expr.num 0]
        [⟨"x"⟩, ⟨"y"⟩] [⟨"u"⟩] 1) :=
  get_prolongations_computes_formula (by decide) (by decide) (by decide)

/-! ## Claim C2: the zero generator yields the zero expression -/

theorem foldl_subE_zero {js : JetSpace} {dep : Sym} {prev : MIdx} :
    ∀ (pairs : List (Sym × Expr)), (∀ p ∈ pairs, p.2 = Expr.num 0) →
    ∀ A : Expr, pairs.foldl (fun acc p =>
      Expr.subE acc (Expr.mulE
        (Expr.sym (coordAt js dep (vecAdd prev (baseIdxD js p.1))))
        (tdD p.2 p.1 js))) A = A := by
  intro pairs
  induction pairs with
  | nil => intro _ A; rfl
  | cons p rest ih =>
    intro h A
    have hp : p.2 = Expr.num 0 := h p (List.mem_cons_self p rest)
    show rest.foldl _ (Expr.subE A (Expr.mulE _ (tdD p.2 p.1 js))) = A
    rw [hp, tdD_zero, mulE_zero_right, subE_zero_right]
    exact ih (fun q hq => h q (List.mem_cons_of_mem p hq)) A

/-- The reference prolongation of the zero generator is identically zero. -/
theorem prolongationRef_zero {js : JetSpace} {dep : Sym} {xis : List Expr}
    (hzero : ∀ xi ∈ xis, xi = Expr.num 0) :
    ∀ (fuel : Nat) (mi : MIdx),
      prolongationRef xis js dep (Expr.num 0) fuel mi = Expr.num 0 := by
  intro fuel
  induction fuel with
  | zero => intro mi; rfl
  | succ k ih =>
    intro mi
    rw [prolongationRef_succ, ih, tdD_zero]
    exact foldl_subE_zero _ (fun p hp => hzero p.2 (List.of_mem_zip hp).2) _

theorem applyBaseFold_zero (e : Expr) :
    ∀ (pairs : List (Sym × Expr)), (∀ p ∈ pairs, p.2 = Expr.num 0) →
    ∀ acc, applyBaseFold e pairs acc = acc := by
  intro pairs
  induction pairs with
  | nil => intro _ acc; rfl
  | cons p rest ih =>
    intro h acc
    obtain ⟨bc, xi⟩ := p
    have hp : xi = Expr.num 0 := h (bc, xi) (List.mem_cons_self _ _)
    show applyBaseFold e rest (Expr.addE acc (Expr.mulE xi (e.diff bc))) = acc
    rw [hp, mulE_zero_left, addE_zero_right]
    exact ih (fun q hq => h q (List.mem_cons_of_mem _ hq)) acc

theorem applyFiberInner_zero {e : Expr} {P : List (Sym × List (MIdx × Expr))}
    {dep : Sym} :
    ∀ (tbl : List (MIdx × Sym)),
      (∀ q ∈ tbl, lookup2 P dep q.1 = some (Expr.num 0)) →
    ∀ acc, applyFiberInner e P dep tbl acc = Except.ok acc := by
  intro tbl
  induction tbl with
  | nil => intro _ acc; rfl
  | cons q rest ih =>
    intro h acc
    obtain ⟨mi, coordSym⟩ := q
    have hq : lookup2 P dep mi = some (Expr.num 0) :=
      h (mi, coordSym) (List.mem_cons_self _ _)
    show (match lookup2 P dep mi with
      | none => Except.error "KeyError"
      | some eta_prolongation =>
        applyFiberInner e P dep rest
          (Expr.addE acc (Expr.mulE eta_prolongation (e.diff coordSym)))) = _
    rw [hq]
    show applyFiberInner e P dep rest
      (Expr.addE acc (Expr.mulE (Expr.num 0) (e.diff coordSym))) = _
    rw [mulE_zero_left, addE_zero_right]
    exact ih (fun q2 hq2 => h q2 (List.mem_cons_of_mem _ hq2)) acc

theorem applyFiberFold_zero {e : Expr} {P : List (Sym × List (MIdx × Expr))} :
    ∀ (fibersList : List (Sym × List (MIdx × Sym))),
      (∀ p ∈ fibersList, ∀ q ∈ p.2, lookup2 P p.1 q.1 = some (Expr.num 0)) →
    ∀ acc, applyFiberFold e P fibersList acc = Except.ok acc := by
  intro fibersList
  induction fibersList with
  | nil => intro _ acc; rfl
  | cons p rest ih =>
    intro h acc
    obtain ⟨dep, tbl⟩ := p
    show (match applyFiberInner e P dep tbl acc with
      | Except.error er => Except.error er
      | Except.ok acc2 => applyFiberFold e P rest acc2) = _
    rw [applyFiberInner_zero tbl (h (dep, tbl) (List.mem_cons_self _ _)) acc]
    exact ih (fun q hq => h q (List.mem_cons_of_mem _ hq)) acc

theorem zip_self_map {α β : Type} (l : List α) (g : α → β) :
    List.zip l (l.map g) = l.map (fun x => (x, g x)) := by
  induction l with
  | nil => rfl
  | cons x xs ih => simp [ih]

theorem alookup_zip_map {α β γ : Type} [DecidableEq α] (g : α → β)
    (F : α → β → γ) (a : α) :
    ∀ (l : List α), a ∈ l →
      alookup ((List.zip l (l.map g)).map (fun p => (p.1, F p.1 p.2))) a =
        some (F a (g a)) := by
  intro l
  induction l with
  | nil => intro h; simp at h
  | cons x xs ih =>
    intro h
    show alookup ((x, F x (g x)) ::
      (List.zip xs (xs.map g)).map (fun p => (p.1, F p.1 p.2))) a = _
    by_cases hx : x = a
    · subst hx
      simp [alookup]
    · rcases List.mem_cons.1 h with h1 | h1
      · exact absurd h1.symm hx
      · simpa [alookup, hx] using ih h1

/-- Applying the zero generator to any expression on its constructed jet
space gives the literal zero expression. -/
theorem apply_zero_generator {b f : List Sym} {d : Nat} (e : Expr) :
    (zeroGenerator b f).apply e (JetSpace.make b f d) = Except.ok (Expr.num 0) := by
  have hgp := @get_prolongations_make b f d (b.map (fun _ => Expr.num 0))
    (f.map (fun _ => Expr.num 0)) (by simp) (by simp)
  show (match get_prolongations (b.map (fun _ => Expr.num 0))
      (f.map (fun _ => Expr.num 0)) (JetSpace.make b f d) with
    | Except.error er => Except.error er
    | Except.ok eta_prolongations =>
      applyFiberFold e eta_prolongations (JetSpace.make b f d).fibers
        (applyBaseFold e
          (List.zip (JetSpace.make b f d).base_space (b.map (fun _ => Expr.num 0)))
          (Expr.num 0))) = _
  rw [hgp]
  have hbase : applyBaseFold e
      (List.zip (JetSpace.make b f d).base_space (b.map (fun _ => Expr.num 0)))
      (Expr.num 0) = Expr.num 0 := by
    rw [make_base]
    refine applyBaseFold_zero e _ ?_ _
    intro p hp
    rcases List.mem_map.1 (List.of_mem_zip hp).2 with ⟨x, _, hx⟩
    exact hx.symm
  rw [hbase]
  refine applyFiberFold_zero _ ?_ _
  intro p hp q hq
  rw [make_fibers] at hp
  rcases List.mem_map.1 hp with ⟨dep, hdep, rfl⟩
  have hq2 := canonicalTable_entry_sound hq
  have hmi : q.1 ∈ jetKeys b.length d := mem_jetKeys.2 hq2
  show lookup2 (canonicalProlTable (b.map (fun _ => Expr.num 0))
    (f.map (fun _ => Expr.num 0)) b f d) dep q.1 = some (Expr.num 0)
  unfold canonicalProlTable lookup2
  have halk := alookup_zip_map (fun _ => Expr.num 0)
    (fun dep2 eta2 => (jetKeys b.length d).map (fun mi =>
      (mi, prolongationRef (b.map (fun _ => Expr.num 0)) (JetSpace.make b f d)
        dep2 eta2 mi.sum mi))) dep f hdep
  rw [halk]
  have halk2 := alookup_map_self (jetKeys b.length d)
    (fun mi => prolongationRef (b.map (fun _ => Expr.num 0)) (JetSpace.make b f d)
      dep (Expr.num 0) mi.sum mi) q.1 hmi
  show alookup ((jetKeys b.length d).map (fun mi =>
    (mi, prolongationRef (b.map (fun _ => Expr.num 0)) (JetSpace.make b f d)
      dep (Expr.num 0) mi.sum mi))) q.1 = some (Expr.num 0)
  rw [halk2]
  show some (prolongationRef (b.map (fun _ => Expr.num 0)) (JetSpace.make b f d)
    dep (Expr.num 0) q.1.sum q.1) = some (Expr.num 0)
  rw [prolongationRef_zero (by simp)]

/-- C2: applying `get_lin_symmetry_cond` with the zero generator (all
`ξ = 0`, `η = 0` on the equation's total space) to a differential equation
whose hint coordinate the solver resolves to a single solution yields the
literal zero expression. -/
theorem get_lin_symmetry_cond_zero_generator {b f : List Sym} {d : Nat}
    (hf : f.Nodup) (e : Expr) (h : Sym) (solve : Expr → Sym → List Expr)
    {r : Expr} (hsolve : solve e h = [r]) :
    get_lin_symmetry_cond_single solve e (zeroGenerator b f)
      (JetSpace.make b f d) h = Except.ok (Expr.num 0) := by
  have hfss : find_submanifold_subs solve [e] (JetSpace.make b f d) [h] =
      Except.ok [(h, r)] := by
    show fssAux solve [e] [h] = _
    unfold fssAux
    rw [hsolve]
    rfl
  unfold get_lin_symmetry_cond_single get_lin_symmetry_cond
  rw [hfss]
  show (match glscAux (zeroGenerator b f) (JetSpace.make b f d) [(h, r)] [e] with
    | Except.error er => Except.error er
    | Except.ok [] => Except.error "StopIteration"
    | Except.ok (r2 :: _) => Except.ok r2)  = _
  unfold glscAux
  rw [apply_zero_generator]
  show (match (match glscAux (zeroGenerator b f) (JetSpace.make b f d) [(h, r)] [] with
    | Except.error er => Except.error er
    | Except.ok rest => Except.ok ((Expr.num 0).subs [(h, r)] :: rest)) with
    | Except.error er => Except.error er
    | Except.ok [] => Except.error "StopIteration"
    | Except.ok (r2 :: _) => Except.ok r2) = _
  rw [subs_num]
  rfl

/-- Witness for C2 at a concrete equation, hint and solver. -/
theorem get_lin_symmetry_cond_zero_generator_witness :
    get_lin_symmetry_cond_single (fun _ _ => [Expr.num 5])
      (Expr.sym ⟨"W_\x7bt\x7d"⟩) (zeroGenerator [⟨"t"⟩] [⟨"W"⟩])
      (JetSpace.make [⟨"t"⟩] [⟨"W"⟩] 1) ⟨"W_\x7bt\x7d"⟩ =
      Except.ok (Expr.num 0) :=
  get_lin_symmetry_cond_zero_generator (by decide) _ _ _ rfl

/-- Witness for C6 at a concrete generator and total space. -/
theorem get_prolongations_degree_zero_witness :
    get_prolongations [Expr.num 1] [Expr.sym ⟨"W"⟩]
        (JetSpace.make [⟨"t"⟩] [⟨"W"⟩] 0) =
      Except.ok ((List.zip [(⟨"W"⟩ : Sym)] [Expr.sym ⟨"W"⟩]).map (fun p =>
        (p.1, [((List.replicate (List.length [(⟨"t"⟩ : Sym)]) 0 : MIdx), p.2)]))) :=
  get_prolongations_degree_zero [Expr.num 1] (by decide) (by decide)

/-! ## Soundness of the polynomial normal form -/

theorem evalNF_nil : evalNF [] = 0 := by
  simp [evalNF]

theorem evalNF_cons (p : MonKey × Int) (l : List (MonKey × Int)) :
    evalNF (p :: l) = MvPolynomial.C p.2 * evalKey p.1 + evalNF l := by
  simp [evalNF]

theorem evalKey_insertSym (a : Sym) (l : MonKey) :
    evalKey (insertSym a l) = MvPolynomial.X a * evalKey l := by
  induction l with
  | nil => simp [insertSym, evalKey]
  | cons b l2 ih =>
    unfold insertSym
    split_ifs with h
    · simp [evalKey]
    · simp only [evalKey, List.map_cons, List.prod_cons] at ih ⊢
      rw [ih]
      ring

theorem evalKey_mulKey (k1 k2 : MonKey) :
    evalKey (mulKey k1 k2) = evalKey k1 * evalKey k2 := by
  induction k1 with
  | nil => simp [mulKey, evalKey]
  | cons a k1' ih =>
    show evalKey (insertSym a (mulKey k1' k2)) = _
    rw [evalKey_insertSym, ih]
    simp only [evalKey, List.map_cons, List.prod_cons]
    ring

theorem evalNF_addTermNF (k : MonKey) (c : Int) (l : List (MonKey × Int)) :
    evalNF (addTermNF k c l) = MvPolynomial.C c * evalKey k + evalNF l := by
  induction l with
  | nil =>
    unfold addTermNF
    split_ifs with h
    · subst h; simp [evalNF]
    · simp [evalNF]
  | cons p rest ih =>
    obtain ⟨k2, c2⟩ := p
    unfold addTermNF
    split_ifs with h1 h2
    · subst h1
      rw [evalNF_cons]
      have hC : (MvPolynomial.C c : MvPolynomial Sym ℤ) + MvPolynomial.C c2 = 0 := by
        rw [← MvPolynomial.C_add, h2, MvPolynomial.C_0]
      have h3 : MvPolynomial.C c * evalKey k +
          (MvPolynomial.C c2 * evalKey k + evalNF rest) =
          (MvPolynomial.C c + MvPolynomial.C c2) * evalKey k + evalNF rest := by
        ring
      rw [h3, hC, zero_mul, zero_add]
    · subst h1
      rw [evalNF_cons, evalNF_cons]
      show MvPolynomial.C (c + c2) * evalKey k + evalNF rest = _
      rw [MvPolynomial.C_add]
      ring
    · rw [evalNF_cons, evalNF_cons, ih]
      ring

theorem evalNF_addNF (l1 l2 : List (MonKey × Int)) :
    evalNF (addNF l1 l2) = evalNF l1 + evalNF l2 := by
  induction l1 generalizing l2 with
  | nil => simp [addNF, evalNF]
  | cons p l1' ih =>
    show evalNF (addNF l1' (addTermNF p.1 p.2 l2)) = _
    rw [ih, evalNF_addTermNF, evalNF_cons]
    ring

theorem evalNF_map_mulTerm (k : MonKey) (c : Int) (l2 : List (MonKey × Int)) :
    evalNF (l2.map (fun q => (mulKey k q.1, c * q.2))) =
      MvPolynomial.C c * evalKey k * evalNF l2 := by
  induction l2 with
  | nil => simp [evalNF]
  | cons q l2' ih =>
    rw [List.map_cons, evalNF_cons, evalNF_cons, ih]
    show MvPolynomial.C (c * q.2) * evalKey (mulKey k q.1) + _ = _
    rw [evalKey_mulKey, MvPolynomial.C_mul]
    ring

theorem evalNF_mulNF (l1 l2 : List (MonKey × Int)) :
    evalNF (mulNF l1 l2) = evalNF l1 * evalNF l2 := by
  have main : ∀ (l0 acc : List (MonKey × Int)),
      evalNF (l0.foldl (fun acc2 p =>
        addNF (l2.map (fun q => (mulKey p.1 q.1, p.2 * q.2))) acc2) acc) =
      evalNF acc + evalNF l0 * evalNF l2 := by
    intro l0
    induction l0 with
    | nil => intro acc; simp [evalNF]
    | cons p l0' ih =>
      intro acc
      show evalNF (l0'.foldl _
        (addNF (l2.map (fun q => (mulKey p.1 q.1, p.2 * q.2))) acc)) = _
      rw [ih, evalNF_addNF, evalNF_map_mulTerm, evalNF_cons]
      ring
  have hm := main l1 []
  rw [evalNF_nil, zero_add] at hm
  exact hm

/-- The normal form is sound: it denotes exactly the expression's
polynomial. -/
theorem evalNF_polyNF (e : Expr) : evalNF e.polyNF = toPoly e := by
  induction e with
  | num n =>
    unfold Expr.polyNF
    split_ifs with h
    · subst h; simp [evalNF, toPoly]
    · simp [evalNF, evalKey, toPoly]
  | sym s => simp [Expr.polyNF, evalNF, evalKey, toPoly]
  | add a b iha ihb =>
    show evalNF (addNF _ _) = _
    rw [evalNF_addNF, iha, ihb]
    rfl
  | mul a b iha ihb =>
    show evalNF (mulNF _ _) = _
    rw [evalNF_mulNF, iha, ihb]
    rfl

/-- An expression that is non-zero as a polynomial is never collapsed to
zero by the normal form. -/
theorem toPoly_ne_zero_isZeroPoly {x : Expr} (h : toPoly x ≠ 0) :
    x.isZeroPoly = false := by
  cases hz : x.isZeroPoly
  · rfl
  · exfalso
    apply h
    have hnil : x.polyNF = [] := by
      have h2 := hz
      unfold Expr.isZeroPoly at h2
      exact List.isEmpty_iff.1 h2
    rw [← evalNF_polyNF, hnil, evalNF_nil]

theorem num_one_not_ExprEq_zero : ¬ExprEq (Expr.num 1) (Expr.num 0) := by
  intro h
  have h2 : (MvPolynomial.C 1 : MvPolynomial Sym ℤ) = MvPolynomial.C 0 := h
  have h3 : (1 : ℤ) = 0 := MvPolynomial.C_injective Sym ℤ h2
  simp at h3

theorem sym_not_ExprEq_zero (s : Sym) : ¬ExprEq (Expr.sym s) (Expr.num 0) := by
  intro h
  have h2 : (MvPolynomial.X s : MvPolynomial Sym ℤ) = MvPolynomial.C 0 := h
  rw [MvPolynomial.C_0] at h2
  exact MvPolynomial.X_ne_zero s h2

/-! ## Claim C3: decomposition of linear combinations of generators -/

theorem linDecomp_num_zero (cs : List Sym) :
    Expr.linDecomp cs (Expr.num 0) = some (Expr.num 0, cs.map (fun _ => Expr.num 0)) := rfl

theorem linDecomp_length {cs : List Sym} :
    ∀ (e : Expr) {c0 : Expr} {l : List Expr},
      Expr.linDecomp cs e = some (c0, l) → l.length = cs.length := by
  intro e
  induction e with
  | num n =>
    intro c0 l h
    simp only [Expr.linDecomp, Option.some.injEq, Prod.mk.injEq] at h
    rw [← h.2]
    simp
  | sym s =>
    intro c0 l h
    by_cases hs : s ∈ cs
    · simp only [Expr.linDecomp, hs, if_true, Option.some.injEq, Prod.mk.injEq] at h
      rw [← h.2]
      simp
    · simp only [Expr.linDecomp, hs, if_false, Option.some.injEq, Prod.mk.injEq] at h
      rw [← h.2]
      simp
  | add a b iha ihb =>
    intro c0 l h
    unfold Expr.linDecomp at h
    cases ha : Expr.linDecomp cs a with
    | none => rw [ha] at h; cases h
    | some da =>
      cases hb : Expr.linDecomp cs b with
      | none => rw [ha, hb] at h; cases h
      | some db =>
        obtain ⟨ca, la⟩ := da
        obtain ⟨cb, lb⟩ := db
        rw [ha, hb] at h
        simp only [Option.some.injEq, Prod.mk.injEq] at h
        rw [← h.2]
        rw [List.length_zipWith, iha ha, ihb hb]
        simp
  | mul a b iha ihb =>
    intro c0 l h
    unfold Expr.linDecomp at h
    by_cases hfa : a.freeOf cs
    · rw [if_pos hfa] at h
      cases hb : Expr.linDecomp cs b with
      | none => rw [hb] at h; cases h
      | some db =>
        obtain ⟨cb, lb⟩ := db
        rw [hb] at h
        simp only [Option.some.injEq, Prod.mk.injEq] at h
        rw [← h.2]
        rw [List.length_map]
        exact ihb hb
    · rw [if_neg hfa] at h
      by_cases hfb : b.freeOf cs
      · rw [if_pos hfb] at h
        cases ha : Expr.linDecomp cs a with
        | none => rw [ha] at h; cases h
        | some da =>
          obtain ⟨ca, la⟩ := da
          rw [ha] at h
          simp only [Option.some.injEq, Prod.mk.injEq] at h
          rw [← h.2]
          rw [List.length_map]
          exact iha ha
      · rw [if_neg hfb] at h
        cases h

theorem addE_num_num (m n : Int) : Expr.addE (Expr.num m) (Expr.num n) = Expr.num (m + n) := by
  unfold Expr.addE
  split_ifs with h1 h2
  · simp only [Expr.num.injEq] at h1
    rw [h1, Int.zero_add]
  · simp only [Expr.num.injEq] at h2
    rw [h2, Int.add_zero]
  · rfl

theorem zipWith_addE_zeros_left {α : Type} :
    ∀ {cs : List α} {l : List Expr}, l.length = cs.length →
      List.zipWith Expr.addE (cs.map (fun _ => Expr.num 0)) l = l := by
  intro cs
  induction cs with
  | nil =>
    intro l h
    cases l with
    | nil => rfl
    | cons x xs => simp at h
  | cons c cs2 ih =>
    intro l h
    cases l with
    | nil => simp at h
    | cons x xs =>
      simp only [List.map_cons, List.zipWith_cons_cons, addE_zero_left]
      rw [ih (by simpa using h)]

theorem zipWith_addE_zeros_right {α : Type} :
    ∀ {cs : List α} {l : List Expr}, l.length = cs.length →
      List.zipWith Expr.addE l (cs.map (fun _ => Expr.num 0)) = l := by
  intro cs
  induction cs with
  | nil =>
    intro l h
    cases l with
    | nil => rfl
    | cons x xs => simp at h
  | cons c cs2 ih =>
    intro l h
    cases l with
    | nil => simp at h
    | cons x xs =>
      simp only [List.map_cons, List.zipWith_cons_cons, addE_zero_right]
      rw [ih (by simpa using h)]

theorem zipWith_addE_getD :
    ∀ {l1 l2 : List Expr}, l1.length = l2.length → ∀ (k : Nat),
      (List.zipWith Expr.addE l1 l2).getD k (Expr.num 0) =
        Expr.addE (l1.getD k (Expr.num 0)) (l2.getD k (Expr.num 0)) := by
  intro l1
  induction l1 with
  | nil =>
    intro l2 h k
    cases l2 with
    | nil => simp [addE_zero_left]
    | cons y ys => simp at h
  | cons x xs ih =>
    intro l2 h k
    cases l2 with
    | nil => simp at h
    | cons y ys =>
      cases k with
      | zero => rfl
      | succ k2 =>
        simp only [List.zipWith_cons_cons, List.getD_cons_succ]
        exact ih (by simpa using h) k2

theorem map_mulE_getD (c : Expr) (l : List Expr) (k : Nat) :
    (l.map (fun x => Expr.mulE c x)).getD k (Expr.num 0) =
      Expr.mulE c (l.getD k (Expr.num 0)) := by
  induction l generalizing k with
  | nil => simp [mulE_zero_right]
  | cons x xs ih =>
    cases k with
    | zero => rfl
    | succ k2 =>
      simp only [List.map_cons, List.getD_cons_succ]
      exact ih k2

theorem zipWith_map_same {α β γ : Type} (f : β → β → γ) (g h : α → β)
    (l : List α) :
    List.zipWith f (l.map g) (l.map h) = l.map (fun x => f (g x) (h x)) := by
  induction l with
  | nil => rfl
  | cons x xs ih => simp [ih]

/-- `addE` builds a syntactic sum whenever no auto-evaluation rule fires. -/
theorem addE_of_ne {P Q : Expr} (h1 : P ≠ Expr.num 0) (h2 : Q ≠ Expr.num 0)
    (h3 : ∀ m n : Int, ¬(P = Expr.num m ∧ Q = Expr.num n)) :
    Expr.addE P Q = Expr.add P Q := by
  unfold Expr.addE
  rw [if_neg h1, if_neg h2]
  cases P <;> cases Q <;> first | rfl | exact absurd ⟨rfl, rfl⟩ (h3 _ _)

/-- Coefficient extraction commutes with sympy's auto-evaluating addition:
if both summands are linear in the basis, so is their `addE`, with pointwise
`addE`-combined coefficients. -/
theorem linDecomp_addE {cs : List Sym} {P Q cp cq : Expr} {lp lq : List Expr}
    (hP : Expr.linDecomp cs P = some (cp, lp))
    (hQ : Expr.linDecomp cs Q = some (cq, lq)) :
    Expr.linDecomp cs (Expr.addE P Q) =
      some (Expr.addE cp cq, List.zipWith Expr.addE lp lq) := by
  by_cases h1 : P = Expr.num 0
  · subst h1
    rw [linDecomp_num_zero] at hP
    simp only [Option.some.injEq, Prod.mk.injEq] at hP
    rw [addE_zero_left, ← hP.1, ← hP.2, addE_zero_left,
      zipWith_addE_zeros_left (linDecomp_length Q hQ)]
    exact hQ
  by_cases h2 : Q = Expr.num 0
  · subst h2
    rw [linDecomp_num_zero] at hQ
    simp only [Option.some.injEq, Prod.mk.injEq] at hQ
    rw [addE_zero_right, ← hQ.1, ← hQ.2, addE_zero_right,
      zipWith_addE_zeros_right (linDecomp_length P hP)]
    exact hP
  · by_cases hnn : ∃ m n : Int, P = Expr.num m ∧ Q = Expr.num n
    · obtain ⟨m, n, rfl, rfl⟩ := hnn
      rw [addE_num_num]
      show some (Expr.num (m + n), cs.map (fun _ => Expr.num 0)) = _
      simp only [Expr.linDecomp, Option.some.injEq, Prod.mk.injEq] at hP hQ
      rw [← hP.1, ← hP.2, ← hQ.1, ← hQ.2, addE_num_num,
        zipWith_addE_zeros_left (by simp)]
    · rw [addE_of_ne h1 h2 (fun m n h => hnn ⟨m, n, h.1, h.2⟩)]
      show Expr.linDecomp cs (Expr.add P Q) = _
      simp [Expr.linDecomp, hP, hQ]

/-- Coefficient extraction of `c_j * x` for a basis symbol `c_j` and a
basis-free `x`: the constant part is zero and the coefficient vector is `x`
at `c_j` and zero elsewhere. -/
theorem linDecomp_mulE_basis {cs : List Sym} {cj : Sym} {x : Expr}
    (hcj : cj ∈ cs) (hx : x.freeOf cs = true) :
    Expr.linDecomp cs (Expr.mulE (Expr.sym cj) x) =
      some (Expr.num 0,
        cs.map (fun c => if c = cj then x else Expr.num 0)) := by
  by_cases hx0 : x = Expr.num 0
  · subst hx0
    rw [mulE_zero_right, linDecomp_num_zero]
    congr 1
    congr 1
    apply List.map_congr_left
    intro c _
    by_cases hc : c = cj <;> simp [hc]
  · by_cases hx1 : x = Expr.num 1
    · subst hx1
      have hm : Expr.mulE (Expr.sym cj) (Expr.num 1) = Expr.sym cj := by
        unfold Expr.mulE
        rw [if_neg (by simp), if_neg (by simp), if_pos rfl]
      rw [hm]
      show (if cj ∈ cs then _ else _) = _
      rw [if_pos hcj]
    · have hm : Expr.mulE (Expr.sym cj) x = Expr.mul (Expr.sym cj) x := by
        unfold Expr.mulE
        rw [if_neg (by simp [hx0]), if_neg (by simp), if_neg hx1]
      rw [hm]
      have hfa : (Expr.sym cj).freeOf cs = false := by
        simp [Expr.freeOf, hcj]
      have hda : Expr.linDecomp cs (Expr.sym cj) =
          some (Expr.num 0,
            cs.map (fun c => if c = cj then Expr.num 1 else Expr.num 0)) := by
        show (if cj ∈ cs then _ else _) = _
        rw [if_pos hcj]
      show (if (Expr.sym cj).freeOf cs = true then _
        else if x.freeOf cs = true then _ else _) = _
      rw [hfa]
      simp only [Bool.false_eq_true, if_false, hx, if_true]
      rw [hda]
      show some (Expr.mulE (Expr.num 0) x, _) = _
      rw [mulE_zero_left, List.map_map]
      congr 1
      congr 1
      apply List.map_congr_left
      intro c _
      by_cases hc : c = cj
      · simp only [Function.comp, hc, if_pos rfl]
        exact mulE_one_left x hx0
      · simp only [Function.comp, hc, if_neg hc, if_false]
        exact mulE_zero_left x

theorem alookup_not_mem_none {α β : Type} [DecidableEq α] {l : List (α × β)}
    {a : α} (h : a ∉ l.map Prod.fst) : alookup l a = none := by
  induction l with
  | nil => rfl
  | cons p rest ih =>
    have hp : p.1 ≠ a := by
      intro he
      exact h (by simp [← he])
    simp only [alookup, hp, if_false]
    exact ih (fun hm => h (by simp at hm ⊢; exact Or.inr hm))

theorem alookup_append_none {α β : Type} [DecidableEq α] {l1 : List (α × β)}
    (l2 : List (α × β)) {a : α} (h : alookup l1 a = none) :
    alookup (l1 ++ l2) a = alookup l2 a := by
  induction l1 with
  | nil => rfl
  | cons p rest ih =>
    by_cases hp : p.1 = a
    · simp [alookup, hp] at h
    · simp only [alookup, hp, if_false] at h
      simp only [List.cons_append, alookup, hp, if_false]
      exact ih h

/-- `mapM` over `Option` from a pointwise `getD` description of the
results. -/
theorem mapM_some_of_getD {α β : Type} (g : α → Option β) (dflt : α) :
    ∀ (l : List α) (F : Nat → β),
      (∀ k, k < l.length → g (l.getD k dflt) = some (F k)) →
      l.mapM g = some ((List.range l.length).map F) := by
  intro l
  induction l with
  | nil => intro F _; rfl
  | cons x xs ih =>
    intro F h
    have h0 : g x = some (F 0) := h 0 (by simp)
    have hs : xs.mapM g = some ((List.range xs.length).map (fun k => F (k + 1))) :=
      ih (fun k => F (k + 1)) (fun k hk => h (k + 1) (by simpa using hk))
    rw [List.mapM_cons, h0, hs]
    show some (F 0 :: (List.range xs.length).map (fun k => F (k + 1))) = _
    rw [List.length_cons, List.range_succ_eq_map, List.map_cons, List.map_map]
    rfl

/-- Reading every position of a list back in order reproduces the list. -/
theorem map_getD_range {α : Type} (l : List α) (dflt : α) :
    (List.range l.length).map (fun k => l.getD k dflt) = l := by
  induction l with
  | nil => rfl
  | cons x xs ih =>
    rw [List.length_cons, List.range_succ_eq_map, List.map_cons, List.map_map]
    show x :: (List.range xs.length).map (fun k => xs.getD k dflt) = _
    rw [ih]

/-- Looking a key up in a zip of distinct keys with values finds the
positionally matching value. -/
theorem alookup_zip_getD_nodup {α β : Type} [DecidableEq α] :
    ∀ {ks : List α} {vs : List β}, ks.Nodup → ks.length = vs.length →
      ∀ {i : Nat} (h : i < ks.length) (d1 : α) (d2 : β),
      alookup (List.zip ks vs) (ks.getD i d1) = some (vs.getD i d2) := by
  intro ks
  induction ks with
  | nil => intro vs _ _ i h; simp at h
  | cons k ks2 ih =>
    intro vs hnd hlen i h d1 d2
    cases vs with
    | nil => simp at hlen
    | cons v vs2 =>
      cases i with
      | zero => simp [alookup]
      | succ i2 =>
        have hi2 : i2 < ks2.length := by simpa using h
        have hne : k ≠ ks2.getD i2 d1 := by
          intro he
          have hmem : ks2.getD i2 d1 ∈ ks2 := by
            rw [getD_eq_getElem hi2]
            exact List.getElem_mem hi2
          rw [← he] at hmem
          exact (List.nodup_cons.1 hnd).1 hmem
        show (if k = ks2.getD i2 d1 then some v else _) = _
        rw [if_neg hne]
        exact ih (List.nodup_cons.1 hnd).2 (by simpa using hlen) hi2 d1 d2

theorem freeOf_getD {cs : List Sym} {l : List Expr}
    (hl : ∀ x ∈ l, x.freeOf cs = true) (k : Nat) :
    (l.getD k (Expr.num 0)).freeOf cs = true := by
  by_cases hk : k < l.length
  · rw [getD_eq_getElem hk]
    exact hl _ (List.getElem_mem hk)
  · rw [List.getD_eq_getElem?_getD, List.getElem?_eq_none (by omega)]
    rfl

/-- One `acc + c_0 * G_0` step of the linear-combination fold, seen through
coefficient extraction of one component slot: the coefficient at `c_0`
becomes `G_0`'s component and every other coefficient is untouched. -/
theorem linComb_step_decomp {cs : List Sym} {done : List (Sym × Generator)}
    {c0 : Sym} {G0 : Generator} (F : Generator → List Expr)
    (hc0 : c0 ∈ cs) (hc0done : c0 ∉ done.map Prod.fst)
    {lacc : List Expr}
    (hlen : lacc.length = (F G0).length)
    (hfree : ∀ x ∈ F G0, x.freeOf cs = true)
    (hInv : ∀ k, Expr.linDecomp cs (lacc.getD k (Expr.num 0)) =
      some (Expr.num 0, cs.map (fun c =>
        match alookup done c with
        | some G => (F G).getD k (Expr.num 0)
        | none => Expr.num 0)))
    (k : Nat) :
    Expr.linDecomp cs
      ((List.zipWith Expr.addE lacc
        ((F G0).map (fun x => Expr.mulE (Expr.sym c0) x))).getD k (Expr.num 0)) =
      some (Expr.num 0, cs.map (fun c =>
        match alookup (done ++ [(c0, G0)]) c with
        | some G => (F G).getD k (Expr.num 0)
        | none => Expr.num 0)) := by
  rw [zipWith_addE_getD (by rw [hlen, List.length_map]) k, map_mulE_getD,
    linDecomp_addE (hInv k) (linDecomp_mulE_basis hc0 (freeOf_getD hfree k)),
    zipWith_map_same]
  show some (Expr.num 0, _) = _
  congr 1
  congr 1
  apply List.map_congr_left
  intro c _
  by_cases hc : c = c0
  · subst hc
    have h1 : alookup (done ++ [(c, G0)]) c = some G0 := by
      rw [alookup_append_none _ (alookup_not_mem_none hc0done)]
      simp [alookup]
    rw [h1, alookup_not_mem_none hc0done, if_pos rfl]
    show Expr.addE (Expr.num 0) ((F G0).getD k (Expr.num 0)) = _
    rw [addE_zero_left]
  · rw [if_neg hc]
    cases halk : alookup done c with
    | some G =>
      rw [alookup_append_some _ halk]
      show Expr.addE ((F G).getD k (Expr.num 0)) (Expr.num 0) = _
      rw [addE_zero_right]
    | none =>
      have h2 : alookup [(c0, G0)] c = none := by
        show (if c0 = c then some G0 else alookup [] c) = none
        rw [if_neg (fun h => hc h.symm)]
        rfl
      rw [alookup_append_none _ halk, h2]
      show Expr.addE (Expr.num 0) (Expr.num 0) = Expr.num 0
      rfl

/-- The driver fold building `Σ c_i · G_i` through `__rmul__` and `__add__`
keeps, componentwise, a decomposition whose coefficient at each basis symbol
is exactly the matching generator's component. -/
theorem linComb_fold {cs : List Sym} (ts : List Sym × List Sym) :
    ∀ (pairs done : List (Sym × Generator)) (acc : Generator),
      (∀ p ∈ pairs, p.1 ∈ cs ∧ p.2.total_space = ts ∧
        p.2.xis.length = ts.1.length ∧ p.2.etas.length = ts.2.length ∧
        (∀ x ∈ p.2.xis, x.freeOf cs = true) ∧
        (∀ x ∈ p.2.etas, x.freeOf cs = true)) →
      (done.map Prod.fst ++ pairs.map Prod.fst).Nodup →
      acc.total_space = ts →
      acc.xis.length = ts.1.length →
      acc.etas.length = ts.2.length →
      (∀ k, Expr.linDecomp cs (acc.xis.getD k (Expr.num 0)) =
        some (Expr.num 0, cs.map (fun c =>
          match alookup done c with
          | some G => G.xis.getD k (Expr.num 0)
          | none => Expr.num 0))) →
      (∀ k, Expr.linDecomp cs (acc.etas.getD k (Expr.num 0)) =
        some (Expr.num 0, cs.map (fun c =>
          match alookup done c with
          | some G => G.etas.getD k (Expr.num 0)
          | none => Expr.num 0))) →
      ∃ g, pairs.foldlM (fun acc2 p =>
          match Generator.add acc2 (Generator.rmul (Expr.sym p.1) p.2) with
          | Except.error e => Except.error e
          | Except.ok s => Except.ok s) acc = Except.ok g ∧
        g.total_space = ts ∧ g.xis.length = ts.1.length ∧
        g.etas.length = ts.2.length ∧
        (∀ k, Expr.linDecomp cs (g.xis.getD k (Expr.num 0)) =
          some (Expr.num 0, cs.map (fun c =>
            match alookup (done ++ pairs) c with
            | some G => G.xis.getD k (Expr.num 0)
            | none => Expr.num 0))) ∧
        (∀ k, Expr.linDecomp cs (g.etas.getD k (Expr.num 0)) =
          some (Expr.num 0, cs.map (fun c =>
            match alookup (done ++ pairs) c with
            | some G => G.etas.getD k (Expr.num 0)
            | none => Expr.num 0))) := by
  intro pairs
  induction pairs with
  | nil =>
    intro done acc _ _ hts hxl hel hx he
    refine ⟨acc, rfl, hts, hxl, hel, ?_, ?_⟩
    · simpa using hx
    · simpa using he
  | cons p rest ih =>
    intro done acc hgood hnod hts hxl hel hx he
    obtain ⟨c0, G0⟩ := p
    obtain ⟨hc0, hts0, hxlen0, helen0, hfx0, hfe0⟩ :=
      hgood (c0, G0) (List.mem_cons_self _ _)
    have hc0done : c0 ∉ done.map Prod.fst := by
      intro hmem
      have hdisj := List.disjoint_of_nodup_append hnod
      exact hdisj hmem (by simp)
    have hzipE : ∀ (l1 l2 : List Expr),
        List.zipWith (fun a b => (Expr.addE a b).expand) l1 l2 =
          List.zipWith Expr.addE l1 l2 := fun _ _ => rfl
    have hmapE : ∀ (c : Expr) (l : List Expr),
        l.map (fun x => (Expr.mulE c x).expand) =
          l.map (fun x => Expr.mulE c x) := fun _ _ => rfl
    have hstep : Generator.add acc (Generator.rmul (Expr.sym c0) G0) =
        Except.ok
          { xis := List.zipWith Expr.addE acc.xis
              (G0.xis.map (fun x => Expr.mulE (Expr.sym c0) x))
            etas := List.zipWith Expr.addE acc.etas
              (G0.etas.map (fun x => Expr.mulE (Expr.sym c0) x))
            total_space := acc.total_space } := by
      unfold Generator.add
      rw [if_pos (by show acc.total_space = G0.total_space; rw [hts, hts0])]
      show Except.ok
        ({ xis := List.zipWith (fun a b => (Expr.addE a b).expand) acc.xis
            (G0.xis.map (fun x => (Expr.mulE (Expr.sym c0) x).expand))
           etas := List.zipWith (fun a b => (Expr.addE a b).expand) acc.etas
            (G0.etas.map (fun x => (Expr.mulE (Expr.sym c0) x).expand))
           total_space := acc.total_space } : Generator) = _
      rw [hzipE, hzipE, hmapE, hmapE]
    have hxlen' : (List.zipWith Expr.addE acc.xis
        (G0.xis.map (fun x => Expr.mulE (Expr.sym c0) x))).length = ts.1.length := by
      rw [List.length_zipWith, List.length_map, hxl, hxlen0]
      simp
    have helen' : (List.zipWith Expr.addE acc.etas
        (G0.etas.map (fun x => Expr.mulE (Expr.sym c0) x))).length = ts.2.length := by
      rw [List.length_zipWith, List.length_map, hel, helen0]
      simp
    obtain ⟨g, hfold, hgts, hgxl, hgel, hgx, hge⟩ :=
      ih (done ++ [(c0, G0)])
        ({ xis := List.zipWith Expr.addE acc.xis
            (G0.xis.map (fun x => Expr.mulE (Expr.sym c0) x))
           etas := List.zipWith Expr.addE acc.etas
            (G0.etas.map (fun x => Expr.mulE (Expr.sym c0) x))
           total_space := acc.total_space } : Generator)
        (fun q hq => hgood q (List.mem_cons_of_mem _ hq))
        (by simpa [List.append_assoc] using hnod)
        (by show acc.total_space = ts; exact hts)
        hxlen' helen'
        (fun k => linComb_step_decomp (fun G => G.xis) hc0 hc0done
          (by rw [hxl, hxlen0]) hfx0 hx k)
        (fun k => linComb_step_decomp (fun G => G.etas) hc0 hc0done
          (by rw [hel, helen0]) hfe0 he k)
    refine ⟨g, ?_, hgts, hgxl, hgel, ?_, ?_⟩
    · rw [List.foldlM_cons]
      show (match Generator.add acc (Generator.rmul (Expr.sym c0) G0) with
        | Except.error e => Except.error e
        | Except.ok s => Except.ok s) >>= _ = _
      rw [hstep]
      exact hfold
    · rw [show (done ++ (c0, G0) :: rest) = ((done ++ [(c0, G0)]) ++ rest) from by simp]
      exact hgx
    · rw [show (done ++ (c0, G0) :: rest) = ((done ++ [(c0, G0)]) ++ rest) from by simp]
      exact hge

theorem getD_map_of_lt {α β : Type} {l : List α} {i : Nat} (f : α → β)
    (h : i < l.length) (d1 : α) (d2 : β) :
    (l.map f).getD i d2 = f (l.getD i d1) := by
  rw [getD_eq_getElem (l := l.map f) (by simpa using h) d2, getD_eq_getElem h d1]
  simp

theorem flatten_map_singleton {α β : Type} (l : List α) (h : α → β) :
    (l.map (fun x => [h x])).flatten = l.map h := by
  induction l with
  | nil => rfl
  | cons x xs ih => simp [ih]

/-- The seed `c * G` of the linear-combination fold, seen through
coefficient extraction of one component slot. -/
theorem linComb_init_decomp {cs : List Sym} {c : Sym} {G : Generator}
    (F : Generator → List Expr) (hc : c ∈ cs)
    (hfree : ∀ x ∈ F G, x.freeOf cs = true) (k : Nat) :
    Expr.linDecomp cs
      (((F G).map (fun x => Expr.mulE (Expr.sym c) x)).getD k (Expr.num 0)) =
      some (Expr.num 0, cs.map (fun c2 =>
        match alookup [(c, G)] c2 with
        | some G2 => (F G2).getD k (Expr.num 0)
        | none => Expr.num 0)) := by
  rw [map_mulE_getD, linDecomp_mulE_basis hc (freeOf_getD hfree k)]
  congr 1
  congr 1
  apply List.map_congr_left
  intro c2 _
  by_cases h : c2 = c
  · subst h
    have ha : alookup [(c2, G)] c2 = some G := by simp [alookup]
    rw [if_pos rfl, ha]
  · have ha : alookup [(c, G)] c2 = none := by
      show (if c = c2 then some G else alookup [] c2) = none
      rw [if_neg (Ne.symm h)]
      rfl
    rw [if_neg h, ha]

/-- The exact model-level computation behind C3: for a family of generators
`G_i` on a common total space whose components are free of the distinct
constants `c_i`, each `G_i` having at least one component that is non-zero
as a polynomial, the model's decomposition of `Σ c_i · G_i` returns the very
representatives `G_i` in basis order, with no constant-term generator. -/
theorem decompose_generator_linComb_exact {cs : List Sym}
    {gens : List Generator} (ts : List Sym × List Sym)
    (hnd : cs.Nodup) (hne : cs ≠ []) (hlen : gens.length = cs.length)
    (hgood : ∀ G ∈ gens, G.total_space = ts ∧ G.xis.length = ts.1.length ∧
      G.etas.length = ts.2.length ∧ (∀ x ∈ G.xis, x.freeOf cs = true) ∧
      (∀ x ∈ G.etas, x.freeOf cs = true))
    (hnz : ∀ G ∈ gens, ∃ x, x ∈ G.xis ++ G.etas ∧ toPoly x ≠ 0) :
    ∃ g, buildLinComb cs gens = Except.ok g ∧
      decompose_generator g cs = some gens := by
  cases cs with
  | nil => exact absurd rfl hne
  | cons c cs2 =>
  cases gens with
  | nil => simp at hlen
  | cons G gens2 =>
  have hc : c ∈ c :: cs2 := List.mem_cons_self _ _
  obtain ⟨htsG, hxlG, helG, hfxG, hfeG⟩ := hgood G (List.mem_cons_self _ _)
  have hlen2 : gens2.length = cs2.length := by simpa using hlen
  obtain ⟨g, hfold, hgts, hgxl, hgel, hgx, hge⟩ :=
    linComb_fold ts (List.zip cs2 gens2) [(c, G)]
      (Generator.rmul (Expr.sym c) G)
      (fun p hp => by
        obtain ⟨hp1, hp2⟩ := List.of_mem_zip hp
        obtain ⟨h1, h2, h3, h4, h5⟩ := hgood p.2 (List.mem_cons_of_mem _ hp2)
        exact ⟨List.mem_cons_of_mem _ hp1, h1, h2, h3, h4, h5⟩)
      (by
        show ([(c, G)].map Prod.fst ++ (List.zip cs2 gens2).map Prod.fst).Nodup
        rw [List.map_fst_zip _ _ (le_of_eq hlen2.symm)]
        simpa using hnd)
      htsG
      (by show (G.xis.map _).length = ts.1.length; rw [List.length_map]; exact hxlG)
      (by show (G.etas.map _).length = ts.2.length; rw [List.length_map]; exact helG)
      (fun k => linComb_init_decomp (fun G2 => G2.xis) hc hfxG k)
      (fun k => linComb_init_decomp (fun G2 => G2.etas) hc hfeG k)
  have hzipcons : ([(c, G)] ++ List.zip cs2 gens2) =
      List.zip (c :: cs2) (G :: gens2) := rfl
  rw [hzipcons] at hgx hge
  refine ⟨g, hfold, ?_⟩
  have hglen : (G :: gens2).length = (c :: cs2).length := by simpa using hlen
  have hmx : g.xis.mapM (Expr.linDecomp (c :: cs2)) =
      some ((List.range g.xis.length).map (fun k =>
        ((Expr.num 0 : Expr), (c :: cs2).map (fun c2 =>
          match alookup (List.zip (c :: cs2) (G :: gens2)) c2 with
          | some G2 => G2.xis.getD k (Expr.num 0)
          | none => Expr.num 0)))) :=
    mapM_some_of_getD _ (Expr.num 0) g.xis _ (fun k _ => hgx k)
  have hme : g.etas.mapM (Expr.linDecomp (c :: cs2)) =
      some ((List.range g.etas.length).map (fun k =>
        ((Expr.num 0 : Expr), (c :: cs2).map (fun c2 =>
          match alookup (List.zip (c :: cs2) (G :: gens2)) c2 with
          | some G2 => G2.etas.getD k (Expr.num 0)
          | none => Expr.num 0)))) :=
    mapM_some_of_getD _ (Expr.num 0) g.etas _ (fun k _ => hge k)
  show (match g.xis.mapM (Expr.linDecomp (c :: cs2)),
      g.etas.mapM (Expr.linDecomp (c :: cs2)) with
    | some xd, some ed =>
      some ((List.range ((c :: cs2).length + 1)).flatMap
        (decomposeEntry xd ed g.total_space))
    | _, _ => none) = some (G :: gens2)
  rw [hmx, hme]
  show some _ = some _
  congr 1
  -- the computed per-component coefficient lists
  have hmem_getD : ∀ i, i < (c :: cs2).length → (G :: gens2).getD i G ∈ G :: gens2 := by
    intro i hi
    have hi2 : i < (G :: gens2).length := by omega
    rw [getD_eq_getElem hi2]
    exact List.getElem_mem hi2
  have hbase : ∀ (comp : Generator → List Expr) (n : Nat) (i : Nat),
      i < (c :: cs2).length →
      n = (comp ((G :: gens2).getD i G)).length →
      ((List.range n).map (fun k =>
        ((Expr.num 0 : Expr), (c :: cs2).map (fun c2 =>
          match alookup (List.zip (c :: cs2) (G :: gens2)) c2 with
          | some G2 => (comp G2).getD k (Expr.num 0)
          | none => Expr.num 0)))).map (fun dcp => coeffOf dcp (i + 1)) =
      comp ((G :: gens2).getD i G) := by
    intro comp n i hi hn
    rw [List.map_map]
    have hpt : ∀ k ∈ List.range n,
        ((fun dcp => coeffOf dcp (i + 1)) ∘ (fun k =>
          ((Expr.num 0 : Expr), (c :: cs2).map (fun c2 =>
            match alookup (List.zip (c :: cs2) (G :: gens2)) c2 with
            | some G2 => (comp G2).getD k (Expr.num 0)
            | none => Expr.num 0)))) k =
        (comp ((G :: gens2).getD i G)).getD k (Expr.num 0) := by
      intro k _
      show ((c :: cs2).map (fun c2 =>
          match alookup (List.zip (c :: cs2) (G :: gens2)) c2 with
          | some G2 => (comp G2).getD k (Expr.num 0)
          | none => Expr.num 0)).getD i (Expr.num 0) =
        (comp ((G :: gens2).getD i G)).getD k (Expr.num 0)
      rw [getD_map_of_lt _ hi c,
        alookup_zip_getD_nodup hnd hglen.symm hi c G]
    rw [List.map_congr_left hpt, hn, map_getD_range]
  have hent0 : decomposeEntry
      ((List.range g.xis.length).map (fun k =>
        ((Expr.num 0 : Expr), (c :: cs2).map (fun c2 =>
          match alookup (List.zip (c :: cs2) (G :: gens2)) c2 with
          | some G2 => G2.xis.getD k (Expr.num 0)
          | none => Expr.num 0))))
      ((List.range g.etas.length).map (fun k =>
        ((Expr.num 0 : Expr), (c :: cs2).map (fun c2 =>
          match alookup (List.zip (c :: cs2) (G :: gens2)) c2 with
          | some G2 => G2.etas.getD k (Expr.num 0)
          | none => Expr.num 0))))
      g.total_space 0 = [] := by
    simp only [decomposeEntry]
    have hfalse : ∀ (L1 L2 : List (Expr × List Expr)),
        (∀ d ∈ L1, d.1 = Expr.num 0) → (∀ d ∈ L2, d.1 = Expr.num 0) →
        ((L1.map (fun d => coeffOf d 0)) ++ (L2.map (fun d => coeffOf d 0))).any
          (fun x => !x.isZeroPoly) = false := by
      intro L1 L2 h1 h2
      rw [List.any_eq_false]
      intro x hx
      rcases List.mem_append.1 hx with hx | hx <;>
        rcases List.mem_map.1 hx with ⟨dcp, hdcp, rfl⟩
      · simp [coeffOf, h1 dcp hdcp, Expr.isZeroPoly, Expr.polyNF]
      · simp [coeffOf, h2 dcp hdcp, Expr.isZeroPoly, Expr.polyNF]
    rw [hfalse _ _ (by intro d hd; rcases List.mem_map.1 hd with ⟨k, _, rfl⟩; rfl)
      (by intro d hd; rcases List.mem_map.1 hd with ⟨k, _, rfl⟩; rfl)]
    rfl
  have hentS : ∀ i, i < (c :: cs2).length → decomposeEntry
      ((List.range g.xis.length).map (fun k =>
        ((Expr.num 0 : Expr), (c :: cs2).map (fun c2 =>
          match alookup (List.zip (c :: cs2) (G :: gens2)) c2 with
          | some G2 => G2.xis.getD k (Expr.num 0)
          | none => Expr.num 0))))
      ((List.range g.etas.length).map (fun k =>
        ((Expr.num 0 : Expr), (c :: cs2).map (fun c2 =>
          match alookup (List.zip (c :: cs2) (G :: gens2)) c2 with
          | some G2 => G2.etas.getD k (Expr.num 0)
          | none => Expr.num 0))))
      g.total_space (i + 1) = [(G :: gens2).getD i G] := by
    intro i hi
    obtain ⟨htsi, hxli, heli, _, _⟩ := hgood _ (hmem_getD i hi)
    simp only [decomposeEntry]
    rw [hbase (fun G2 => G2.xis) _ i hi (by rw [hgxl, hxli]),
      hbase (fun G2 => G2.etas) _ i hi (by rw [hgel, heli])]
    obtain ⟨x, hx, hxnz⟩ := hnz _ (hmem_getD i hi)
    rw [show ((((G :: gens2).getD i G).xis ++ ((G :: gens2).getD i G).etas).any
        (fun c2 => !c2.isZeroPoly)) = true from List.any_eq_true.2
        ⟨x, hx, by rw [toPoly_ne_zero_isZeroPoly hxnz]; rfl⟩]
    show [({ xis := _, etas := _, total_space := g.total_space } : Generator)] = _
    rw [hgts, ← htsi]
  rw [List.range_succ_eq_map, List.flatMap_cons, List.flatMap_map, hent0,
    List.nil_append, List.flatMap_def]
  simp only [Nat.succ_eq_add_one]
  rw [List.map_congr_left (fun i hi => hentS i (List.mem_range.1 hi)),
    flatten_map_singleton,
    show (c :: cs2).length = (G :: gens2).length from hglen.symm,
    map_getD_range]

/-- C3 (amended): for a family of generators `G_i` on a common total space
whose components are free of the distinct constants `c_i` — each `G_i`
having at least one component that is *non-zero after expansion* —
decomposing the generator built as `Σ c_i · G_i` by the basis
`c_1, ..., c_n` returns generators equal after expansion to the `G_i`
(same total space, termwise `ExprEq` components), in basis order, with no
constant-term generator emitted.  The proviso is forced: a `G_i` all of
whose components expand to zero is dropped by the source's
falsy-coefficient filter, see the counterexample. -/
theorem decompose_generator_linear_combination {cs : List Sym}
    {gens : List Generator} (ts : List Sym × List Sym)
    (hnd : cs.Nodup) (hne : cs ≠ []) (hlen : gens.length = cs.length)
    (hgood : ∀ G ∈ gens, G.total_space = ts ∧ G.xis.length = ts.1.length ∧
      G.etas.length = ts.2.length ∧ (∀ x ∈ G.xis, x.freeOf cs = true) ∧
      (∀ x ∈ G.etas, x.freeOf cs = true))
    (hnz : ∀ G ∈ gens, ∃ x, x ∈ G.xis ++ G.etas ∧ ¬ExprEq x (Expr.num 0)) :
    ∃ g gens2, buildLinComb cs gens = Except.ok g ∧
      decompose_generator g cs = some gens2 ∧
      List.Forall₂ (fun a b => a.total_space = b.total_space ∧
        List.Forall₂ ExprEq a.xis b.xis ∧ List.Forall₂ ExprEq a.etas b.etas)
        gens2 gens := by
  have hnzP : ∀ G ∈ gens, ∃ x, x ∈ G.xis ++ G.etas ∧ toPoly x ≠ 0 := by
    intro G hG
    obtain ⟨x, hx, hxe⟩ := hnz G hG
    refine ⟨x, hx, fun h0 => hxe ?_⟩
    show toPoly x = toPoly (Expr.num 0)
    rw [h0]
    show (0 : MvPolynomial Sym ℤ) = MvPolynomial.C 0
    rw [MvPolynomial.C_0]
  obtain ⟨g, h1, h2⟩ := decompose_generator_linComb_exact ts hnd hne hlen hgood hnzP
  refine ⟨g, gens, h1, h2, ?_⟩
  exact List.forall₂_same.2 (fun G _ => ⟨rfl,
    List.forall₂_same.2 (fun x _ => rfl),
    List.forall₂_same.2 (fun x _ => rfl)⟩)

/-- Counterexample to C3 as stated.  Two instances of the dropped-generator
behaviour, both with components free of the constant as the claim requires:
(i) the family consisting of the single all-zero generator decomposes to the
empty list, not `[G_1]`; (ii) the same happens for a generator whose
component `(t+1)·(t−1) + (−1)·t·t + 1` is not the literal zero but expands
to zero — sympy's canonicalization makes its coefficient the falsy `0`, so
the `if coeff:` filter drops the generator. -/
theorem decompose_generator_zero_dropped_cex :
    ((Expr.num 0).freeOf [⟨"c1"⟩] = true ∧
    buildLinComb [⟨"c1"⟩]
      [Generator.make [Expr.num 0] [Expr.num 0] ([⟨"t"⟩], [⟨"w"⟩])] =
      Except.ok (Generator.make [Expr.num 0] [Expr.num 0] ([⟨"t"⟩], [⟨"w"⟩])) ∧
    decompose_generator
      (Generator.make [Expr.num 0] [Expr.num 0] ([⟨"t"⟩], [⟨"w"⟩])) [⟨"c1"⟩] =
      some [] ∧
    ([] : List Generator) ≠
      [Generator.make [Expr.num 0] [Expr.num 0] ([⟨"t"⟩], [⟨"w"⟩])]) ∧
    ((Expr.add
        (Expr.mul (Expr.add (Expr.sym ⟨"t"⟩) (Expr.num 1))
          (Expr.add (Expr.sym ⟨"t"⟩) (Expr.num (-1))))
        (Expr.add
          (Expr.mul (Expr.num (-1)) (Expr.mul (Expr.sym ⟨"t"⟩) (Expr.sym ⟨"t"⟩)))
          (Expr.num 1))) ≠ Expr.num 0 ∧
    (Expr.add
        (Expr.mul (Expr.add (Expr.sym ⟨"t"⟩) (Expr.num 1))
          (Expr.add (Expr.sym ⟨"t"⟩) (Expr.num (-1))))
        (Expr.add
          (Expr.mul (Expr.num (-1)) (Expr.mul (Expr.sym ⟨"t"⟩) (Expr.sym ⟨"t"⟩)))
          (Expr.num 1))).freeOf [⟨"c1"⟩] = true ∧
    (Expr.add
        (Expr.mul (Expr.add (Expr.sym ⟨"t"⟩) (Expr.num 1))
          (Expr.add (Expr.sym ⟨"t"⟩) (Expr.num (-1))))
        (Expr.add
          (Expr.mul (Expr.num (-1)) (Expr.mul (Expr.sym ⟨"t"⟩) (Expr.sym ⟨"t"⟩)))
          (Expr.num 1))).isZeroPoly = true ∧
    ∃ g, buildLinComb [⟨"c1"⟩]
        [Generator.make [Expr.num 0]
          [Expr.add
            (Expr.mul (Expr.add (Expr.sym ⟨"t"⟩) (Expr.num 1))
              (Expr.add (Expr.sym ⟨"t"⟩) (Expr.num (-1))))
            (Expr.add
              (Expr.mul (Expr.num (-1))
                (Expr.mul (Expr.sym ⟨"t"⟩) (Expr.sym ⟨"t"⟩)))
              (Expr.num 1))] ([⟨"t"⟩], [⟨"w"⟩])] = Except.ok g ∧
      decompose_generator g [⟨"c1"⟩] = some []) :=
  ⟨⟨rfl, by decide, by decide, by decide⟩,
    by decide, rfl, by decide,
    ⟨Generator.make [Expr.num 0]
      [Expr.mul (Expr.sym ⟨"c1"⟩)
        (Expr.add
          (Expr.mul (Expr.add (Expr.sym ⟨"t"⟩) (Expr.num 1))
            (Expr.add (Expr.sym ⟨"t"⟩) (Expr.num (-1))))
          (Expr.add
            (Expr.mul (Expr.num (-1))
              (Expr.mul (Expr.sym ⟨"t"⟩) (Expr.sym ⟨"t"⟩)))
            (Expr.num 1)))] ([⟨"t"⟩], [⟨"w"⟩]),
      by decide, by decide⟩⟩

/-- Witness for C3 at a concrete two-generator family. -/
theorem decompose_generator_linear_combination_witness :
    ∃ g gens2, buildLinComb [⟨"c1"⟩, ⟨"c2"⟩]
        [Generator.make [Expr.num 1] [Expr.num 0] ([⟨"t"⟩], [⟨"w"⟩]),
         Generator.make [Expr.num 0] [Expr.sym ⟨"t"⟩] ([⟨"t"⟩], [⟨"w"⟩])] =
        Except.ok g ∧
      decompose_generator g [⟨"c1"⟩, ⟨"c2"⟩] = some gens2 ∧
      List.Forall₂ (fun a b => a.total_space = b.total_space ∧
        List.Forall₂ ExprEq a.xis b.xis ∧ List.Forall₂ ExprEq a.etas b.etas)
        gens2
        [Generator.make [Expr.num 1] [Expr.num 0] ([⟨"t"⟩], [⟨"w"⟩]),
         Generator.make [Expr.num 0] [Expr.sym ⟨"t"⟩] ([⟨"t"⟩], [⟨"w"⟩])] :=
  decompose_generator_linear_combination ([⟨"t"⟩], [⟨"w"⟩])
    (by decide) (by decide) (by decide) (by decide)
    (by
      intro G hG
      rcases List.mem_cons.1 hG with rfl | hG2
      · exact ⟨Expr.num 1, by decide, num_one_not_ExprEq_zero⟩
      rcases List.mem_cons.1 hG2 with rfl | hG3
      · exact ⟨Expr.sym ⟨"t"⟩, by decide, sym_not_ExprEq_zero ⟨"t"⟩⟩
      · simp at hG3)

/-! ## Claim C4: linearity of generator application -/

theorem applyFiberInnerP_cons (e : Expr) (P : List (Sym × List (MIdx × Expr)))
    (dep : Sym) (q : MIdx × Sym) (rest : List (MIdx × Sym)) (acc : Expr) :
    applyFiberInnerP e P dep (q :: rest) acc =
      applyFiberInnerP e P dep rest
        (Expr.addE acc
          (Expr.mulE ((lookup2 P dep q.1).getD (Expr.num 0))
            (e.diff q.2))) := by
  obtain ⟨mi, cSym⟩ := q
  rfl

theorem applyFiberFoldP_cons (e : Expr) (P : List (Sym × List (MIdx × Expr)))
    (p : Sym × List (MIdx × Sym)) (rest : List (Sym × List (MIdx × Sym)))
    (acc : Expr) :
    applyFiberFoldP e P (p :: rest) acc =
      applyFiberFoldP e P rest (applyFiberInnerP e P p.1 p.2 acc) := by
  obtain ⟨dep, tbl⟩ := p
  rfl

/-- The inner fiber loop of `Generator.__call__` agrees with its total
counterpart whenever every prolongation lookup succeeds. -/
theorem applyFiberInner_ok_eq {e : Expr} {P : List (Sym × List (MIdx × Expr))}
    {dep : Sym} {tbl : List (MIdx × Sym)}
    (h : ∀ q ∈ tbl, ∃ v, lookup2 P dep q.1 = some v) :
    ∀ acc, applyFiberInner e P dep tbl acc =
      Except.ok (applyFiberInnerP e P dep tbl acc) := by
  induction tbl with
  | nil => intro acc; rfl
  | cons q rest ih =>
    intro acc
    rcases h q (List.mem_cons_self q rest) with ⟨v, hv⟩
    show (match lookup2 P dep q.1 with
      | none => Except.error "KeyError"
      | some eta_prolongation => applyFiberInner e P dep rest
          (Expr.addE acc (Expr.mulE eta_prolongation (e.diff q.2)))) = _
    rw [hv]
    show applyFiberInner e P dep rest _ = _
    rw [ih (fun q2 hq2 => h q2 (List.mem_cons_of_mem q hq2))]
    rw [applyFiberInnerP_cons, hv, Option.getD_some]

theorem applyFiberFold_ok_eq {e : Expr} {P : List (Sym × List (MIdx × Expr))}
    {fibersList : List (Sym × List (MIdx × Sym))}
    (h : ∀ p ∈ fibersList, ∀ q ∈ p.2, ∃ v, lookup2 P p.1 q.1 = some v) :
    ∀ acc, applyFiberFold e P fibersList acc =
      Except.ok (applyFiberFoldP e P fibersList acc) := by
  induction fibersList with
  | nil => intro acc; rfl
  | cons p rest ih =>
    intro acc
    show (match applyFiberInner e P p.1 p.2 acc with
      | Except.error e2 => Except.error e2
      | Except.ok acc2 => applyFiberFold e P rest acc2) = _
    rw [applyFiberInner_ok_eq (h p (List.mem_cons_self p rest)) acc]
    show applyFiberFold e P rest _ = _
    rw [ih (fun p2 hp2 => h p2 (List.mem_cons_of_mem p hp2))]
    rw [applyFiberFoldP_cons]

/-- Every coordinate of a constructed jet space has an entry in the
canonical prolongation table. -/
theorem lookup2_canonicalProl_some {xis etas : List Expr} {b f : List Sym}
    {d : Nat} {dep : Sym} {mi : MIdx} (he : etas.length = f.length)
    (hdep : dep ∈ f) (hmi : mi ∈ jetKeys b.length d) :
    ∃ v, lookup2 (canonicalProlTable xis etas b f d) dep mi = some v := by
  have hfst : ((List.zip f etas).map (fun p => (p.1,
      (jetKeys b.length d).map (fun mi2 => (mi2, prolongationRef xis
        (JetSpace.make b f d) p.1 p.2 mi2.sum mi2))))).map Prod.fst =
      (List.zip f etas).map Prod.fst := by
    rw [List.map_map]
    rfl
  have hdep2 : dep ∈ (canonicalProlTable xis etas b f d).map Prod.fst := by
    unfold canonicalProlTable
    rw [hfst, List.map_fst_zip _ _ (le_of_eq he.symm)]
    exact hdep
  rcases alookup_isSome_of_mem hdep2 with ⟨tbl, htbl⟩
  have hmem := alookup_some_mem htbl
  unfold canonicalProlTable at hmem
  rcases List.mem_map.1 hmem with ⟨p, _, hp⟩
  have hp2 : tbl = (jetKeys b.length d).map (fun mi2 =>
      (mi2, prolongationRef xis (JetSpace.make b f d) p.1 p.2 mi2.sum mi2)) :=
    (congrArg Prod.snd hp).symm
  refine ⟨prolongationRef xis (JetSpace.make b f d) p.1 p.2 mi.sum mi, ?_⟩
  unfold lookup2
  rw [htbl, hp2]
  exact alookup_map_self _ _ mi hmi

/-- `Generator.__call__` on a constructed jet space succeeds and evaluates
to the total fold over the canonical prolongation table. -/
theorem apply_make_eq {b f : List Sym} {d : Nat} {g : Generator}
    (hx : g.xis.length = b.length) (he : g.etas.length = f.length) (e : Expr) :
    g.apply e (JetSpace.make b f d) =
      Except.ok (applyFiberFoldP e (canonicalProlTable g.xis g.etas b f d)
        (JetSpace.make b f d).fibers
        (applyBaseFold e (List.zip b g.xis) (Expr.num 0))) := by
  show (match get_prolongations g.xis g.etas (JetSpace.make b f d) with
    | Except.error e2 => Except.error e2
    | Except.ok eta_prolongations =>
      applyFiberFold e eta_prolongations (JetSpace.make b f d).fibers
        (applyBaseFold e
          (List.zip (JetSpace.make b f d).base_space g.xis) (Expr.num 0))) = _
  rw [get_prolongations_make hx he]
  show applyFiberFold e _ (JetSpace.make b f d).fibers
    (applyBaseFold e (List.zip (JetSpace.make b f d).base_space g.xis)
      (Expr.num 0)) = _
  rw [show (JetSpace.make b f d).base_space = b from make_base b f d]
  apply applyFiberFold_ok_eq
  intro p hp q hq
  rw [make_fibers] at hp
  rcases List.mem_map.1 hp with ⟨dep, hdep, rfl⟩
  have hq2 := canonicalTable_entry_sound hq
  exact lookup2_canonicalProl_some he hdep (mem_jetKeys.2 hq2)

/-- `total_derivative` on a constructed jet space, at a fixed base-index
witness: the success value is the total fold. -/
theorem total_derivative_make_at {b f : List Sym} {d : Nat} {c : Sym} {i : Nat}
    (hi : i < b.length)
    (hbi : (JetSpace.make b f d).base_index c = some (unitIdx b.length i))
    (x : Expr) :
    total_derivative x c (JetSpace.make b f d) =
      Except.ok (tdFoldP ((JetSpace.make b f d).extended (d + 1))
        (unitIdx b.length i) x (JetSpace.make b f d).fibers (x.diff c)) := by
  have hlk : ∀ p ∈ (JetSpace.make b f d).fibers, ∀ q ∈ p.2,
      ∃ s, lookup2 ((JetSpace.make b f d).extended (d + 1)).fibers p.1
        (vecAdd q.1 (unitIdx b.length i)) = some s := by
    intro p hp q hq
    rw [make_fibers] at hp
    rcases List.mem_map.1 hp with ⟨dep, hdep, rfl⟩
    have hq2 := canonicalTable_entry_sound hq
    rw [extended_make (Nat.le_succ d)]
    refine lookup2_make_some hdep ?_ ?_
    · rw [length_vecAdd, hq2.1, length_unitIdx hi]
      simp
    · rw [sum_vecAdd (by rw [hq2.1, length_unitIdx hi]), sum_unitIdx]
      omega
  show (match (JetSpace.make b f d).base_index c with
    | none => Except.error "ValueError: coordinate is not in the base space"
    | some coord_index =>
      tdFold ((JetSpace.make b f d).extended ((JetSpace.make b f d).degree + 1))
        coord_index x (JetSpace.make b f d).fibers (x.diff c)) = _
  rw [hbi]
  exact tdFold_ok_eq hlk (x.diff c)

theorem tdD_make_at {b f : List Sym} {d : Nat} {c : Sym} {i : Nat}
    (hi : i < b.length)
    (hbi : (JetSpace.make b f d).base_index c = some (unitIdx b.length i))
    (x : Expr) :
    tdD x c (JetSpace.make b f d) =
      tdFoldP ((JetSpace.make b f d).extended (d + 1)) (unitIdx b.length i) x
        (JetSpace.make b f d).fibers (x.diff c) := by
  unfold tdD
  rw [total_derivative_make_at hi hbi x]

/-- A total derivative in a coordinate outside the base space errors in the
source, hence defaults to zero. -/
theorem tdD_zero_of_not_mem {js : JetSpace} {c : Sym}
    (hc : c ∉ js.base_space) (x : Expr) : tdD x c js = Expr.num 0 := by
  have hbi : js.base_index c = none := by
    unfold JetSpace.base_index
    rw [List.findIdx?_eq_none_iff.2 (fun a ha => by
      simp only [decide_eq_false_iff_not]
      intro he
      exact hc (he ▸ ha))]
    rfl
  unfold tdD total_derivative
  rw [hbi]

theorem toPoly_diff_add {x y z : Expr} (h : toPoly z = toPoly x + toPoly y)
    (s : Sym) : toPoly (z.diff s) = toPoly (x.diff s) + toPoly (y.diff s) := by
  rw [toPoly_diff, toPoly_diff, toPoly_diff, h, map_add]

/-- The total-derivative fiber fold is additive in the differentiated
expression and the accumulator (modulo expansion). -/
theorem tdFoldFiberP_linear {cod : JetSpace} {ci : MIdx} {dep : Sym}
    {x y z : Expr} (hz : toPoly z = toPoly x + toPoly y) :
    ∀ (tbl : List (MIdx × Sym)) {ax ay az : Expr},
      toPoly az = toPoly ax + toPoly ay →
      toPoly (tdFoldFiberP cod ci z dep tbl az) =
        toPoly (tdFoldFiberP cod ci x dep tbl ax) +
        toPoly (tdFoldFiberP cod ci y dep tbl ay) := by
  intro tbl
  induction tbl with
  | nil => intro ax ay az h; exact h
  | cons q rest ih =>
    intro ax ay az h
    rw [tdFoldFiberP_cons, tdFoldFiberP_cons, tdFoldFiberP_cons]
    apply ih
    rw [toPoly_addE, toPoly_addE, toPoly_addE, toPoly_mulE, toPoly_mulE,
      toPoly_mulE, toPoly_diff_add hz, h]
    ring

theorem tdFoldP_linear {cod : JetSpace} {ci : MIdx} {x y z : Expr}
    (hz : toPoly z = toPoly x + toPoly y) :
    ∀ (fl : List (Sym × List (MIdx × Sym))) {ax ay az : Expr},
      toPoly az = toPoly ax + toPoly ay →
      toPoly (tdFoldP cod ci z fl az) =
        toPoly (tdFoldP cod ci x fl ax) + toPoly (tdFoldP cod ci y fl ay) := by
  intro fl
  induction fl with
  | nil => intro ax ay az h; exact h
  | cons p rest ih =>
    intro ax ay az h
    rw [tdFoldP_cons, tdFoldP_cons, tdFoldP_cons]
    exact ih (tdFoldFiberP_linear hz p.2 h)

/-- The defaulted total derivative on a constructed jet space is additive
modulo expansion. -/
theorem tdD_linear_make {b f : List Sym} {d : Nat} {c : Sym} (hc : c ∈ b)
    {x y z : Expr} (hz : toPoly z = toPoly x + toPoly y) :
    toPoly (tdD z c (JetSpace.make b f d)) =
      toPoly (tdD x c (JetSpace.make b f d)) +
      toPoly (tdD y c (JetSpace.make b f d)) := by
  rcases @base_index_some (JetSpace.make b f d) c hc with ⟨i, hi, hbi⟩
  rw [make_base] at hi hbi
  rw [tdD_make_at hi hbi z, tdD_make_at hi hbi x, tdD_make_at hi hbi y]
  exact tdFoldP_linear hz _ (toPoly_diff_add hz c)

/-- The `ω·D(ξ)`-subtraction fold of the prolongation formula is additive in
the `ξ` lists and the seed (modulo expansion). -/
theorem foldl_subE_linear {b f : List Sym} {d : Nat} {dep : Sym} {prev : MIdx} :
    ∀ (bs : List Sym) (l1 l2 l12 : List Expr) {A1 A2 A12 : Expr},
      (∀ s ∈ bs, s ∈ b) →
      l1.length = l12.length → l2.length = l12.length →
      (∀ k, toPoly (l12.getD k (Expr.num 0)) =
        toPoly (l1.getD k (Expr.num 0)) + toPoly (l2.getD k (Expr.num 0))) →
      toPoly A12 = toPoly A1 + toPoly A2 →
      toPoly ((List.zip bs l12).foldl (fun acc p =>
          Expr.subE acc
            (Expr.mulE (Expr.sym (coordAt (JetSpace.make b f d) dep
              (vecAdd prev (baseIdxD (JetSpace.make b f d) p.1))))
              (tdD p.2 p.1 (JetSpace.make b f d)))) A12) =
        toPoly ((List.zip bs l1).foldl (fun acc p =>
          Expr.subE acc
            (Expr.mulE (Expr.sym (coordAt (JetSpace.make b f d) dep
              (vecAdd prev (baseIdxD (JetSpace.make b f d) p.1))))
              (tdD p.2 p.1 (JetSpace.make b f d)))) A1) +
        toPoly ((List.zip bs l2).foldl (fun acc p =>
          Expr.subE acc
            (Expr.mulE (Expr.sym (coordAt (JetSpace.make b f d) dep
              (vecAdd prev (baseIdxD (JetSpace.make b f d) p.1))))
              (tdD p.2 p.1 (JetSpace.make b f d)))) A2) := by
  intro bs
  induction bs with
  | nil => intro l1 l2 l12 A1 A2 A12 _ _ _ _ hA; exact hA
  | cons bc bs2 ih =>
    intro l1 l2 l12 A1 A2 A12 hmem h1 h2 hp hA
    cases l12 with
    | nil =>
      cases l1 with
      | nil =>
        cases l2 with
        | nil => exact hA
        | cons _ _ => simp at h2
      | cons _ _ => simp at h1
    | cons x12 l12' =>
      cases l1 with
      | nil => simp at h1
      | cons x1 l1' =>
      cases l2 with
      | nil => simp at h2
      | cons x2 l2' =>
      have hbc : bc ∈ b := hmem bc (List.mem_cons_self _ _)
      have hstep : toPoly (Expr.subE A12
          (Expr.mulE (Expr.sym (coordAt (JetSpace.make b f d) dep
            (vecAdd prev (baseIdxD (JetSpace.make b f d) bc))))
            (tdD x12 bc (JetSpace.make b f d)))) =
          toPoly (Expr.subE A1
            (Expr.mulE (Expr.sym (coordAt (JetSpace.make b f d) dep
              (vecAdd prev (baseIdxD (JetSpace.make b f d) bc))))
              (tdD x1 bc (JetSpace.make b f d)))) +
          toPoly (Expr.subE A2
            (Expr.mulE (Expr.sym (coordAt (JetSpace.make b f d) dep
              (vecAdd prev (baseIdxD (JetSpace.make b f d) bc))))
              (tdD x2 bc (JetSpace.make b f d)))) := by
        have hp0 : toPoly x12 = toPoly x1 + toPoly x2 := hp 0
        rw [toPoly_subE, toPoly_subE, toPoly_subE, toPoly_mulE, toPoly_mulE,
          toPoly_mulE, hA, tdD_linear_make hbc hp0]
        ring
      exact ih l1' l2' l12' (fun s hs => hmem s (List.mem_cons_of_mem _ hs))
        (by simpa using h1) (by simpa using h2) (fun k => hp (k + 1)) hstep

/-- The reference prolongation recursion is additive in the generator
components (modulo expansion), at every fuel and multi-index. -/
theorem prolongationRef_linear {b f : List Sym} {d : Nat} {dep : Sym}
    {xis1 xis2 xis12 : List Expr} {eta1 eta2 eta12 : Expr}
    (hl1 : xis1.length = xis12.length) (hl2 : xis2.length = xis12.length)
    (hxp : ∀ k, toPoly (xis12.getD k (Expr.num 0)) =
      toPoly (xis1.getD k (Expr.num 0)) + toPoly (xis2.getD k (Expr.num 0)))
    (heta : toPoly eta12 = toPoly eta1 + toPoly eta2) :
    ∀ (fuel : Nat) (mi : MIdx),
      toPoly (prolongationRef xis12 (JetSpace.make b f d) dep eta12 fuel mi) =
        toPoly (prolongationRef xis1 (JetSpace.make b f d) dep eta1 fuel mi) +
        toPoly (prolongationRef xis2 (JetSpace.make b f d) dep eta2 fuel mi) := by
  intro fuel
  induction fuel with
  | zero => intro mi; exact heta
  | succ fuel ih =>
    intro mi
    rw [prolongationRef_succ, prolongationRef_succ, prolongationRef_succ]
    apply foldl_subE_linear _ _ _ _ (fun s hs => by rwa [make_base] at hs)
      hl1 hl2 hxp
    by_cases hmem : ((JetSpace.make b f d).base_space.getD
        (mi.findIdx (fun x2 => x2 ≠ 0)) ⟨"IndexError"⟩) ∈ b
    · exact tdD_linear_make hmem (ih _)
    · rw [tdD_zero_of_not_mem (by rwa [make_base]) _,
        tdD_zero_of_not_mem (by rwa [make_base]) _,
        tdD_zero_of_not_mem (by rwa [make_base]) _]
      show toPoly (Expr.num 0) = toPoly (Expr.num 0) + toPoly (Expr.num 0)
      simp [toPoly]

/-- Looking any coordinate of the space up in the three canonical
prolongation tables gives values that add up (modulo expansion): python's
dict construction keeps the first occurrence of each dependent in all three
tables aligned. -/
theorem lookup2_canonicalProl_linear {b f : List Sym} {d : Nat}
    {xis1 xis2 xis12 : List Expr}
    (hl1 : xis1.length = xis12.length) (hl2 : xis2.length = xis12.length)
    (hxp : ∀ k, toPoly (xis12.getD k (Expr.num 0)) =
      toPoly (xis1.getD k (Expr.num 0)) + toPoly (xis2.getD k (Expr.num 0))) :
    ∀ (f2 : List Sym) (e1 e2 e12 : List Expr),
      e1.length = e12.length → e2.length = e12.length →
      (∀ k, toPoly (e12.getD k (Expr.num 0)) =
        toPoly (e1.getD k (Expr.num 0)) + toPoly (e2.getD k (Expr.num 0))) →
      ∀ (dep : Sym) (mi : MIdx), mi ∈ jetKeys b.length d →
      toPoly ((lookup2 ((List.zip f2 e12).map (fun p => (p.1,
          (jetKeys b.length d).map (fun mi2 => (mi2, prolongationRef xis12
            (JetSpace.make b f d) p.1 p.2 mi2.sum mi2))))) dep mi).getD
        (Expr.num 0)) =
      toPoly ((lookup2 ((List.zip f2 e1).map (fun p => (p.1,
          (jetKeys b.length d).map (fun mi2 => (mi2, prolongationRef xis1
            (JetSpace.make b f d) p.1 p.2 mi2.sum mi2))))) dep mi).getD
        (Expr.num 0)) +
      toPoly ((lookup2 ((List.zip f2 e2).map (fun p => (p.1,
          (jetKeys b.length d).map (fun mi2 => (mi2, prolongationRef xis2
            (JetSpace.make b f d) p.1 p.2 mi2.sum mi2))))) dep mi).getD
        (Expr.num 0)) := by
  intro f2
  induction f2 with
  | nil =>
    intro e1 e2 e12 _ _ _ dep mi _
    simp [lookup2, alookup, toPoly]
  | cons dep0 f3 ih =>
    intro e1 e2 e12 h1 h2 hp dep mi hmi
    cases e12 with
    | nil =>
      cases e1 with
      | nil =>
        cases e2 with
        | nil => simp [lookup2, alookup, toPoly]
        | cons _ _ => simp at h2
      | cons _ _ => simp at h1
    | cons y12 e12' =>
      cases e1 with
      | nil => simp at h1
      | cons y1 e1' =>
      cases e2 with
      | nil => simp at h2
      | cons y2 e2' =>
      simp only [List.zip_cons_cons, List.map_cons]
      by_cases hd : dep0 = dep
      · subst hd
        have hlook : ∀ (T : List (MIdx × Expr))
            (R : List (Sym × List (MIdx × Expr))),
            lookup2 ((dep0, T) :: R) dep0 mi = alookup T mi := by
          intro T R
          unfold lookup2
          rw [show alookup ((dep0, T) :: R) dep0 = some T from by simp [alookup]]
        rw [hlook, hlook, hlook, alookup_map_self _ _ mi hmi,
          alookup_map_self _ _ mi hmi, alookup_map_self _ _ mi hmi,
          Option.getD_some, Option.getD_some, Option.getD_some]
        have hp0 : toPoly y12 = toPoly y1 + toPoly y2 := hp 0
        exact prolongationRef_linear hl1 hl2 hxp hp0 mi.sum mi
      · have hskip : ∀ (T : List (MIdx × Expr))
            (R : List (Sym × List (MIdx × Expr))),
            lookup2 ((dep0, T) :: R) dep mi = lookup2 R dep mi := by
          intro T R
          unfold lookup2
          rw [show alookup ((dep0, T) :: R) dep = alookup R dep from by
            simp [alookup, hd]]
        rw [hskip, hskip, hskip]
        exact ih e1' e2' e12' (by simpa using h1) (by simpa using h2)
          (fun k => hp (k + 1)) dep mi hmi

/-- The `ξ·∂/∂base` fold of `Generator.__call__` is additive in the `ξ`
lists and the accumulator (modulo expansion). -/
theorem applyBaseFold_linear {e : Expr} :
    ∀ (bs : List Sym) (l1 l2 l12 : List Expr) {A1 A2 A12 : Expr},
      l1.length = l12.length → l2.length = l12.length →
      (∀ k, toPoly (l12.getD k (Expr.num 0)) =
        toPoly (l1.getD k (Expr.num 0)) + toPoly (l2.getD k (Expr.num 0))) →
      toPoly A12 = toPoly A1 + toPoly A2 →
      toPoly (applyBaseFold e (List.zip bs l12) A12) =
        toPoly (applyBaseFold e (List.zip bs l1) A1) +
        toPoly (applyBaseFold e (List.zip bs l2) A2) := by
  intro bs
  induction bs with
  | nil => intro l1 l2 l12 A1 A2 A12 _ _ _ hA; exact hA
  | cons bc bs2 ih =>
    intro l1 l2 l12 A1 A2 A12 h1 h2 hp hA
    cases l12 with
    | nil =>
      cases l1 with
      | nil =>
        cases l2 with
        | nil => exact hA
        | cons _ _ => simp at h2
      | cons _ _ => simp at h1
    | cons x12 l12' =>
      cases l1 with
      | nil => simp at h1
      | cons x1 l1' =>
      cases l2 with
      | nil => simp at h2
      | cons x2 l2' =>
      have hstep : toPoly (Expr.addE A12 (Expr.mulE x12 (e.diff bc))) =
          toPoly (Expr.addE A1 (Expr.mulE x1 (e.diff bc))) +
          toPoly (Expr.addE A2 (Expr.mulE x2 (e.diff bc))) := by
        have hp0 : toPoly x12 = toPoly x1 + toPoly x2 := hp 0
        rw [toPoly_addE, toPoly_addE, toPoly_addE, toPoly_mulE, toPoly_mulE,
          toPoly_mulE, hA, hp0]
        ring
      exact ih l1' l2' l12' (by simpa using h1) (by simpa using h2)
        (fun k => hp (k + 1)) hstep

/-- The fiber loops of `Generator.__call__` are additive in the prolongation
tables and the accumulator (modulo expansion). -/
theorem applyFiberInnerP_linear {e : Expr}
    {P1 P2 P12 : List (Sym × List (MIdx × Expr))} {dep : Sym} :
    ∀ (tbl : List (MIdx × Sym)),
      (∀ q ∈ tbl, toPoly ((lookup2 P12 dep q.1).getD (Expr.num 0)) =
        toPoly ((lookup2 P1 dep q.1).getD (Expr.num 0)) +
        toPoly ((lookup2 P2 dep q.1).getD (Expr.num 0))) →
      ∀ {ax ay az : Expr}, toPoly az = toPoly ax + toPoly ay →
      toPoly (applyFiberInnerP e P12 dep tbl az) =
        toPoly (applyFiberInnerP e P1 dep tbl ax) +
        toPoly (applyFiberInnerP e P2 dep tbl ay) := by
  intro tbl
  induction tbl with
  | nil => intro _ ax ay az h; exact h
  | cons q rest ih =>
    intro hq ax ay az h
    rw [applyFiberInnerP_cons, applyFiberInnerP_cons, applyFiberInnerP_cons]
    apply ih (fun q2 hq2 => hq q2 (List.mem_cons_of_mem q hq2))
    rw [toPoly_addE, toPoly_addE, toPoly_addE, toPoly_mulE, toPoly_mulE,
      toPoly_mulE, h, hq q (List.mem_cons_self q rest)]
    ring

theorem applyFiberFoldP_linear {e : Expr}
    {P1 P2 P12 : List (Sym × List (MIdx × Expr))} :
    ∀ (fl : List (Sym × List (MIdx × Sym))),
      (∀ p ∈ fl, ∀ q ∈ p.2, toPoly ((lookup2 P12 p.1 q.1).getD (Expr.num 0)) =
        toPoly ((lookup2 P1 p.1 q.1).getD (Expr.num 0)) +
        toPoly ((lookup2 P2 p.1 q.1).getD (Expr.num 0))) →
      ∀ {ax ay az : Expr}, toPoly az = toPoly ax + toPoly ay →
      toPoly (applyFiberFoldP e P12 fl az) =
        toPoly (applyFiberFoldP e P1 fl ax) +
        toPoly (applyFiberFoldP e P2 fl ay) := by
  intro fl
  induction fl with
  | nil => intro _ ax ay az h; exact h
  | cons p rest ih =>
    intro hq ax ay az h
    rw [applyFiberFoldP_cons, applyFiberFoldP_cons, applyFiberFoldP_cons]
    exact ih (fun p2 hp2 => hq p2 (List.mem_cons_of_mem p hp2))
      (applyFiberInnerP_linear p.2 (hq p (List.mem_cons_self p rest)) h)

/-- C4: for generators `g1`, `g2` on the same total space (with component
lists matching its coordinate counts, as the data model requires), every
expression `e` and every constructed jet space over that total space,
applying the sum `g1 + g2` succeeds and equals the sum of the two
applications after expansion: `(g1 + g2)(e, J) = g1(e, J) + g2(e, J)`. -/
theorem generator_add_apply_linear {b f : List Sym} {d : Nat}
    {g1 g2 g12 : Generator}
    (ht1 : g1.total_space = (b, f)) (ht2 : g2.total_space = (b, f))
    (hx1 : g1.xis.length = b.length) (he1 : g1.etas.length = f.length)
    (hx2 : g2.xis.length = b.length) (he2 : g2.etas.length = f.length)
    (hadd : Generator.add g1 g2 = Except.ok g12) (e : Expr) :
    ∃ r12 r1 r2,
      g12.apply e (JetSpace.make b f d) = Except.ok r12 ∧
      g1.apply e (JetSpace.make b f d) = Except.ok r1 ∧
      g2.apply e (JetSpace.make b f d) = Except.ok r2 ∧
      ExprEq r12 (Expr.add r1 r2) := by
  unfold Generator.add at hadd
  rw [if_pos (ht1.trans ht2.symm)] at hadd
  have hg12 : g12 =
      { xis := List.zipWith (fun a b2 => (Expr.addE a b2).expand) g1.xis g2.xis
        etas := List.zipWith (fun a b2 => (Expr.addE a b2).expand) g1.etas g2.etas
        total_space := g1.total_space } := (Except.ok.inj hadd).symm
  subst hg12
  have hzipE : ∀ (l1 l2 : List Expr),
      List.zipWith (fun a b2 => (Expr.addE a b2).expand) l1 l2 =
        List.zipWith Expr.addE l1 l2 := fun _ _ => rfl
  have hx12 : (List.zipWith (fun a b2 => (Expr.addE a b2).expand)
      g1.xis g2.xis).length = b.length := by
    rw [List.length_zipWith, hx1, hx2]
    simp
  have he12 : (List.zipWith (fun a b2 => (Expr.addE a b2).expand)
      g1.etas g2.etas).length = f.length := by
    rw [List.length_zipWith, he1, he2]
    simp
  have hxp : ∀ k, toPoly ((List.zipWith (fun a b2 => (Expr.addE a b2).expand)
      g1.xis g2.xis).getD k (Expr.num 0)) =
      toPoly (g1.xis.getD k (Expr.num 0)) + toPoly (g2.xis.getD k (Expr.num 0)) := by
    intro k
    rw [hzipE, zipWith_addE_getD (hx1.trans hx2.symm) k, toPoly_addE]
  have hep : ∀ k, toPoly ((List.zipWith (fun a b2 => (Expr.addE a b2).expand)
      g1.etas g2.etas).getD k (Expr.num 0)) =
      toPoly (g1.etas.getD k (Expr.num 0)) + toPoly (g2.etas.getD k (Expr.num 0)) := by
    intro k
    rw [hzipE, zipWith_addE_getD (he1.trans he2.symm) k, toPoly_addE]
  refine ⟨_, _, _, apply_make_eq (d := d) hx12 he12 e,
    apply_make_eq (d := d) hx1 he1 e, apply_make_eq (d := d) hx2 he2 e, ?_⟩
  show toPoly (applyFiberFoldP e _ (JetSpace.make b f d).fibers _) =
    toPoly (applyFiberFoldP e _ (JetSpace.make b f d).fibers _) +
    toPoly (applyFiberFoldP e _ (JetSpace.make b f d).fibers _)
  apply applyFiberFoldP_linear
  · intro p hp q hq
    rw [make_fibers] at hp
    rcases List.mem_map.1 hp with ⟨dep, hdep, rfl⟩
    have hq2 := canonicalTable_entry_sound hq
    exact lookup2_canonicalProl_linear
      (by rw [hx12]; exact hx1) (by rw [hx12]; exact hx2) hxp
      f g1.etas g2.etas _
      (by rw [he12]; exact he1) (by rw [he12]; exact he2) hep
      dep q.1 (mem_jetKeys.2 hq2)
  · exact applyBaseFold_linear b g1.xis g2.xis _
      (by rw [hx12]; exact hx1) (by rw [hx12]; exact hx2) hxp
      (by simp [toPoly])

/-- Witness for C4 at a concrete pair of generators, expression and
degree-1 jet space. -/
theorem generator_add_apply_linear_witness :
    ∃ r12 r1 r2,
      (Generator.make [Expr.add (Expr.num 1) (Expr.sym ⟨"t"⟩)]
          [Expr.add (Expr.sym ⟨"W"⟩) (Expr.num 2)]
          ([⟨"t"⟩], [⟨"W"⟩])).apply
        (Expr.mul (Expr.sym ⟨"W_\x7bt\x7d"⟩) (Expr.sym ⟨"t"⟩))
        (JetSpace.make [⟨"t"⟩] [⟨"W"⟩] 1) = Except.ok r12 ∧
      (Generator.make [Expr.num 1] [Expr.sym ⟨"W"⟩] ([⟨"t"⟩], [⟨"W"⟩])).apply
        (Expr.mul (Expr.sym ⟨"W_\x7bt\x7d"⟩) (Expr.sym ⟨"t"⟩))
        (JetSpace.make [⟨"t"⟩] [⟨"W"⟩] 1) = Except.ok r1 ∧
      (Generator.make [Expr.sym ⟨"t"⟩] [Expr.num 2] ([⟨"t"⟩], [⟨"W"⟩])).apply
        (Expr.mul (Expr.sym ⟨"W_\x7bt\x7d"⟩) (Expr.sym ⟨"t"⟩))
        (JetSpace.make [⟨"t"⟩] [⟨"W"⟩] 1) = Except.ok r2 ∧
      ExprEq r12 (Expr.add r1 r2) := by
  refine generator_add_apply_linear (d := 1) ?_ ?_ ?_ ?_ ?_ ?_ ?_ _
  all_goals rfl

end SymmSpec
